import Mathlib

/-!
# dumb_fs: a shallow embedding of `c_fs.h`

The file system lives in one backing file that is mapped into memory.  The
embedding keeps the mapping as a function from byte offsets to bytes and
translates every function of `c_fs.h` into a state-passing definition over
the `Mapper`.

Conventions of the embedding:

* the layout is the LP64 one the constants of the source assume
  (`sizeof(void*) = sizeof(size_t) = 8`, `sizeof(int) = 4`,
  `sizeof(Node) = 104`);
* `size_t` values are natural numbers taken modulo `2^64` wherever the C
  arithmetic can wrap;
* a pointer into the mapping remembers the address of the mapping it was
  derived from; dereferencing it is defined only while that mapping is
  still the current one and the access lies inside it, and is a `fault`
  otherwise (undefined behaviour in C);
* `exit(1)` and a failed `assert` end the run with an error that carries the
  state at that point;
* loops that follow links stored in the mapping take a `fuel` bound.
-/

namespace DumbFs

/-! ## Constants and layout -/

def BLOCK_SIZE : Nat := 4096
def MAX_NAME_LENGTH : Nat := 64
def MAX_FD : Nat := 1024
def NULL_OFF : Nat := 0

/-- The modulus of `size_t` arithmetic, `2^64`. -/
def WORD : Nat := 18446744073709551616

/-- The largest length `ftruncate` accepts, `2^63 - 1` (`off_t` is a signed
64-bit integer). -/
def MAX_FILE_SIZE : Nat := 9223372036854775807

/-- The values of `NodeType`: `enum { ROOT, FIL, DIR, SIM }`. -/
def ROOT : Nat := 0
def FIL : Nat := 1
def DIR : Nat := 2
def SIM : Nat := 3

/-- The size `sizeof(Node)`: type (4 + 4 padding), parent, next_sibling, name[64], union (16). -/
def NODE_SIZE : Nat := 104

/-- Field offsets of `Node`. -/
def NODE_TYPE : Nat := 0
def NODE_PARENT : Nat := 8
def NODE_NEXT_SIBLING : Nat := 16
def NODE_NAME : Nat := 24
/-- First word of the union: `node.dir.first_child` and `node.file.size`. -/
def NODE_FIRST_CHILD : Nat := 88
def NODE_FILE_SIZE : Nat := 88
def NODE_FILE_FIRST_BLOCK : Nat := 96

/-- Field offsets of `NodeBlock` and `DataBlock`. -/
def BLOCK_NEXT : Nat := 0
def BLOCK_NODE_COUNT : Nat := 8
def BLOCK_NODES : Nat := 16
def BLOCK_DATA : Nat := 8

/-- Field offsets of `RootNode`. -/
def ROOT_TYPE : Nat := 0
def ROOT_FIRST_FREE_NODE : Nat := 88
def ROOT_FIRST_FREE_BLOCK : Nat := 96
def ROOT_ROOT_DIR : Nat := 104
def ROOT_FIRST_BLOCK : Nat := 112

/-- The macro `MAX_NODE_COUNT`: `(BLOCK_SIZE - sizeof(void*) - sizeof(size_t)) / sizeof(Node)`. -/
def MAX_NODE_COUNT : Nat := (BLOCK_SIZE - 8 - 8) / NODE_SIZE

/-- The macro `MAX_DATA_CAPACITY`: `(BLOCK_SIZE - sizeof(void*)) / sizeof(char)`. -/
def MAX_DATA_CAPACITY : Nat := (BLOCK_SIZE - 8) / 1

/-- The `whence` values of `seek_file`. -/
def SEEK_SET : Nat := 0
def SEEK_CUR : Nat := 1
def SEEK_END : Nat := 2

/-! ## Bytes and words -/

/-- Little-endian value of the `k` bytes at offset `a`. -/
def rdN (mem : Nat → Nat) (a : Nat) : Nat → Nat
  | 0 => 0
  | k + 1 => mem a % 256 + 256 * rdN mem (a + 1) k

/-- Store the low `k` bytes of `v` at offset `a`, little-endian. -/
def wrN (mem : Nat → Nat) (a k v : Nat) : Nat → Nat :=
  fun x => if a ≤ x ∧ x < a + k then v / 256 ^ (x - a) % 256 else mem x

/-- Fill `n` bytes at offset `a` with the byte `c` (`memset`). -/
def fillN (mem : Nat → Nat) (a n c : Nat) : Nat → Nat :=
  fun x => if a ≤ x ∧ x < a + n then c % 256 else mem x

/-- Copy `n` bytes of the buffer `src` (given by index) to offset `a`. -/
def wrBytes (mem : Nat → Nat) (a n : Nat) (src : Nat → Nat) : Nat → Nat :=
  fun x => if a ≤ x ∧ x < a + n then src (x - a) % 256 else mem x

/-- The `n` bytes at offset `a`, as a list. -/
def rdBytes (mem : Nat → Nat) (a n : Nat) : List Nat :=
  (List.range n).map (fun i => mem (a + i) % 256)

/-- The characters of a C string given as a list: up to the first NUL. -/
def cstr (s : List Nat) : List Nat :=
  (s.map (fun c => c % 256)).takeWhile (fun c => c != 0)

/-- What `strncpy(dst, s, n)` leaves in byte `i` of `dst`: the characters of
`s`, then NUL padding. -/
def strncpy_bytes (s : List Nat) : Nat → Nat :=
  fun i => (cstr s).getD i 0

/-- Conversion of a `size_t` to `int`. -/
def to_int (n : Nat) : Int := (((n + 2147483648) % 4294967296 : Nat) : Int) - 2147483648

/-- Conversion of an `int` to `size_t`. -/
def to_size_t (i : Int) : Nat := (i % 18446744073709551616).toNat

/-! ## State -/

/-- An entry of the handle table. -/
structure FD where
  in_use : Nat
  file : Nat
  offset : Nat

/-- A pointer into the mapping: the address of the mapping it was derived
from and the distance from it. -/
structure Ptr where
  base : Nat
  off : Nat

/-- Pointer arithmetic on `char*`. -/
def Ptr.add (p : Ptr) (k : Nat) : Ptr := ⟨p.base, p.off + k⟩

/-- The `Mapper` together with the mapped backing file.

* `root` is the address of the mapping (`RootNode* root`);
* `mem` are the bytes of the backing file, by offset;
* `place` is the kernel's choice of address: `place n` is where a mapping
  of `n` bytes is put by `mmap` and `mremap`.  `mremap` extends the mapping
  in place when `place` keeps the address and relocates it otherwise. -/
structure Mapper where
  file_size : Nat
  num_blocks : Nat
  root : Nat
  mem : Nat → Nat
  fd_table : Nat → FD
  place : Nat → Nat

/-- The backing file as the operating system keeps it. -/
structure BackingFile where
  size : Nat
  bytes : Nat → Nat

inductive Err where
  /-- An access outside the current mapping or outside the handle table. -/
  | fault
  /-- A failed `assert`. -/
  | assert_failed
  /-- `exit(1)` after "there already is a node with that name". -/
  | already_exists
  /-- `exit(1)` after a failed system call. -/
  | exit_failure
  /-- A loop did not finish within its fuel. -/
  | out_of_fuel
deriving DecidableEq

/-- Outcome of a run: a value and the state, or an error and the state at
the point the run ended. -/
inductive Res (α : Type) where
  | ok : α → Mapper → Res α
  | err : Err → Mapper → Res α

def Res.state {α : Type} : Res α → Mapper
  | .ok _ m => m
  | .err _ m => m

def Res.val {α : Type} : Res α → Option α
  | .ok a _ => some a
  | .err _ _ => none

def Res.error {α : Type} : Res α → Option Err
  | .ok _ _ => none
  | .err e _ => some e

/-- State-passing computations over the `Mapper`. -/
def FS (α : Type) : Type := Mapper → Res α

def FS.pure {α : Type} (a : α) : FS α := fun m => .ok a m

def FS.bind {α β : Type} (x : FS α) (f : α → FS β) : FS β := fun m =>
  match x m with
  | .ok a m1 => f a m1
  | .err e m1 => .err e m1

instance : Monad FS where
  pure := FS.pure
  bind := FS.bind

def fail {α : Type} (e : Err) : FS α := fun m => .err e m

/-- The current `Mapper`. -/
def getM : FS Mapper := fun m => .ok m m

/-! ## Address arithmetic and memory access -/

/-- The macro `OUT_OFFSET(root, off)`: the pointer `off` bytes into the mapping at `root`. -/
def OUT_OFFSET (root off : Nat) : Ptr := ⟨root, off⟩

/-- The macro `MAP_OFFSET(root, ptr)`: `(size_t)((char*)ptr - (size_t)root)`. -/
def MAP_OFFSET (root : Nat) (p : Ptr) : Nat :=
  (p.base + p.off + (WORD - root % WORD)) % WORD

/-- An access of `k` bytes through `p` is defined. -/
def valid (m : Mapper) (p : Ptr) (k : Nat) : Prop :=
  p.base = m.root ∧ p.off + k ≤ m.file_size

instance (m : Mapper) (p : Ptr) (k : Nat) : Decidable (valid m p k) := by
  unfold valid; infer_instance

def load (k : Nat) (p : Ptr) : FS Nat := fun m =>
  if valid m p k then .ok (rdN m.mem p.off k) m else .err .fault m

def store (k : Nat) (p : Ptr) (v : Nat) : FS Unit := fun m =>
  if valid m p k then .ok () { m with mem := wrN m.mem p.off k v } else .err .fault m

def load8 (p : Ptr) : FS Nat := load 1 p
def load32 (p : Ptr) : FS Nat := load 4 p
def load64 (p : Ptr) : FS Nat := load 8 p
def store8 (p : Ptr) (v : Nat) : FS Unit := store 1 p v
def store32 (p : Ptr) (v : Nat) : FS Unit := store 4 p v
def store64 (p : Ptr) (v : Nat) : FS Unit := store 8 p v

def memset (p : Ptr) (c n : Nat) : FS Unit := fun m =>
  if valid m p n then .ok () { m with mem := fillN m.mem p.off n c } else .err .fault m

/-- A `memcpy` of `n` bytes from a buffer of the caller into the mapping. -/
def memcpy_to (dst : Ptr) (src : Nat → Nat) (n : Nat) : FS Unit := fun m =>
  if valid m dst n then .ok () { m with mem := wrBytes m.mem dst.off n src }
  else .err .fault m

/-- A `memcpy` of `n` bytes from the mapping into a buffer of the caller. -/
def memcpy_from (src : Ptr) (n : Nat) : FS (List Nat) := fun m =>
  if valid m src n then .ok (rdBytes m.mem src.off n) m else .err .fault m

/-- The call `strncpy(dst, s, n)` with `dst` in the mapping. -/
def strncpy (dst : Ptr) (s : List Nat) (n : Nat) : FS Unit :=
  memcpy_to dst (strncpy_bytes s) n

/-- The test `strcmp(p, s) == 0` with `p` in the mapping and `s` a string of the caller. -/
def strcmp (p : Ptr) : List Nat → FS Bool
  | [] => do
    let a ← load8 p
    pure (a == 0)
  | c :: cs => do
    let a ← load8 p
    if a ≠ c % 256 then pure false
    else if a = 0 then pure true
    else strcmp (p.add 1) cs

/-- The test `strncmp(p, s, n) == 0` with `p` in the mapping and `s` a string of the caller. -/
def strncmp : Nat → Ptr → List Nat → FS Bool
  | 0, _, _ => pure true
  | n + 1, p, s => do
    let a ← load8 p
    if a ≠ s.headD 0 % 256 then pure false
    else if a = 0 then pure true
    else strncmp n (p.add 1) s.tail

/-- The test `strncmp(a, b, n) == 0` on two strings of the caller. -/
def strncmp_str : Nat → List Nat → List Nat → Bool
  | 0, _, _ => true
  | n + 1, a, b =>
    if a.headD 0 % 256 ≠ b.headD 0 % 256 then false
    else if a.headD 0 % 256 = 0 then true
    else strncmp_str n a.tail b.tail

/-- Index of the first `c` before the terminating NUL, as a `size_t`. -/
def find_char_idx (c : Nat) : List Nat → Nat → Option Nat
  | [], _ => none
  | x :: xs, i =>
    if x % 256 = 0 then none
    else if x % 256 = c then some i
    else find_char_idx c xs (i + 1)

/-- The function `find_char(str, c)`: the index converted to `int`, or `-1`. -/
def find_char (str : List Nat) (c : Nat) : Int :=
  match find_char_idx c str 0 with
  | some i => to_int i
  | none => -1

/-! ## Handle table -/

def fd_get (fd : Nat) : FS FD := fun m =>
  if fd < MAX_FD then .ok (m.fd_table fd) m else .err .fault m

def fd_set (fd : Nat) (e : FD) : FS Unit := fun m =>
  if fd < MAX_FD then
    .ok () { m with fd_table := fun i => if i = fd then e else m.fd_table i }
  else .err .fault m

/-! ## Allocators -/

def get_first_empty_block (root : Nat) : FS Nat := do
  let b ← load64 ⟨root, ROOT_FIRST_FREE_BLOCK⟩
  if b = NULL_OFF then pure NULL_OFF
  else do
    let b1 ← load64 ⟨root, ROOT_FIRST_FREE_BLOCK⟩
    let block := OUT_OFFSET root b1
    let n ← load64 (block.add BLOCK_NEXT)
    if n = NULL_OFF then do
      store64 ⟨root, ROOT_FIRST_FREE_BLOCK⟩ NULL_OFF
      pure b
    else do
      let next := OUT_OFFSET root n
      store64 ⟨root, ROOT_FIRST_FREE_BLOCK⟩ (MAP_OFFSET root next)
      pure b

/-- The part of `get_block` that extends the backing file by one block
(`ftruncate`, which fills the new block with zero bytes and fails beyond
`MAX_FILE_SIZE`) and remaps it (`mremap` with `MREMAP_MAYMOVE`). -/
def grow_store : FS Nat := fun m =>
  let old_size := m.file_size
  let new_size := old_size + BLOCK_SIZE
  let block_idx := m.num_blocks
  if MAX_FILE_SIZE < new_size then
    .err .exit_failure { m with file_size := new_size, num_blocks := block_idx + 1 }
  else
    .ok (block_idx * BLOCK_SIZE % WORD)
      { m with
        file_size := new_size
        num_blocks := block_idx + 1
        mem := fun a => if a < old_size then m.mem a else 0
        root := m.place new_size }

def get_block : FS Nat := do
  let m ← getM
  let block ← get_first_empty_block m.root
  if block ≠ NULL_OFF then pure block
  else grow_store

def new_data_block : FS Nat := do
  let block ← get_block
  let m ← getM
  memset (OUT_OFFSET m.root block) 0 BLOCK_SIZE
  pure block

def new_node_block : FS Nat := do
  let b ← get_block
  let m ← getM
  let block := OUT_OFFSET m.root b
  store64 (block.add BLOCK_NEXT) NULL_OFF
  store64 (block.add BLOCK_NODE_COUNT) 0
  let next ← load64 ⟨m.root, ROOT_FIRST_BLOCK⟩
  if next = NULL_OFF then do
    store64 ⟨m.root, ROOT_FIRST_BLOCK⟩ b
    pure b
  else do
    store64 ⟨m.root, ROOT_FIRST_BLOCK⟩ b
    store64 (block.add BLOCK_NEXT) next
    pure b

def get_first_empty_node (root : Nat) : FS Nat := do
  let first_free ← load64 ⟨root, ROOT_FIRST_FREE_NODE⟩
  if first_free = NULL_OFF then pure NULL_OFF
  else do
    let node := OUT_OFFSET root first_free
    let nn ← load64 node
    if nn = NULL_OFF then do
      store64 ⟨root, ROOT_FIRST_FREE_NODE⟩ NULL_OFF
      pure first_free
    else do
      let nn1 ← load64 node
      let next := OUT_OFFSET root nn1
      store64 ⟨root, ROOT_FIRST_FREE_NODE⟩ (MAP_OFFSET root next)
      pure first_free

/-- The branch of `get_node` that takes a new node block. -/
def get_node_new_block (f : Nat) : FS Nat := do
  let b ← new_node_block
  let m ← getM
  let block := OUT_OFFSET m.root b
  store64 (block.add BLOCK_NODE_COUNT) 1
  store64 (block.add BLOCK_NEXT) f
  store64 ⟨m.root, ROOT_FIRST_BLOCK⟩ (MAP_OFFSET m.root block)
  pure (MAP_OFFSET m.root (block.add BLOCK_NODES))

/-- The branch of `get_node` that takes the next slot of the head node block. -/
def get_node_next_slot (first : Ptr) : FS Nat := do
  let c ← load64 (first.add BLOCK_NODE_COUNT)
  store64 (first.add BLOCK_NODE_COUNT) ((c + 1) % WORD)
  let c1 ← load64 (first.add BLOCK_NODE_COUNT)
  let m ← getM
  pure (MAP_OFFSET m.root (first.add (BLOCK_NODES + NODE_SIZE * ((c1 + (WORD - 1)) % WORD))))

def get_node : FS Nat := do
  let m ← getM
  let node ← get_first_empty_node m.root
  if node ≠ NULL_OFF then pure node
  else do
    let f ← load64 ⟨m.root, ROOT_FIRST_BLOCK⟩
    let first := OUT_OFFSET m.root f
    if f = NULL_OFF then get_node_new_block f
    else do
      let count ← load64 (first.add BLOCK_NODE_COUNT)
      if MAX_NODE_COUNT ≤ count then get_node_new_block f
      else get_node_next_slot first

/-! ## Opening and closing the store -/

/-- The body of `new_mapper` for an empty backing file, after the mapping
has been set up. -/
def new_mapper_init (root : Nat) : FS Unit := do
  store32 ⟨root, ROOT_TYPE⟩ ROOT
  store64 ⟨root, ROOT_FIRST_FREE_BLOCK⟩ NULL_OFF
  store64 ⟨root, ROOT_FIRST_FREE_NODE⟩ NULL_OFF
  let rd ← get_node
  let m ← getM
  let root_dir := OUT_OFFSET m.root rd
  store32 (root_dir.add NODE_TYPE) DIR
  store8 (root_dir.add NODE_NAME) 0
  store64 (root_dir.add NODE_FIRST_CHILD) NULL_OFF
  store64 (root_dir.add NODE_NEXT_SIBLING) NULL_OFF
  store64 (root_dir.add NODE_PARENT) NULL_OFF
  let m1 ← getM
  store64 ⟨m1.root, ROOT_ROOT_DIR⟩ rd

/-- The function `new_mapper(filename)`: `file` is the backing file found under that name
and `place` the kernel's placement of mappings.  The handle table comes from
`calloc`.  A file shorter than one block is extended to one block. -/
def new_mapper (place : Nat → Nat) (file : BackingFile) : Res Unit :=
  let file_size := file.size
  let num_blocks := file_size / BLOCK_SIZE
  let file_empty := num_blocks = 0
  let m : Mapper :=
    if file_empty then
      { file_size := BLOCK_SIZE
        num_blocks := 1
        root := place BLOCK_SIZE
        mem := fun a => if a < file_size then file.bytes a else 0
        fd_table := fun _ => ⟨0, 0, 0⟩
        place := place }
    else
      { file_size := file_size
        num_blocks := num_blocks
        root := place file_size
        mem := file.bytes
        fd_table := fun _ => ⟨0, 0, 0⟩
        place := place }
  if file_empty then new_mapper_init m.root m else .ok () m

/-- The function `close_mapper`: `msync` and `close` leave the backing file with the
bytes of the mapping. -/
def close_mapper (m : Mapper) : BackingFile :=
  { size := m.file_size, bytes := m.mem }

/-- A backing file that does not exist yet (`O_CREAT`). -/
def empty_file : BackingFile := { size := 0, bytes := fun _ => 0 }

/-! ## Namespace -/

def initialize_dir (dir : Ptr) : FS Unit := do
  store32 (dir.add NODE_TYPE) DIR
  store64 (dir.add NODE_FIRST_CHILD) NULL_OFF

def initialize_file (file : Ptr) : FS Unit := do
  store32 (file.add NODE_TYPE) FIL
  store64 (file.add NODE_FILE_FIRST_BLOCK) NULL_OFF
  store64 (file.add NODE_FILE_SIZE) 0

/-- The function `create_iterator`: the iterator is its `node` field. -/
def create_iterator (n : Nat) : FS Nat := do
  let m ← getM
  let node := OUT_OFFSET m.root n
  let t ← load32 (node.add NODE_TYPE)
  if t ≠ DIR then fail .assert_failed
  else load64 (node.add NODE_FIRST_CHILD)

/-- The function `iter_next`: the offset yielded and the iterator afterwards. -/
def iter_next (iter : Nat) : FS (Nat × Nat) := do
  if iter = NULL_OFF then pure (NULL_OFF, iter)
  else do
    let n := iter
    let m ← getM
    let node := OUT_OFFSET m.root n
    let ns ← load64 (node.add NODE_NEXT_SIBLING)
    if ns = NULL_OFF then pure (n, NULL_OFF)
    else do
      let ns1 ← load64 (node.add NODE_NEXT_SIBLING)
      pure (n, ns1)

/-- The search loop of `create_children`. -/
def create_children_scan (name : List Nat) : Nat → Nat → FS Unit
  | 0, _ => fail .out_of_fuel
  | fuel + 1, iter => do
    let r ← iter_next iter
    if r.1 = NULL_OFF then pure ()
    else do
      let m ← getM
      let s := OUT_OFFSET m.root r.1
      let same ← strcmp (s.add NODE_NAME) name
      if same then fail .already_exists
      else create_children_scan name fuel r.2

def create_children (fuel : Nat) (dir : Ptr) (name : List Nat) : FS Nat := do
  let t ← load32 (dir.add NODE_TYPE)
  if t ≠ DIR then fail .assert_failed
  else do
    let m ← getM
    let iter ← create_iterator (MAP_OFFSET m.root dir)
    create_children_scan name fuel iter
    let nc ← get_node
    let m1 ← getM
    let new_child := OUT_OFFSET m1.root nc
    store64 (new_child.add NODE_PARENT) (MAP_OFFSET m1.root dir)
    strncpy (new_child.add NODE_NAME) name MAX_NAME_LENGTH
    let first_child ← load64 (dir.add NODE_FIRST_CHILD)
    store64 (dir.add NODE_FIRST_CHILD) (MAP_OFFSET m1.root new_child)
    store64 (new_child.add NODE_NEXT_SIBLING) first_child
    pure nc

/-- The function `create_dir`; the address of the child is taken after `create_children`
has returned. -/
def create_dir (fuel : Nat) (d : Nat) (name : List Nat) : FS Unit := do
  let m ← getM
  let dir := OUT_OFFSET m.root d
  let c ← create_children fuel dir name
  let m1 ← getM
  initialize_dir (OUT_OFFSET m1.root c)

/-- The function `create_file`; the address of the child is taken after `create_children`
has returned. -/
def create_file (fuel : Nat) (d : Nat) (name : List Nat) : FS Unit := do
  let m ← getM
  let dir := OUT_OFFSET m.root d
  let c ← create_children fuel dir name
  let m1 ← getM
  initialize_file (OUT_OFFSET m1.root c)

/-- The search loop of `traverse_single_step`. -/
def traverse_scan (name : List Nat) (len : Nat) : Nat → Nat → FS Nat
  | 0, _ => fail .out_of_fuel
  | fuel + 1, iter => do
    let r ← iter_next iter
    if r.1 = NULL_OFF then pure NULL_OFF
    else do
      let m ← getM
      let node := OUT_OFFSET m.root r.1
      let same ← strncmp len (node.add NODE_NAME) name
      if same then pure r.1
      else traverse_scan name len fuel r.2

def traverse_single_step (fuel : Nat) (dir : Nat) (name : List Nat) (len : Nat) : FS Nat := do
  let iter ← create_iterator dir
  traverse_scan name len fuel iter

/-- The loop of `traverse_path`; `steps` bounds the number of tokens. -/
def traverse_path_loop (fuel : Nat) : Nat → Nat → List Nat → FS Nat
  | 0, _, _ => fail .out_of_fuel
  | steps + 1, found_node, path => do
    let e := find_char path 47
    let finished := decide (e = -1)
    let end_ := if e = -1 then find_char path 0 else e
    let m ← getM
    let f := OUT_OFFSET m.root found_node
    let found ←
      if strncmp_str (to_size_t end_) path [46, 46] then do
        let p ← load64 (f.add NODE_PARENT)
        if p ≠ NULL_OFF then load64 (f.add NODE_PARENT) else pure found_node
      else traverse_single_step fuel found_node path (to_size_t end_)
    if finished then pure found
    else traverse_path_loop fuel steps found (path.drop (end_ + 1).toNat)

/-- The function `traverse_path`: every round of the loop but the last consumes a `'/'`. -/
def traverse_path (fuel : Nat) (dir : Nat) (path : List Nat) : FS Nat :=
  traverse_path_loop fuel (path.length + 1) dir path

/-! ## File input and output -/

def get_empty_fd_from (m : Mapper) : Nat → Nat → Nat
  | 0, i => i
  | k + 1, i => if (m.fd_table i).in_use = 0 then i else get_empty_fd_from m k (i + 1)

/-- The function `get_empty_fd`: the first index below `MAX_FD` whose entry is free, else `MAX_FD`. -/
def get_empty_fd (m : Mapper) : Nat := get_empty_fd_from m MAX_FD 0

def open_file (file : Ptr) : FS Nat := do
  let m ← getM
  let i := get_empty_fd m
  let _ ← fd_get i
  fd_set i ⟨1, MAP_OFFSET m.root file, 0⟩
  pure i

def close_file (fd : Nat) : FS Unit := do
  let e ← fd_get fd
  fd_set fd { e with in_use := 0 }

/-- The function `min` of the source. -/
def min_sz (a b : Nat) : Nat := if a < b then a else b

/-- The `for` loop shared by `write_file` and `read_file`: skip `num_block`
blocks of the chain, linking a new block wherever the chain ends. -/
def skip_blocks : Nat → Nat → FS Nat
  | 0, block => pure block
  | k + 1, block => do
    let m ← getM
    let nb ← load64 ((OUT_OFFSET m.root block).add BLOCK_NEXT)
    if nb = NULL_OFF then do
      let new_block ← new_data_block
      let m1 ← getM
      store64 ((OUT_OFFSET m1.root block).add BLOCK_NEXT) new_block
    else pure ()
    let m2 ← getM
    let next ← load64 ((OUT_OFFSET m2.root block).add BLOCK_NEXT)
    skip_blocks k next

/-- The step both copy loops take after a chunk: link a new block if more
is to come and the chain ends, then move to the next block. -/
def advance_block (more : Bool) (block : Nat) : FS Nat := do
  if more then do
    let m ← getM
    let nb ← load64 ((OUT_OFFSET m.root block).add BLOCK_NEXT)
    if nb = NULL_OFF then do
      let new_block ← new_data_block
      let m1 ← getM
      store64 ((OUT_OFFSET m1.root block).add BLOCK_NEXT) new_block
    else pure ()
  else pure ()
  let m2 ← getM
  load64 ((OUT_OFFSET m2.root block).add BLOCK_NEXT)

/-- The `while (n_written != len)` loop of `write_file`. -/
def write_loop (data : Nat → Nat) (len : Nat) : Nat → Nat → Nat → Nat → FS Nat
  | 0, _, _, n_written => if n_written = len then pure n_written else fail .out_of_fuel
  | fuel + 1, block, block_offset, n_written =>
    if n_written = len then pure n_written
    else do
      let m ← getM
      let dst := ((OUT_OFFSET m.root block).add BLOCK_DATA).add block_offset
      let n := min_sz (BLOCK_SIZE - block_offset) (len - n_written)
      memcpy_to dst (fun i => data (n_written + i)) n
      let n_written := n_written + n
      let next ← advance_block (decide (n_written ≠ len)) block
      write_loop data len fuel next 0 n_written

/-- The first block of the file, allocated when there is none; the block
is allocated before the field is addressed. -/
def first_block_of (file : Nat) : FS Nat := do
  let m ← getM
  let fb ← load64 ((OUT_OFFSET m.root file).add NODE_FILE_FIRST_BLOCK)
  if fb = NULL_OFF then do
    let b ← new_data_block
    let m1 ← getM
    store64 ((OUT_OFFSET m1.root file).add NODE_FILE_FIRST_BLOCK) b
  else pure ()
  let m2 ← getM
  load64 ((OUT_OFFSET m2.root file).add NODE_FILE_FIRST_BLOCK)

/-- The function `write_file`; `data` is the buffer of the caller by index, read at the
indices below `len`.  Every round of the copy loop writes at least one
byte, so `len` rounds suffice. -/
def write_file (fd : Nat) (data : Nat → Nat) (len : Nat) : FS Int := do
  let entry ← fd_get fd
  if entry.in_use = 0 then fail .assert_failed
  else do
    let offset := entry.offset
    let file := entry.file
    let m ← getM
    let file_length ← load64 ((OUT_OFFSET m.root file).add NODE_FILE_SIZE)
    if file_length ≤ (offset + len) % WORD then
      store64 ((OUT_OFFSET m.root file).add NODE_FILE_SIZE) ((offset + len + 1) % WORD)
    else pure ()
    let num_block := offset / BLOCK_SIZE
    let first ← first_block_of file
    let block ← skip_blocks num_block first
    let block_offset := offset % BLOCK_SIZE
    let n_written ← write_loop data len len block block_offset 0
    let entry1 ← fd_get fd
    fd_set fd { entry1 with offset := (entry1.offset + n_written) % WORD }
    pure (to_int n_written)

/-- The `while (n_read != len)` loop of `read_file`; the bytes copied so far
are `out`. -/
def read_loop (len : Nat) : Nat → Nat → Nat → Nat → List Nat → FS (Nat × List Nat)
  | 0, _, _, n_read, out => if n_read = len then pure (n_read, out) else fail .out_of_fuel
  | fuel + 1, block, block_offset, n_read, out =>
    if n_read = len then pure (n_read, out)
    else do
      let m ← getM
      let src := ((OUT_OFFSET m.root block).add BLOCK_DATA).add block_offset
      let n := min_sz (BLOCK_SIZE - block_offset) (len - n_read)
      let chunk ← memcpy_from src n
      let n_read := n_read + n
      let next ← advance_block (decide (n_read ≠ len)) block
      read_loop len fuel next 0 n_read (out ++ chunk)

/-- The function `read_file`: the value returned and the bytes copied into the buffer. -/
def read_file (fd : Nat) (len : Nat) : FS (Int × List Nat) := do
  let entry ← fd_get fd
  if entry.in_use = 0 then fail .assert_failed
  else do
    let offset := entry.offset
    let file := entry.file
    let m ← getM
    let file_length ← load64 ((OUT_OFFSET m.root file).add NODE_FILE_SIZE)
    let len := min_sz len ((file_length + (WORD - offset % WORD)) % WORD)
    let num_block := offset / BLOCK_SIZE
    let first ← first_block_of file
    let block ← skip_blocks num_block first
    let block_offset := offset % BLOCK_SIZE
    let r ← read_loop len len block block_offset 0 []
    let entry1 ← fd_get fd
    fd_set fd { entry1 with offset := (entry1.offset + r.1) % WORD }
    pure (to_int len, r.2)

def seek_file (fd : Nat) (offset : Nat) (flag : Nat) : FS Unit := do
  let entry ← fd_get fd
  if entry.in_use = 0 then fail .assert_failed
  else do
    let m ← getM
    let file := OUT_OFFSET m.root entry.file
    if flag = SEEK_SET then
      fd_set fd { entry with offset := offset % WORD }
    else if flag = SEEK_END then do
      let size ← load64 (file.add NODE_FILE_SIZE)
      fd_set fd { entry with offset := (size + (WORD - offset % WORD) + (WORD - 1)) % WORD }
    else if flag = SEEK_CUR then
      fd_set fd { entry with offset := (entry.offset + offset) % WORD }
    else pure ()

/-! ## Iterating a directory -/

/-- The loop `while (n = iter_next(&iter), n != NULL_OFF)` of the source
(`ls`), collecting the offsets it yields. -/
def iter_children_loop : Nat → Nat → FS (List Nat)
  | 0, _ => fail .out_of_fuel
  | fuel + 1, iter => do
    let r ← iter_next iter
    if r.1 = NULL_OFF then pure []
    else do
      let rest ← iter_children_loop fuel r.2
      pure (r.1 :: rest)

/-- The offsets yielded by iterating the children of `d`, in order. -/
def iter_children (fuel : Nat) (d : Nat) : FS (List Nat) := do
  let iter ← create_iterator d
  iter_children_loop fuel iter

/-! ## Predicates used by the statements -/

/-- The length of the backing file is a whole number of blocks, at least one. -/
def SizeInv (m : Mapper) : Prop :=
  m.file_size = BLOCK_SIZE * m.num_blocks ∧ 1 ≤ m.num_blocks

/-- The computation `x` keeps `P`, whether it returns or ends in an error. -/
structure Keeps {α : Type} (P : Mapper → Prop) (x : FS α) : Prop where
  run : ∀ m, P m → P (x m).state

/-- The calls of the interface. -/
inductive Call where
  | create_dir (fuel d : Nat) (name : List Nat)
  | create_file (fuel d : Nat) (name : List Nat)
  | open_file (file : Nat)
  | close_file (fd : Nat)
  | write_file (fd : Nat) (data : Nat → Nat) (len : Nat)
  | read_file (fd len : Nat)
  | seek_file (fd offset flag : Nat)

/-- Running a call; `open_file` is given the inode at offset `file`. -/
def Call.run : Call → FS Unit
  | .create_dir fuel d name => DumbFs.create_dir fuel d name
  | .create_file fuel d name => DumbFs.create_file fuel d name
  | .open_file file => do
    let m ← getM
    let _ ← DumbFs.open_file (OUT_OFFSET m.root file)
    pure ()
  | .close_file fd => DumbFs.close_file fd
  | .write_file fd data len => do
    let _ ← DumbFs.write_file fd data len
    pure ()
  | .read_file fd len => do
    let _ ← DumbFs.read_file fd len
    pure ()
  | .seek_file fd offset flag => DumbFs.seek_file fd offset flag

/-- The stores produced from a fresh one by calls that returned. -/
inductive Reachable : Mapper → Prop where
  | fresh (place : Nat → Nat) (m : Mapper) :
      new_mapper place empty_file = .ok () m → Reachable m
  | step (c : Call) (m m1 : Mapper) :
      Reachable m → c.run m = .ok () m1 → Reachable m1

/-- The mapper `m` seen at another address, with another handle table. -/
def Mapper.reopened (m : Mapper) (place : Nat → Nat) : Mapper :=
  { m with root := place m.file_size, fd_table := fun _ => ⟨0, 0, 0⟩, place := place }

/-- Two mappers hold the same store, each at its own address, and the
handle `fd` of the first is the handle `fd2` of the second. -/
structure Same (fd fd2 : Nat) (m m2 : Mapper) : Prop where
  mem : m2.mem = m.mem
  file_size : m2.file_size = m.file_size
  num_blocks : m2.num_blocks = m.num_blocks
  entry : m2.fd_table fd2 = m.fd_table fd

/-- Two runs end alike: the same value or the same error, in states that
hold the same store. -/
def RelRes {α : Type} (fd fd2 : Nat) (r r2 : Res α) : Prop :=
  r2.val = r.val ∧ r2.error = r.error ∧ Same fd fd2 r.state r2.state

/-- Reading a file: open the inode at `f`, `seek(o, SET)`, `read(len)`; the
value is the count returned and the bytes copied. -/
def open_seek_read (f o len : Nat) : FS (Int × List Nat) := do
  let m ← getM
  let h ← open_file (OUT_OFFSET m.root f)
  seek_file h o SEEK_SET
  read_file h len

/-- Following `next_sibling` from `x` visits exactly `cs`, each an inode
inside the mapping, and ends at `NULL_OFF`. -/
def SibChain (m : Mapper) : Nat → List Nat → Prop
  | x, [] => x = NULL_OFF
  | x, c :: cs =>
    x = c ∧ c ≠ NULL_OFF ∧ c + NODE_SIZE ≤ m.file_size ∧
      SibChain m (rdN m.mem (c + NODE_NEXT_SIBLING) 8) cs

instance (m : Mapper) (x : Nat) (cs : List Nat) : Decidable (SibChain m x cs) := by
  induction cs generalizing x with
  | nil => unfold SibChain; infer_instance
  | cons c l ih => unfold SibChain; infer_instance

/-- The C string in the first `k` bytes at offset `a`. -/
def cmem (mem : Nat → Nat) (a k : Nat) : List Nat :=
  (rdBytes mem a k).takeWhile (fun c => c != 0)

/-- The name stored in the inode at `n`: the bytes of the name field up to
the first NUL. -/
def stored_name (m : Mapper) (n : Nat) : List Nat :=
  cmem m.mem (n + NODE_NAME) MAX_NAME_LENGTH

/-- Offset of the head node block (`root->first_block`). -/
def head_block (m : Mapper) : Nat := rdN m.mem ROOT_FIRST_BLOCK 8

/-- The `node_count` of the head node block. -/
def head_count (m : Mapper) : Nat := rdN m.mem (head_block m + BLOCK_NODE_COUNT) 8

/-- The number `n` is the offset of one of the `MAX_NODE_COUNT` inode slots of a block
of a store of `fs` bytes, the root block apart. -/
def Slot (fs n : Nat) : Prop :=
  BLOCK_SIZE ≤ n ∧ n < fs ∧
    ∃ i, i < MAX_NODE_COUNT ∧ n % BLOCK_SIZE = BLOCK_NODES + NODE_SIZE * i

/-- The slot at `n` is one `get_node` does not hand out again: a slot of the
head node block below its `node_count`, or a slot of another block. -/
def Used (m : Mapper) (n : Nat) : Prop :=
  Slot m.file_size n ∧
    ∀ i, n = head_block m + BLOCK_NODES + NODE_SIZE * i → i < head_count m

/-- Well-formedness of a store whose inodes are the offsets in `ns`: the
free lists are empty, the head node block lies in the store and is not over
full, every inode occupies a slot that has been handed out and holds a
terminated name, and the children of every directory form a chain of inodes
with pairwise distinct names. -/
structure WF (m : Mapper) (ns : List Nat) : Prop where
  size : m.file_size = BLOCK_SIZE * m.num_blocks
  small : m.file_size ≤ MAX_FILE_SIZE
  free_node : rdN m.mem ROOT_FIRST_FREE_NODE 8 = NULL_OFF
  free_block : rdN m.mem ROOT_FIRST_FREE_BLOCK 8 = NULL_OFF
  head_ne : head_block m ≠ NULL_OFF
  head_al : head_block m % BLOCK_SIZE = 0
  head_in : head_block m + BLOCK_SIZE ≤ m.file_size
  count : head_count m ≤ MAX_NODE_COUNT
  used : ∀ n ∈ ns, Used m n
  named : ∀ n ∈ ns, (stored_name m n).length < MAX_NAME_LENGTH
  dirs : ∀ n ∈ ns, rdN m.mem (n + NODE_TYPE) 4 = DIR →
    ∃ cs, SibChain m (rdN m.mem (n + NODE_FIRST_CHILD) 8) cs ∧ (∀ c ∈ cs, c ∈ ns) ∧
      (cs.map (stored_name m)).Nodup

/-- The stores produced from a fresh one by `create_dir` and `create_file`
calls that returned, each on an inode created before and with a name of at
most `MAX_NAME_LENGTH - 1` characters, together with the inodes created so
far (the root directory first of all). -/
inductive Created : Mapper → List Nat → Prop where
  | fresh (place : Nat → Nat) (m : Mapper) :
      new_mapper place empty_file = .ok () m →
      Created m [rdN m.mem ROOT_ROOT_DIR 8]
  | create_dir (fuel d : Nat) (name : List Nat) (m m1 m2 : Mapper) (ns : List Nat) (nc : Nat) :
      Created m ns → d ∈ ns → (cstr name).length < MAX_NAME_LENGTH →
      create_children fuel (OUT_OFFSET m.root d) name m = .ok nc m1 →
      initialize_dir (OUT_OFFSET m1.root nc) m1 = .ok () m2 →
      Created m2 (nc :: ns)
  | create_file (fuel d : Nat) (name : List Nat) (m m1 m2 : Mapper) (ns : List Nat) (nc : Nat) :
      Created m ns → d ∈ ns → (cstr name).length < MAX_NAME_LENGTH →
      create_children fuel (OUT_OFFSET m.root d) name m = .ok nc m1 →
      initialize_file (OUT_OFFSET m1.root nc) m1 = .ok () m2 →
      Created m2 (nc :: ns)

/-- What `get_node` leaves when it returns `nc` from a well-formed store
`m`: the allocator fields are well-formed again, `nc` is a slot no inode of
`m` occupies, and no byte of an inode of `m` has changed. -/
structure AllocPost (m : Mapper) (nc : Nat) (m2 : Mapper) : Prop where
  size : m2.file_size = BLOCK_SIZE * m2.num_blocks
  small : m2.file_size ≤ MAX_FILE_SIZE
  grow : m.file_size ≤ m2.file_size
  free_node : rdN m2.mem ROOT_FIRST_FREE_NODE 8 = NULL_OFF
  free_block : rdN m2.mem ROOT_FIRST_FREE_BLOCK 8 = NULL_OFF
  head_ne : head_block m2 ≠ NULL_OFF
  head_al : head_block m2 % BLOCK_SIZE = 0
  head_in : head_block m2 + BLOCK_SIZE ≤ m2.file_size
  count : head_count m2 ≤ MAX_NODE_COUNT
  new_used : Used m2 nc
  fresh : ∀ n, Used m n → n + NODE_SIZE ≤ nc ∨ nc + NODE_SIZE ≤ n
  used : ∀ n, Used m n → Used m2 n
  frame : ∀ n, Used m n → ∀ x, n ≤ x → x < n + NODE_SIZE → m2.mem x = m.mem x
  moved : m2.root = m.root ∨ m2.root = m.place m2.file_size
  place : m2.place = m.place
  fds : m2.fd_table = m.fd_table

/-- What a create under the directory `d` leaves when it returns the new
inode `nc`: as `AllocPost`, and the new inode is linked in at the head of
the children of `d`, the only field of an older inode that has changed. -/
structure CreatePost (m : Mapper) (d : Nat) (name : List Nat) (nc : Nat) (m1 : Mapper) :
    Prop where
  size : m1.file_size = BLOCK_SIZE * m1.num_blocks
  small : m1.file_size ≤ MAX_FILE_SIZE
  grow : m.file_size ≤ m1.file_size
  free_node : rdN m1.mem ROOT_FIRST_FREE_NODE 8 = NULL_OFF
  free_block : rdN m1.mem ROOT_FIRST_FREE_BLOCK 8 = NULL_OFF
  head_ne : head_block m1 ≠ NULL_OFF
  head_al : head_block m1 % BLOCK_SIZE = 0
  head_in : head_block m1 + BLOCK_SIZE ≤ m1.file_size
  count : head_count m1 ≤ MAX_NODE_COUNT
  new_used : Used m1 nc
  fresh : ∀ n, Used m n → n + NODE_SIZE ≤ nc ∨ nc + NODE_SIZE ≤ n
  used : ∀ n, Used m n → Used m1 n
  frame : ∀ n, Used m n → ∀ x, n ≤ x → x < n + NODE_SIZE →
    ¬ (d + NODE_FIRST_CHILD ≤ x ∧ x < d + NODE_FIRST_CHILD + 8) → m1.mem x = m.mem x
  link : rdN m1.mem (d + NODE_FIRST_CHILD) 8 = nc
  parent : rdN m1.mem (nc + NODE_PARENT) 8 = d
  next : rdN m1.mem (nc + NODE_NEXT_SIBLING) 8 = rdN m.mem (d + NODE_FIRST_CHILD) 8
  name : stored_name m1 nc = cstr name
  root : m1.root = m.root

/-- The bytes a create leaves: the parent, the name and the sibling link
`fc` of the new inode at `nc` and the child link of the directory at `d`,
written in the order of `create_children` over the bytes `f`. -/
def create_bytes (f : Nat → Nat) (nc d : Nat) (name : List Nat) (fc : Nat) : Nat → Nat :=
  wrN (wrN (wrBytes (wrN f (nc + NODE_PARENT) 8 d) (nc + NODE_NAME) MAX_NAME_LENGTH
    (strncpy_bytes name)) (d + NODE_FIRST_CHILD) 8 nc) (nc + NODE_NEXT_SIBLING) 8 fc

/-- The bytes of a fresh store. -/
def fresh_mem : Nat → Nat := (new_mapper (fun _ => 0) empty_file).state.mem

/-- The fresh store `new_mapper` sets up in an empty backing file: the root
record in block 0 and one node block holding the root directory. -/
def fresh_mapper (place : Nat → Nat) : Mapper :=
  { file_size := 2 * BLOCK_SIZE
    num_blocks := 2
    root := place (2 * BLOCK_SIZE)
    mem := fresh_mem
    fd_table := fun _ => ⟨0, 0, 0⟩
    place := place }

/-- A name of the interface: at most `MAX_NAME_LENGTH - 1` characters, none
of them NUL or `'/'`. -/
def ValidName (name : List Nat) : Prop :=
  (∀ c ∈ name, c ≠ 0 ∧ c < 256 ∧ c ≠ 47) ∧ name.length < MAX_NAME_LENGTH

instance (name : List Nat) : Decidable (ValidName name) := by
  unfold ValidName; infer_instance

/-! ## Concrete stores -/

/-- The state a computation leaves. -/
def after {α : Type} (x : FS α) (m : Mapper) : Mapper := (x m).state

/-- A kernel that always extends the mapping in place. -/
def place_fixed : Nat → Nat := fun _ => 1048576

/-- A kernel that relocates the mapping whenever it grows. -/
def place_moving : Nat → Nat := fun n => 4096 * n

/-- A fresh store with the file `f` in the root directory, open on handle 0.
The root directory is the inode at 4112 and the file the inode at 4216. -/
def store_file : Mapper :=
  after (open_file (OUT_OFFSET 1048576 4216))
    (after (create_file 4 4112 [102]) (fresh_mapper place_fixed))

/-- The sequence of the read/write law on handle 0: `seek(0, SET)`,
`write(B, L)`, `seek(0, SET)`, `read(L)`; the value is the buffer read. -/
def seek_write_seek_read (B : Nat → Nat) (L : Nat) : FS (List Nat) := do
  seek_file 0 0 SEEK_SET
  let _ ← write_file 0 B L
  seek_file 0 0 SEEK_SET
  let r ← read_file 0 L
  pure r.2

/-- The store `store_file` after `seek(4096, SET)` and a write of the one byte `'x'`:
the file owns the blocks at 8192 and 12288, in this order. -/
def store_two_blocks : Mapper :=
  after (write_file 0 (fun _ => 120) 1) (after (seek_file 0 4096 SEEK_SET) store_file)

/-- A name of `MAX_NAME_LENGTH` characters. -/
def name64 : List Nat := List.replicate 64 97

/-- A fresh store with the directory `name64` in the root directory and the
directory `b` inside it. -/
def store_long_name : Mapper :=
  after (create_dir 4 4216 [98]) (after (create_dir 4 4112 name64) (fresh_mapper place_fixed))

/-- A fresh store with the directory `a` and the file `b` in the root
directory. -/
def store_two_children : Mapper :=
  after (create_file 4 4112 [98]) (after (create_dir 4 4112 [97]) (fresh_mapper place_fixed))

/-- A fresh store after `create_children(root, "a")`. -/
def store_dir_mid : Mapper :=
  after (create_children 4 (OUT_OFFSET 1048576 4112) [97]) (fresh_mapper place_fixed)

/-- A fresh store with the directory `a` (inode 4216) in the root directory. -/
def store_dir : Mapper :=
  after (initialize_dir (OUT_OFFSET 1048576 4216)) store_dir_mid

/-- A fresh store with the file `f` (inode 4216) in the root directory. -/
def store_created_file : Mapper :=
  after (create_file 4 4112 [102]) (fresh_mapper place_fixed)

/-- The bytes of "hello", by index. -/
def hello : Nat → Nat := fun i => [104, 101, 108, 108, 111].getD i 0

/-- The store `store_created_file` after the calls `open_file(f)`, which gives
handle 0, and `write_file(0, "hello", 5)`. -/
def store_written : Mapper :=
  after (Call.run (.write_file 0 hello 5)) (after (Call.run (.open_file 4216)) store_created_file)

/-! ## Predicates and stores for the handle table, reading and path resolution -/

/-- Following `next_block` from the block at `b` meets a block `k` times
over: each of these blocks has its link inside the mapping and a successor. -/
def BlockChain (m : Mapper) : Nat → Nat → Prop
  | 0, _ => True
  | k + 1, b =>
    b + 8 ≤ m.file_size ∧ rdN m.mem (b + BLOCK_NEXT) 8 ≠ NULL_OFF ∧
      BlockChain m k (rdN m.mem (b + BLOCK_NEXT) 8)

instance (m : Mapper) (k b : Nat) : Decidable (BlockChain m k b) := by
  induction k generalizing b with
  | zero => unfold BlockChain; infer_instance
  | succ k ih => unfold BlockChain; infer_instance

/-- The value `(size_t)-1`, the length `traverse_path` passes for the last
token of a path. -/
def SIZE_MAX : Nat := 18446744073709551615

/-- Calling `open_file` on the inode at `f`, `k` times over. -/
def open_times (f : Nat) : Nat → FS Unit
  | 0 => pure ()
  | k + 1 => do
    open_times f k
    let m ← getM
    let _ ← open_file (OUT_OFFSET m.root f)
    pure ()

/-- A name token of a path: characters other than NUL and `'/'`, and not
the empty token, `"."` or `".."`. -/
def NameToken (t : List Nat) : Prop :=
  (∀ c ∈ t, c ≠ 0 ∧ c < 256 ∧ c ≠ 47) ∧ t ≠ [] ∧ t ≠ [46] ∧ t ≠ [46, 46]

instance (t : List Nat) : Decidable (NameToken t) := by
  unfold NameToken; infer_instance

/-- The store `store_created_file` after `MAX_FD` calls of `open_file` on
its file: every slot of the handle table is in use. -/
def store_full : Mapper :=
  { store_created_file with fd_table := fun i => if i < MAX_FD then ⟨1, 4216, 0⟩ else ⟨0, 0, 0⟩ }

/-- The store `store_written` after `seek(6, SET)`: the cursor of handle 0 is
the size of the file, and the file has its first block. -/
def store_at_eof : Mapper := after (seek_file 0 6 SEEK_SET) store_written

/-- The store `store_dir` with the file `c` (inode 4320) in the directory `a`
(inode 4216). -/
def store_a_c : Mapper := after (create_file 4 4216 [99]) store_dir

/-- The store `store_a_c` with the directory `b` (inode 4424) in the directory
`a` as well. -/
def store_a_bc : Mapper := after (create_dir 4 4216 [98]) store_a_c

/-- A fresh store with the directory `ab` (inode 4216) in the root directory
and the file `c` (inode 4320) in it. -/
def store_ab_c : Mapper :=
  after (create_file 4 4216 [99]) (after (create_dir 4 4112 [97, 98]) (fresh_mapper place_fixed))

/-! ## Stores for the allocator and the shape of the tree -/

/-- The store `new_mapper` has set up in an empty backing file at the point
where it calls `get_node`: one block of zero bytes, which holds the root
record with both free lists and the list of node blocks empty. -/
def store_blank : Mapper :=
  { file_size := BLOCK_SIZE
    num_blocks := 1
    root := place_moving BLOCK_SIZE
    mem := fun _ => 0
    fd_table := fun _ => ⟨0, 0, 0⟩
    place := place_moving }

/-- A store of two blocks without node blocks whose second block is on the
free-block list. -/
def store_free_block : Mapper :=
  { file_size := 2 * BLOCK_SIZE
    num_blocks := 2
    root := place_fixed (2 * BLOCK_SIZE)
    mem := wrN (fun _ => 0) ROOT_FIRST_FREE_BLOCK 8 BLOCK_SIZE
    fd_table := fun _ => ⟨0, 0, 0⟩
    place := place_fixed }

/-- The state after a list of calls, each run on the state the one before
has left. -/
def run_calls : List Call → Mapper → Mapper
  | [], m => m
  | c :: cs, m => run_calls cs (after c.run m)

/-- Every call of the list returns. -/
def calls_return : List Call → Mapper → Bool
  | [], _ => true
  | c :: cs, m => (c.run m).error.isNone && calls_return cs (after c.run m)

/-- A buffer of `BLOCK_SIZE` bytes whose last eight bytes are the word 80. -/
def overrun_buffer : Nat → Nat := fun i => if i = 4088 then 80 else 0

/-- Calls on the file `f` (inode 4216) of `store_created_file`: open it, give
it the two blocks at 8192 and 12288 by writing one byte at position 4096,
write `overrun_buffer` at position 0, and write eight bytes `0xff` at
position 8192. -/
def overrun_calls : List Call :=
  [.open_file 4216, .seek_file 0 4096 SEEK_SET, .write_file 0 (fun _ => 120) 1,
   .seek_file 0 0 SEEK_SET, .write_file 0 overrun_buffer 4096,
   .seek_file 0 8192 SEEK_SET, .write_file 0 (fun _ => 255) 8]

/-- The store `store_created_file` after `overrun_calls`. -/
def store_overrun : Mapper := run_calls overrun_calls store_created_file

/-- The inodes below the sibling chain that starts at `x`, whose members
are children of `p`: `Forest m p x l` holds when following `next_sibling`
from `x` and, inside every directory met, `first_child`, visits the inodes
`l` in this order (every directory before its children, every inode before
its later siblings) and ends at `NULL_OFF` everywhere, and every inode of the
chain has `parent = p`, and so on below. -/
inductive Forest (m : Mapper) : Nat → Nat → List Nat → Prop where
  | nil (p : Nat) : Forest m p NULL_OFF []
  | leaf (p x : Nat) (rest : List Nat) :
      x ≠ NULL_OFF → x + NODE_SIZE ≤ m.file_size →
      rdN m.mem (x + NODE_PARENT) 8 = p →
      rdN m.mem (x + NODE_TYPE) 4 ≠ DIR →
      Forest m p (rdN m.mem (x + NODE_NEXT_SIBLING) 8) rest →
      Forest m p x (x :: rest)
  | dir (p x : Nat) (sub rest : List Nat) :
      x ≠ NULL_OFF → x + NODE_SIZE ≤ m.file_size →
      rdN m.mem (x + NODE_PARENT) 8 = p →
      rdN m.mem (x + NODE_TYPE) 4 = DIR →
      Forest m x (rdN m.mem (x + NODE_FIRST_CHILD) 8) sub →
      Forest m p (rdN m.mem (x + NODE_NEXT_SIBLING) 8) rest →
      Forest m p x (x :: (sub ++ rest))

/-- The list `l` with `nc` put right after `d`. -/
def insert_after (d nc : Nat) : List Nat → List Nat
  | [] => []
  | x :: l => if x = d then x :: nc :: l else x :: insert_after d nc l

/-- The inodes `ns` form a tree with the root `r`: `r` is a directory without
parent, and following `first_child` and `next_sibling` from `r` visits `r`
and then the inodes `l`, where `r :: l` has no inode twice and holds
exactly the inodes `ns`; every inode visited has as `parent` the directory
from whose child list it was reached (see `Forest`). -/
def TreeShape (m : Mapper) (r : Nat) (ns : List Nat) : Prop :=
  rdN m.mem (r + NODE_TYPE) 4 = DIR ∧ rdN m.mem (r + NODE_PARENT) 8 = NULL_OFF ∧
    ∃ l, Forest m r (rdN m.mem (r + NODE_FIRST_CHILD) 8) l ∧ (r :: l).Nodup ∧
      List.Perm (r :: l) ns

/-! ## Creates with any name, reads that stay in the store -/

/-- The allocator fields of the store are well-formed and every offset of
`ns` is an inode slot that has been handed out: the length of the backing
file is a whole number of blocks, both free lists are empty, the head node
block lies in the store and is not over full. -/
structure Alloc (m : Mapper) (ns : List Nat) : Prop where
  size : m.file_size = BLOCK_SIZE * m.num_blocks
  small : m.file_size ≤ MAX_FILE_SIZE
  free_node : rdN m.mem ROOT_FIRST_FREE_NODE 8 = NULL_OFF
  free_block : rdN m.mem ROOT_FIRST_FREE_BLOCK 8 = NULL_OFF
  head_ne : head_block m ≠ NULL_OFF
  head_al : head_block m % BLOCK_SIZE = 0
  head_in : head_block m + BLOCK_SIZE ≤ m.file_size
  count : head_count m ≤ MAX_NODE_COUNT
  used : ∀ n ∈ ns, Used m n

/-- The stores produced from a fresh one by `create_dir` and `create_file`
calls that returned, each on an inode created before and with any name,
together with the inodes created so far (the root directory first of all).
A call `create_dir(d, name)` returns when its `create_children` returns the
new inode `nc` and `initialize_dir` on `nc` returns, and likewise
`create_file`. -/
inductive Made : Mapper → List Nat → Prop where
  | fresh (place : Nat → Nat) (m : Mapper) :
      new_mapper place empty_file = .ok () m →
      Made m [rdN m.mem ROOT_ROOT_DIR 8]
  | create_dir (fuel d : Nat) (name : List Nat) (m m1 m2 : Mapper) (ns : List Nat) (nc : Nat) :
      Made m ns → d ∈ ns →
      create_children fuel (OUT_OFFSET m.root d) name m = .ok nc m1 →
      initialize_dir (OUT_OFFSET m1.root nc) m1 = .ok () m2 →
      Made m2 (nc :: ns)
  | create_file (fuel d : Nat) (name : List Nat) (m m1 m2 : Mapper) (ns : List Nat) (nc : Nat) :
      Made m ns → d ∈ ns →
      create_children fuel (OUT_OFFSET m.root d) name m = .ok nc m1 →
      initialize_file (OUT_OFFSET m1.root nc) m1 = .ok () m2 →
      Made m2 (nc :: ns)

/-- A fresh store after `create_children(root, name64)`. -/
def store_name64_mid : Mapper :=
  after (create_children 4 (OUT_OFFSET 1048576 4112) name64) (fresh_mapper place_fixed)

/-- A fresh store with the directory `name64` (inode 4216), whose name has
`MAX_NAME_LENGTH` characters, in the root directory. -/
def store_name64 : Mapper :=
  after (initialize_dir (OUT_OFFSET 1048576 4216)) store_name64_mid

/-- The store `store_dir` after `create_children(root, "b")`. -/
def store_dir_file_mid : Mapper :=
  after (create_children 4 (OUT_OFFSET 1048576 4112) [98]) store_dir

/-- A fresh store with the directory `a` (inode 4216) and the file `b`
(inode 4320) in the root directory. -/
def store_dir_file : Mapper :=
  after (initialize_file (OUT_OFFSET 1048576 4320)) store_dir_file_mid

/-- The store `store_file` after `seek(8192, SET)` and a write of the one
byte `'x'`: the file owns the blocks at 8192, 12288 and 16384, in this
order, and the store has 20480 bytes. -/
def store_three_blocks : Mapper :=
  after (write_file 0 (fun _ => 120) 1) (after (seek_file 0 8192 SEEK_SET) store_file)

/-- A buffer of bytes `'B'` whose bytes 4088 to 4095 are zero. -/
def law_buffer : Nat → Nat := fun i => if 4088 ≤ i ∧ i < 4096 then 0 else 66

/-- The store `store_two_blocks` after `seek(0, SET)`: a file of 4098 bytes
in the blocks at 8192 and 12288, with the cursor of handle 0 at 0. -/
def store_rewound : Mapper := after (seek_file 0 0 SEEK_SET) store_two_blocks

/-- Every access of the copy loop of `read_file` lies in the store and
meets no missing block, for `rem` bytes to copy from index `bo` of the data
area of block `b`: each chunk `min(BLOCK_SIZE - bo, rem)` lies in the store,
and so does the link of the block, which is not `NULL_OFF` when more is to
come. -/
def ReadChain (m : Mapper) : Nat → Nat → Nat → Nat → Prop
  | 0, _, _, rem => rem = 0
  | fuel + 1, b, bo, rem =>
    rem = 0 ∨
      (b + BLOCK_DATA + bo + min_sz (BLOCK_SIZE - bo) rem ≤ m.file_size ∧
        (min_sz (BLOCK_SIZE - bo) rem ≠ rem → rdN m.mem (b + BLOCK_NEXT) 8 ≠ NULL_OFF) ∧
        ReadChain m fuel (rdN m.mem (b + BLOCK_NEXT) 8) 0 (rem - min_sz (BLOCK_SIZE - bo) rem))

instance (m : Mapper) (fuel b bo rem : Nat) : Decidable (ReadChain m fuel b bo rem) := by
  induction fuel generalizing b bo rem with
  | zero => unfold ReadChain; infer_instance
  | succ k ih => unfold ReadChain; infer_instance

/-- The computation `x` does not end for want of fuel: the bound on the
rounds of its loops is never met. -/
structure Fueled {α : Type} (x : FS α) : Prop where
  run : ∀ m, (x m).error ≠ some .out_of_fuel

/-- The block `k` links after the block `b`. -/
def chain_block (m : Mapper) : Nat → Nat → Nat
  | 0, b => b
  | k + 1, b => chain_block m k (rdN m.mem (b + BLOCK_NEXT) 8)

/-- Every access of `read_file(fd, len)` lies in the store and meets no
missing block: the inode of the file lies in the store and has a first
block, the chain has the `cursor / BLOCK_SIZE` blocks the read skips, and
the copy loop, which starts at index `cursor % BLOCK_SIZE` of the block
reached and copies `min(len, size - cursor)` bytes, stays in the store
(`ReadChain`). -/
def ReadInStore (m : Mapper) (fd len : Nat) : Prop :=
  (m.fd_table fd).file + NODE_SIZE ≤ m.file_size ∧
  rdN m.mem ((m.fd_table fd).file + NODE_FILE_FIRST_BLOCK) 8 ≠ NULL_OFF ∧
  BlockChain m ((m.fd_table fd).offset / BLOCK_SIZE)
    (rdN m.mem ((m.fd_table fd).file + NODE_FILE_FIRST_BLOCK) 8) ∧
  ReadChain m
    (min len (rdN m.mem ((m.fd_table fd).file + NODE_FILE_SIZE) 8 - (m.fd_table fd).offset))
    (chain_block m ((m.fd_table fd).offset / BLOCK_SIZE)
      (rdN m.mem ((m.fd_table fd).file + NODE_FILE_FIRST_BLOCK) 8))
    ((m.fd_table fd).offset % BLOCK_SIZE)
    (min len (rdN m.mem ((m.fd_table fd).file + NODE_FILE_SIZE) 8 - (m.fd_table fd).offset))

instance (m : Mapper) (fd len : Nat) : Decidable (ReadInStore m fd len) := by
  unfold ReadInStore; infer_instance

/-! ## A file of more than `INT_MAX` bytes -/

/-- The store `store_file` after `seek(2147483648, SET)`, a write of the one
byte `'x'` and `seek(0, SET)`: the file `f` (inode 4216) has 2147483650
bytes, and the cursor of handle 0 is at 0. -/
def store_sparse : Mapper :=
  after (seek_file 0 0 SEEK_SET)
    (after (write_file 0 (fun _ => 120) 1)
      (after (seek_file 0 2147483648 SEEK_SET) store_file))

/-- The store while a write far behind the end gives the file at 4216 its
blocks: the data blocks are the blocks of the store from 8192 on, `k + 1`
of them, each linked to the one behind it and the last one to nothing, the
free-block list is empty, the file has the size `s` and the handle table
is `t`. -/
structure Tail (m : Mapper) (k s : Nat) (t : Nat → FD) : Prop where
  size : m.file_size = BLOCK_SIZE * m.num_blocks
  len : m.file_size = 8192 + BLOCK_SIZE * (k + 1)
  free : rdN m.mem ROOT_FIRST_FREE_BLOCK 8 = NULL_OFF
  fsize : rdN m.mem (4216 + NODE_FILE_SIZE) 8 = s
  first : rdN m.mem (4216 + NODE_FILE_FIRST_BLOCK) 8 = 8192
  links : ∀ i, i < k →
    rdN m.mem (8192 + BLOCK_SIZE * i + BLOCK_NEXT) 8 = 8192 + BLOCK_SIZE * (i + 1)
  last : rdN m.mem (8192 + BLOCK_SIZE * k + BLOCK_NEXT) 8 = NULL_OFF
  fds : m.fd_table = t

/-! # Theorems -/

set_option linter.unreachableTactic false
set_option linter.unusedTactic false
set_option linter.unusedVariables false
set_option maxRecDepth 100000

/-! ## Running computations -/

attribute [simp] Res.val Res.state Res.error OUT_OFFSET Ptr.add
  NODE_TYPE NODE_PARENT NODE_NEXT_SIBLING NODE_NAME NODE_FIRST_CHILD NODE_FILE_SIZE
  NODE_FILE_FIRST_BLOCK BLOCK_NEXT BLOCK_NODE_COUNT BLOCK_NODES BLOCK_DATA ROOT_TYPE
  ROOT_FIRST_FREE_NODE ROOT_FIRST_FREE_BLOCK ROOT_ROOT_DIR ROOT_FIRST_BLOCK NULL_OFF BLOCK_SIZE
  NODE_SIZE MAX_NODE_COUNT MAX_NAME_LENGTH WORD MAX_FILE_SIZE

@[simp] theorem bind_apply {α β : Type} (x : FS α) (f : α → FS β) (m : Mapper) :
    (x >>= f) m = match x m with
      | .ok a m1 => f a m1
      | .err e m1 => .err e m1 := rfl

@[simp] theorem pure_apply {α : Type} (a : α) (m : Mapper) : (pure a : FS α) m = .ok a m := rfl

@[simp] theorem getM_apply (m : Mapper) : getM m = .ok m m := rfl

@[simp] theorem fail_apply {α : Type} (e : Err) (m : Mapper) : (fail e : FS α) m = .err e m := rfl

theorem bind_ok {α β : Type} {x : FS α} {f : α → FS β} {m m1 : Mapper} {a : α}
    (h : x m = .ok a m1) : (x >>= f) m = f a m1 := by
  rw [bind_apply, h]

theorem bind_err {α β : Type} {x : FS α} {f : α → FS β} {m m1 : Mapper} {e : Err}
    (h : x m = .err e m1) : (x >>= f) m = .err e m1 := by
  rw [bind_apply, h]

/-- A run that returned splits at its first bind. -/
theorem bind_eq_ok {α β : Type} {x : FS α} {f : α → FS β} {m m2 : Mapper} {b : β}
    (h : (x >>= f) m = .ok b m2) : ∃ a m1, x m = .ok a m1 ∧ f a m1 = .ok b m2 := by
  rw [bind_apply] at h
  cases hx : x m with
  | ok a m1 => rw [hx] at h; exact ⟨a, m1, rfl, h⟩
  | err e m1 => rw [hx] at h; cases h

@[simp] theorem load_cur (k r off : Nat) (m : Mapper) (h : r = m.root) :
    load k ⟨r, off⟩ m =
      if off + k ≤ m.file_size then .ok (rdN m.mem off k) m else .err .fault m := by
  unfold load valid
  by_cases h1 : off + k ≤ m.file_size <;> simp [h, h1]

@[simp] theorem store_cur (k r off v : Nat) (m : Mapper) (h : r = m.root) :
    store k ⟨r, off⟩ v m =
      if off + k ≤ m.file_size then .ok () { m with mem := wrN m.mem off k v }
      else .err .fault m := by
  unfold store valid
  by_cases h1 : off + k ≤ m.file_size <;> simp [h, h1]

/-! ## The length of the backing file -/

theorem Keeps.bind {α β : Type} {P : Mapper → Prop} {x : FS α} {f : α → FS β}
    (hx : Keeps P x) (hf : ∀ a, Keeps P (f a)) : Keeps P (x >>= f) := by
  constructor
  intro m hm
  have h1 := hx.run m hm
  rw [bind_apply]
  cases h : x m with
  | ok a m1 => rw [h] at h1; exact (hf a).run m1 h1
  | err e m1 => rw [h] at h1; exact h1

theorem Keeps.pure {α : Type} {P : Mapper → Prop} (a : α) : Keeps P (pure a : FS α) :=
  ⟨fun _ hm => hm⟩

theorem Keeps.fail {α : Type} {P : Mapper → Prop} (e : Err) : Keeps P (fail e : FS α) :=
  ⟨fun _ hm => hm⟩

theorem Keeps.getM {P : Mapper → Prop} : Keeps P getM := ⟨fun _ hm => hm⟩

theorem Keeps.ite {α : Type} {P : Mapper → Prop} {c : Prop} [Decidable c] {x y : FS α}
    (hx : Keeps P x) (hy : Keeps P y) : Keeps P (if c then x else y) := by
  split <;> assumption

theorem Keeps.of_ok {α : Type} {P : Mapper → Prop} {x : FS α} (h : Keeps P x)
    {m m1 : Mapper} {a : α} (hm : P m) (hx : x m = .ok a m1) : P m1 := by
  have := h.run m hm
  rw [hx] at this
  exact this

theorem keeps_load (k : Nat) (p : Ptr) : Keeps SizeInv (load k p) := by
  constructor; intro m hm; unfold load; split <;> exact hm

theorem keeps_store (k : Nat) (p : Ptr) (v : Nat) : Keeps SizeInv (store k p v) := by
  constructor; intro m hm; unfold store; split <;> exact hm

theorem keeps_load8 (p : Ptr) : Keeps SizeInv (load8 p) := keeps_load 1 p
theorem keeps_load32 (p : Ptr) : Keeps SizeInv (load32 p) := keeps_load 4 p
theorem keeps_load64 (p : Ptr) : Keeps SizeInv (load64 p) := keeps_load 8 p
theorem keeps_store8 (p : Ptr) (v : Nat) : Keeps SizeInv (store8 p v) := keeps_store 1 p v
theorem keeps_store32 (p : Ptr) (v : Nat) : Keeps SizeInv (store32 p v) := keeps_store 4 p v
theorem keeps_store64 (p : Ptr) (v : Nat) : Keeps SizeInv (store64 p v) := keeps_store 8 p v

theorem keeps_memset (p : Ptr) (c n : Nat) : Keeps SizeInv (memset p c n) := by
  constructor; intro m hm; unfold memset; split <;> exact hm

theorem keeps_memcpy_to (p : Ptr) (src : Nat → Nat) (n : Nat) :
    Keeps SizeInv (memcpy_to p src n) := by
  constructor; intro m hm; unfold memcpy_to; split <;> exact hm

theorem keeps_memcpy_from (p : Ptr) (n : Nat) : Keeps SizeInv (memcpy_from p n) := by
  constructor; intro m hm; unfold memcpy_from; split <;> exact hm

theorem keeps_fd_get (fd : Nat) : Keeps SizeInv (fd_get fd) := by
  constructor; intro m hm; unfold fd_get; split <;> exact hm

theorem keeps_fd_set (fd : Nat) (e : FD) : Keeps SizeInv (fd_set fd e) := by
  constructor; intro m hm; unfold fd_set; split <;> exact hm

theorem keeps_grow_store : Keeps SizeInv grow_store := by
  constructor; intro m hm
  simp only [grow_store]
  split <;> (simp only [Res.state, SizeInv, BLOCK_SIZE] at *; omega)

theorem keeps_get_first_empty_block (r : Nat) : Keeps SizeInv (get_first_empty_block r) := by
  unfold get_first_empty_block
  repeat' with_reducible (first | intro _ | apply Keeps.bind | apply Keeps.ite | exact Keeps.pure _ | exact Keeps.fail _ | exact Keeps.getM | exact keeps_load8 _ | exact keeps_load32 _ | exact keeps_load64 _ | exact keeps_store8 _ _ | exact keeps_store32 _ _ | exact keeps_store64 _ _ | exact keeps_memset _ _ _ | exact keeps_memcpy_to _ _ _ | exact keeps_memcpy_from _ _ | exact keeps_fd_get _ | exact keeps_fd_set _ _)

theorem keeps_get_block : Keeps SizeInv get_block := by
  unfold get_block
  repeat' with_reducible (first | intro _ | apply Keeps.bind | apply Keeps.ite | exact Keeps.pure _ | exact Keeps.fail _ | exact Keeps.getM | exact keeps_load8 _ | exact keeps_load32 _ | exact keeps_load64 _ | exact keeps_store8 _ _ | exact keeps_store32 _ _ | exact keeps_store64 _ _ | exact keeps_memset _ _ _ | exact keeps_memcpy_to _ _ _ | exact keeps_memcpy_from _ _ | exact keeps_fd_get _ | exact keeps_fd_set _ _ | exact keeps_get_first_empty_block _ | exact keeps_grow_store)

theorem keeps_new_data_block : Keeps SizeInv new_data_block := by
  unfold new_data_block
  repeat' with_reducible (first | intro _ | apply Keeps.bind | apply Keeps.ite | exact Keeps.pure _ | exact Keeps.fail _ | exact Keeps.getM | exact keeps_load8 _ | exact keeps_load32 _ | exact keeps_load64 _ | exact keeps_store8 _ _ | exact keeps_store32 _ _ | exact keeps_store64 _ _ | exact keeps_memset _ _ _ | exact keeps_memcpy_to _ _ _ | exact keeps_memcpy_from _ _ | exact keeps_fd_get _ | exact keeps_fd_set _ _ | exact keeps_get_block)

theorem keeps_new_node_block : Keeps SizeInv new_node_block := by
  unfold new_node_block
  repeat' with_reducible (first | intro _ | apply Keeps.bind | apply Keeps.ite | exact Keeps.pure _ | exact Keeps.fail _ | exact Keeps.getM | exact keeps_load8 _ | exact keeps_load32 _ | exact keeps_load64 _ | exact keeps_store8 _ _ | exact keeps_store32 _ _ | exact keeps_store64 _ _ | exact keeps_memset _ _ _ | exact keeps_memcpy_to _ _ _ | exact keeps_memcpy_from _ _ | exact keeps_fd_get _ | exact keeps_fd_set _ _ | exact keeps_get_block)

theorem keeps_get_first_empty_node (r : Nat) : Keeps SizeInv (get_first_empty_node r) := by
  unfold get_first_empty_node
  repeat' with_reducible (first | intro _ | apply Keeps.bind | apply Keeps.ite | exact Keeps.pure _ | exact Keeps.fail _ | exact Keeps.getM | exact keeps_load8 _ | exact keeps_load32 _ | exact keeps_load64 _ | exact keeps_store8 _ _ | exact keeps_store32 _ _ | exact keeps_store64 _ _ | exact keeps_memset _ _ _ | exact keeps_memcpy_to _ _ _ | exact keeps_memcpy_from _ _ | exact keeps_fd_get _ | exact keeps_fd_set _ _)

theorem keeps_get_node : Keeps SizeInv get_node := by
  unfold get_node get_node_new_block get_node_next_slot
  repeat' with_reducible (first | intro _ | apply Keeps.bind | apply Keeps.ite | exact Keeps.pure _ | exact Keeps.fail _ | exact Keeps.getM | exact keeps_load8 _ | exact keeps_load32 _ | exact keeps_load64 _ | exact keeps_store8 _ _ | exact keeps_store32 _ _ | exact keeps_store64 _ _ | exact keeps_memset _ _ _ | exact keeps_memcpy_to _ _ _ | exact keeps_memcpy_from _ _ | exact keeps_fd_get _ | exact keeps_fd_set _ _ | exact keeps_new_node_block | exact keeps_get_first_empty_node _)

theorem keeps_new_mapper_init (r : Nat) : Keeps SizeInv (new_mapper_init r) := by
  unfold new_mapper_init
  repeat' with_reducible (first | intro _ | apply Keeps.bind | apply Keeps.ite | exact Keeps.pure _ | exact Keeps.fail _ | exact Keeps.getM | exact keeps_load8 _ | exact keeps_load32 _ | exact keeps_load64 _ | exact keeps_store8 _ _ | exact keeps_store32 _ _ | exact keeps_store64 _ _ | exact keeps_memset _ _ _ | exact keeps_memcpy_to _ _ _ | exact keeps_memcpy_from _ _ | exact keeps_fd_get _ | exact keeps_fd_set _ _ | exact keeps_get_node)

theorem keeps_strcmp (s : List Nat) : ∀ p, Keeps SizeInv (strcmp p s) := by
  induction s with
  | nil =>
    intro p; unfold strcmp
    repeat' with_reducible (first | intro _ | apply Keeps.bind | apply Keeps.ite | exact Keeps.pure _ | exact Keeps.fail _ | exact Keeps.getM | exact keeps_load8 _ | exact keeps_load32 _ | exact keeps_load64 _ | exact keeps_store8 _ _ | exact keeps_store32 _ _ | exact keeps_store64 _ _ | exact keeps_memset _ _ _ | exact keeps_memcpy_to _ _ _ | exact keeps_memcpy_from _ _ | exact keeps_fd_get _ | exact keeps_fd_set _ _)
  | cons c cs ih =>
    intro p; unfold strcmp
    repeat' with_reducible (first | intro _ | apply Keeps.bind | apply Keeps.ite | exact Keeps.pure _ | exact Keeps.fail _ | exact Keeps.getM | exact keeps_load8 _ | exact keeps_load32 _ | exact keeps_load64 _ | exact keeps_store8 _ _ | exact keeps_store32 _ _ | exact keeps_store64 _ _ | exact keeps_memset _ _ _ | exact keeps_memcpy_to _ _ _ | exact keeps_memcpy_from _ _ | exact keeps_fd_get _ | exact keeps_fd_set _ _ | exact ih _)

theorem keeps_strncmp (n : Nat) : ∀ p s, Keeps SizeInv (strncmp n p s) := by
  induction n with
  | zero => intro p s; unfold strncmp; exact Keeps.pure _
  | succ k ih =>
    intro p s; unfold strncmp
    repeat' with_reducible (first | intro _ | apply Keeps.bind | apply Keeps.ite | exact Keeps.pure _ | exact Keeps.fail _ | exact Keeps.getM | exact keeps_load8 _ | exact keeps_load32 _ | exact keeps_load64 _ | exact keeps_store8 _ _ | exact keeps_store32 _ _ | exact keeps_store64 _ _ | exact keeps_memset _ _ _ | exact keeps_memcpy_to _ _ _ | exact keeps_memcpy_from _ _ | exact keeps_fd_get _ | exact keeps_fd_set _ _ | exact ih _ _)

theorem keeps_create_iterator (n : Nat) : Keeps SizeInv (create_iterator n) := by
  unfold create_iterator
  repeat' with_reducible (first | intro _ | apply Keeps.bind | apply Keeps.ite | exact Keeps.pure _ | exact Keeps.fail _ | exact Keeps.getM | exact keeps_load8 _ | exact keeps_load32 _ | exact keeps_load64 _ | exact keeps_store8 _ _ | exact keeps_store32 _ _ | exact keeps_store64 _ _ | exact keeps_memset _ _ _ | exact keeps_memcpy_to _ _ _ | exact keeps_memcpy_from _ _ | exact keeps_fd_get _ | exact keeps_fd_set _ _)

theorem keeps_iter_next (it : Nat) : Keeps SizeInv (iter_next it) := by
  unfold iter_next
  repeat' with_reducible (first | intro _ | apply Keeps.bind | apply Keeps.ite | exact Keeps.pure _ | exact Keeps.fail _ | exact Keeps.getM | exact keeps_load8 _ | exact keeps_load32 _ | exact keeps_load64 _ | exact keeps_store8 _ _ | exact keeps_store32 _ _ | exact keeps_store64 _ _ | exact keeps_memset _ _ _ | exact keeps_memcpy_to _ _ _ | exact keeps_memcpy_from _ _ | exact keeps_fd_get _ | exact keeps_fd_set _ _)

theorem keeps_create_children_scan (name : List Nat) (fuel : Nat) :
    ∀ it, Keeps SizeInv (create_children_scan name fuel it) := by
  induction fuel with
  | zero => intro it; unfold create_children_scan; exact Keeps.fail _
  | succ k ih =>
    intro it; unfold create_children_scan
    repeat' with_reducible (first | intro _ | apply Keeps.bind | apply Keeps.ite | exact Keeps.pure _ | exact Keeps.fail _ | exact Keeps.getM | exact keeps_load8 _ | exact keeps_load32 _ | exact keeps_load64 _ | exact keeps_store8 _ _ | exact keeps_store32 _ _ | exact keeps_store64 _ _ | exact keeps_memset _ _ _ | exact keeps_memcpy_to _ _ _ | exact keeps_memcpy_from _ _ | exact keeps_fd_get _ | exact keeps_fd_set _ _ | exact keeps_iter_next _ | exact keeps_strcmp _ _ | exact ih _)

theorem keeps_create_children (fuel : Nat) (dir : Ptr) (name : List Nat) :
    Keeps SizeInv (create_children fuel dir name) := by
  unfold create_children strncpy
  repeat' with_reducible (first | intro _ | apply Keeps.bind | apply Keeps.ite | exact Keeps.pure _ | exact Keeps.fail _ | exact Keeps.getM | exact keeps_load8 _ | exact keeps_load32 _ | exact keeps_load64 _ | exact keeps_store8 _ _ | exact keeps_store32 _ _ | exact keeps_store64 _ _ | exact keeps_memset _ _ _ | exact keeps_memcpy_to _ _ _ | exact keeps_memcpy_from _ _ | exact keeps_fd_get _ | exact keeps_fd_set _ _ | exact keeps_create_iterator _ | exact keeps_create_children_scan _ _ _ | exact keeps_get_node)

theorem keeps_create_dir (fuel d : Nat) (name : List Nat) :
    Keeps SizeInv (create_dir fuel d name) := by
  unfold create_dir initialize_dir
  repeat' with_reducible (first | intro _ | apply Keeps.bind | apply Keeps.ite | exact Keeps.pure _ | exact Keeps.fail _ | exact Keeps.getM | exact keeps_load8 _ | exact keeps_load32 _ | exact keeps_load64 _ | exact keeps_store8 _ _ | exact keeps_store32 _ _ | exact keeps_store64 _ _ | exact keeps_memset _ _ _ | exact keeps_memcpy_to _ _ _ | exact keeps_memcpy_from _ _ | exact keeps_fd_get _ | exact keeps_fd_set _ _ | exact keeps_create_children _ _ _)

theorem keeps_create_file (fuel d : Nat) (name : List Nat) :
    Keeps SizeInv (create_file fuel d name) := by
  unfold create_file initialize_file
  repeat' with_reducible (first | intro _ | apply Keeps.bind | apply Keeps.ite | exact Keeps.pure _ | exact Keeps.fail _ | exact Keeps.getM | exact keeps_load8 _ | exact keeps_load32 _ | exact keeps_load64 _ | exact keeps_store8 _ _ | exact keeps_store32 _ _ | exact keeps_store64 _ _ | exact keeps_memset _ _ _ | exact keeps_memcpy_to _ _ _ | exact keeps_memcpy_from _ _ | exact keeps_fd_get _ | exact keeps_fd_set _ _ | exact keeps_create_children _ _ _)

theorem keeps_open_file (file : Ptr) : Keeps SizeInv (open_file file) := by
  unfold open_file
  repeat' with_reducible (first | intro _ | apply Keeps.bind | apply Keeps.ite | exact Keeps.pure _ | exact Keeps.fail _ | exact Keeps.getM | exact keeps_load8 _ | exact keeps_load32 _ | exact keeps_load64 _ | exact keeps_store8 _ _ | exact keeps_store32 _ _ | exact keeps_store64 _ _ | exact keeps_memset _ _ _ | exact keeps_memcpy_to _ _ _ | exact keeps_memcpy_from _ _ | exact keeps_fd_get _ | exact keeps_fd_set _ _)

theorem keeps_close_file (fd : Nat) : Keeps SizeInv (close_file fd) := by
  unfold close_file
  repeat' with_reducible (first | intro _ | apply Keeps.bind | apply Keeps.ite | exact Keeps.pure _ | exact Keeps.fail _ | exact Keeps.getM | exact keeps_load8 _ | exact keeps_load32 _ | exact keeps_load64 _ | exact keeps_store8 _ _ | exact keeps_store32 _ _ | exact keeps_store64 _ _ | exact keeps_memset _ _ _ | exact keeps_memcpy_to _ _ _ | exact keeps_memcpy_from _ _ | exact keeps_fd_get _ | exact keeps_fd_set _ _)

theorem keeps_seek_file (fd offset flag : Nat) : Keeps SizeInv (seek_file fd offset flag) := by
  unfold seek_file
  repeat' with_reducible (first | intro _ | apply Keeps.bind | apply Keeps.ite | exact Keeps.pure _ | exact Keeps.fail _ | exact Keeps.getM | exact keeps_load8 _ | exact keeps_load32 _ | exact keeps_load64 _ | exact keeps_store8 _ _ | exact keeps_store32 _ _ | exact keeps_store64 _ _ | exact keeps_memset _ _ _ | exact keeps_memcpy_to _ _ _ | exact keeps_memcpy_from _ _ | exact keeps_fd_get _ | exact keeps_fd_set _ _)

theorem keeps_first_block_of (file : Nat) : Keeps SizeInv (first_block_of file) := by
  unfold first_block_of
  repeat' with_reducible (first | intro _ | apply Keeps.bind | apply Keeps.ite | exact Keeps.pure _ | exact Keeps.fail _ | exact Keeps.getM | exact keeps_load8 _ | exact keeps_load32 _ | exact keeps_load64 _ | exact keeps_store8 _ _ | exact keeps_store32 _ _ | exact keeps_store64 _ _ | exact keeps_memset _ _ _ | exact keeps_memcpy_to _ _ _ | exact keeps_memcpy_from _ _ | exact keeps_fd_get _ | exact keeps_fd_set _ _ | exact keeps_new_data_block)

theorem keeps_skip_blocks (k : Nat) : ∀ block, Keeps SizeInv (skip_blocks k block) := by
  induction k with
  | zero => intro block; unfold skip_blocks; exact Keeps.pure _
  | succ k ih =>
    intro block; unfold skip_blocks
    repeat' with_reducible (first | intro _ | apply Keeps.bind | apply Keeps.ite | exact Keeps.pure _ | exact Keeps.fail _ | exact Keeps.getM | exact keeps_load8 _ | exact keeps_load32 _ | exact keeps_load64 _ | exact keeps_store8 _ _ | exact keeps_store32 _ _ | exact keeps_store64 _ _ | exact keeps_memset _ _ _ | exact keeps_memcpy_to _ _ _ | exact keeps_memcpy_from _ _ | exact keeps_fd_get _ | exact keeps_fd_set _ _ | exact keeps_new_data_block | exact ih _)

theorem keeps_advance_block (more : Bool) (block : Nat) :
    Keeps SizeInv (advance_block more block) := by
  unfold advance_block
  repeat' with_reducible (first | intro _ | apply Keeps.bind | apply Keeps.ite | exact Keeps.pure _ | exact Keeps.fail _ | exact Keeps.getM | exact keeps_load8 _ | exact keeps_load32 _ | exact keeps_load64 _ | exact keeps_store8 _ _ | exact keeps_store32 _ _ | exact keeps_store64 _ _ | exact keeps_memset _ _ _ | exact keeps_memcpy_to _ _ _ | exact keeps_memcpy_from _ _ | exact keeps_fd_get _ | exact keeps_fd_set _ _ | exact keeps_new_data_block)

theorem keeps_write_loop (data : Nat → Nat) (len fuel : Nat) :
    ∀ block bo nw, Keeps SizeInv (write_loop data len fuel block bo nw) := by
  induction fuel with
  | zero =>
    intro block bo nw; unfold write_loop
    repeat' with_reducible (first | intro _ | apply Keeps.bind | apply Keeps.ite | exact Keeps.pure _ | exact Keeps.fail _ | exact Keeps.getM | exact keeps_load8 _ | exact keeps_load32 _ | exact keeps_load64 _ | exact keeps_store8 _ _ | exact keeps_store32 _ _ | exact keeps_store64 _ _ | exact keeps_memset _ _ _ | exact keeps_memcpy_to _ _ _ | exact keeps_memcpy_from _ _ | exact keeps_fd_get _ | exact keeps_fd_set _ _)
  | succ k ih =>
    intro block bo nw; unfold write_loop
    repeat' with_reducible (first | intro _ | apply Keeps.bind | apply Keeps.ite | exact Keeps.pure _ | exact Keeps.fail _ | exact Keeps.getM | exact keeps_load8 _ | exact keeps_load32 _ | exact keeps_load64 _ | exact keeps_store8 _ _ | exact keeps_store32 _ _ | exact keeps_store64 _ _ | exact keeps_memset _ _ _ | exact keeps_memcpy_to _ _ _ | exact keeps_memcpy_from _ _ | exact keeps_fd_get _ | exact keeps_fd_set _ _ | exact keeps_advance_block _ _ | exact ih _ _ _)

theorem keeps_read_loop (len fuel : Nat) :
    ∀ block bo nr out, Keeps SizeInv (read_loop len fuel block bo nr out) := by
  induction fuel with
  | zero =>
    intro block bo nr out; unfold read_loop
    repeat' with_reducible (first | intro _ | apply Keeps.bind | apply Keeps.ite | exact Keeps.pure _ | exact Keeps.fail _ | exact Keeps.getM | exact keeps_load8 _ | exact keeps_load32 _ | exact keeps_load64 _ | exact keeps_store8 _ _ | exact keeps_store32 _ _ | exact keeps_store64 _ _ | exact keeps_memset _ _ _ | exact keeps_memcpy_to _ _ _ | exact keeps_memcpy_from _ _ | exact keeps_fd_get _ | exact keeps_fd_set _ _)
  | succ k ih =>
    intro block bo nr out; unfold read_loop
    repeat' with_reducible (first | intro _ | apply Keeps.bind | apply Keeps.ite | exact Keeps.pure _ | exact Keeps.fail _ | exact Keeps.getM | exact keeps_load8 _ | exact keeps_load32 _ | exact keeps_load64 _ | exact keeps_store8 _ _ | exact keeps_store32 _ _ | exact keeps_store64 _ _ | exact keeps_memset _ _ _ | exact keeps_memcpy_to _ _ _ | exact keeps_memcpy_from _ _ | exact keeps_fd_get _ | exact keeps_fd_set _ _ | exact keeps_advance_block _ _ | exact ih _ _ _ _)

theorem keeps_write_file (fd : Nat) (data : Nat → Nat) (len : Nat) :
    Keeps SizeInv (write_file fd data len) := by
  unfold write_file
  repeat' with_reducible (first | intro _ | apply Keeps.bind | apply Keeps.ite | exact Keeps.pure _ | exact Keeps.fail _ | exact Keeps.getM | exact keeps_load8 _ | exact keeps_load32 _ | exact keeps_load64 _ | exact keeps_store8 _ _ | exact keeps_store32 _ _ | exact keeps_store64 _ _ | exact keeps_memset _ _ _ | exact keeps_memcpy_to _ _ _ | exact keeps_memcpy_from _ _ | exact keeps_fd_get _ | exact keeps_fd_set _ _ | exact keeps_first_block_of _ | exact keeps_skip_blocks _ _ | exact keeps_write_loop _ _ _ _ _ _)

theorem keeps_read_file (fd len : Nat) : Keeps SizeInv (read_file fd len) := by
  unfold read_file
  repeat' with_reducible (first | intro _ | apply Keeps.bind | apply Keeps.ite | exact Keeps.pure _ | exact Keeps.fail _ | exact Keeps.getM | exact keeps_load8 _ | exact keeps_load32 _ | exact keeps_load64 _ | exact keeps_store8 _ _ | exact keeps_store32 _ _ | exact keeps_store64 _ _ | exact keeps_memset _ _ _ | exact keeps_memcpy_to _ _ _ | exact keeps_memcpy_from _ _ | exact keeps_fd_get _ | exact keeps_fd_set _ _ | exact keeps_first_block_of _ | exact keeps_skip_blocks _ _ | exact keeps_read_loop _ _ _ _ _ _)

theorem keeps_call (c : Call) : Keeps SizeInv c.run := by
  cases c <;> unfold Call.run
  · exact keeps_create_dir _ _ _
  · exact keeps_create_file _ _ _
  · repeat' with_reducible (first | intro _ | apply Keeps.bind | apply Keeps.ite | exact Keeps.pure _ | exact Keeps.fail _ | exact Keeps.getM | exact keeps_load8 _ | exact keeps_load32 _ | exact keeps_load64 _ | exact keeps_store8 _ _ | exact keeps_store32 _ _ | exact keeps_store64 _ _ | exact keeps_memset _ _ _ | exact keeps_memcpy_to _ _ _ | exact keeps_memcpy_from _ _ | exact keeps_fd_get _ | exact keeps_fd_set _ _ | exact keeps_open_file _)
  · exact keeps_close_file _
  · repeat' with_reducible (first | intro _ | apply Keeps.bind | apply Keeps.ite | exact Keeps.pure _ | exact Keeps.fail _ | exact Keeps.getM | exact keeps_load8 _ | exact keeps_load32 _ | exact keeps_load64 _ | exact keeps_store8 _ _ | exact keeps_store32 _ _ | exact keeps_store64 _ _ | exact keeps_memset _ _ _ | exact keeps_memcpy_to _ _ _ | exact keeps_memcpy_from _ _ | exact keeps_fd_get _ | exact keeps_fd_set _ _ | exact keeps_write_file _ _ _)
  · repeat' with_reducible (first | intro _ | apply Keeps.bind | apply Keeps.ite | exact Keeps.pure _ | exact Keeps.fail _ | exact Keeps.getM | exact keeps_load8 _ | exact keeps_load32 _ | exact keeps_load64 _ | exact keeps_store8 _ _ | exact keeps_store32 _ _ | exact keeps_store64 _ _ | exact keeps_memset _ _ _ | exact keeps_memcpy_to _ _ _ | exact keeps_memcpy_from _ _ | exact keeps_fd_get _ | exact keeps_fd_set _ _ | exact keeps_read_file _ _)
  · exact keeps_seek_file _ _ _

theorem new_mapper_empty (place : Nat → Nat) :
    new_mapper place empty_file =
      new_mapper_init (place BLOCK_SIZE)
        { file_size := BLOCK_SIZE, num_blocks := 1, root := place BLOCK_SIZE,
          mem := fun _ => 0, fd_table := fun _ => ⟨0, 0, 0⟩, place := place } := by
  simp [new_mapper, empty_file, BLOCK_SIZE]

theorem reachable_size (m : Mapper) (h : Reachable m) : SizeInv m := by
  induction h with
  | fresh place m h =>
    rw [new_mapper_empty] at h
    refine (keeps_new_mapper_init _).of_ok ?_ h
    simp [SizeInv]
  | step c m m1 _ h ih => exact (keeps_call c).of_ok ih h

/-! ## Reading the namespace -/

@[simp] theorem load32_cur (r off : Nat) (m : Mapper) (h : r = m.root) :
    load32 ⟨r, off⟩ m =
      if off + 4 ≤ m.file_size then .ok (rdN m.mem off 4) m else .err .fault m :=
  load_cur 4 r off m h

@[simp] theorem load64_cur (r off : Nat) (m : Mapper) (h : r = m.root) :
    load64 ⟨r, off⟩ m =
      if off + 8 ≤ m.file_size then .ok (rdN m.mem off 8) m else .err .fault m :=
  load_cur 8 r off m h

@[simp] theorem load8_cur (r off : Nat) (m : Mapper) (h : r = m.root) :
    load8 ⟨r, off⟩ m =
      if off + 1 ≤ m.file_size then .ok (rdN m.mem off 1) m else .err .fault m :=
  load_cur 1 r off m h

@[simp] theorem store32_cur (r off v : Nat) (m : Mapper) (h : r = m.root) :
    store32 ⟨r, off⟩ v m =
      if off + 4 ≤ m.file_size then .ok () { m with mem := wrN m.mem off 4 v }
      else .err .fault m :=
  store_cur 4 r off v m h

@[simp] theorem store64_cur (r off v : Nat) (m : Mapper) (h : r = m.root) :
    store64 ⟨r, off⟩ v m =
      if off + 8 ≤ m.file_size then .ok () { m with mem := wrN m.mem off 8 v }
      else .err .fault m :=
  store_cur 8 r off v m h

@[simp] theorem store8_cur (r off v : Nat) (m : Mapper) (h : r = m.root) :
    store8 ⟨r, off⟩ v m =
      if off + 1 ≤ m.file_size then .ok () { m with mem := wrN m.mem off 1 v }
      else .err .fault m :=
  store_cur 1 r off v m h

theorem create_iterator_cur (d : Nat) (m : Mapper) :
    create_iterator d m =
      if d + 4 ≤ m.file_size then
        if rdN m.mem d 4 ≠ DIR then .err .assert_failed m
        else if d + NODE_FIRST_CHILD + 8 ≤ m.file_size then
          .ok (rdN m.mem (d + NODE_FIRST_CHILD) 8) m
        else .err .fault m
      else .err .fault m := by
  simp only [create_iterator, NODE_FIRST_CHILD, NODE_TYPE]
  by_cases h1 : d + 4 ≤ m.file_size
  · by_cases h2 : rdN m.mem d 4 = DIR
    · simp [h1, h2]
    · simp [h1, h2]
  · simp [h1]

theorem iter_next_cur (it : Nat) (m : Mapper) :
    iter_next it m =
      if it = NULL_OFF then .ok (NULL_OFF, it) m
      else if it + NODE_NEXT_SIBLING + 8 ≤ m.file_size then
        .ok (it, rdN m.mem (it + NODE_NEXT_SIBLING) 8) m
      else .err .fault m := by
  simp only [iter_next, NULL_OFF, NODE_NEXT_SIBLING]
  by_cases h0 : it = 0
  · simp [h0]
  · by_cases h1 : it + 16 + 8 ≤ m.file_size
    · by_cases h2 : rdN m.mem (it + 16) 8 = 0
      · simp [h0, h1, h2]
      · simp [h0, h1, h2]
    · simp [h0, h1]

/-- Iterating a directory reads the store only: the outcome is the same at
any address of the mapping and with any handle table. -/
theorem iter_children_loop_reopened (m : Mapper) (place : Nat → Nat) (fuel : Nat) :
    ∀ it, (iter_children_loop fuel it (m.reopened place)).val
        = (iter_children_loop fuel it m).val ∧
      (iter_children_loop fuel it (m.reopened place)).state = m.reopened place ∧
      (iter_children_loop fuel it m).state = m := by
  induction fuel with
  | zero => intro it; simp [iter_children_loop]
  | succ k ih =>
    intro it
    unfold iter_children_loop
    simp only [bind_apply, iter_next_cur, NULL_OFF, NODE_NEXT_SIBLING]
    by_cases h0 : it = 0
    · simp [h0]
    · simp only [h0, if_false]
      have hfs : (m.reopened place).file_size = m.file_size := rfl
      have hmem : (m.reopened place).mem = m.mem := rfl
      rw [hfs, hmem]
      by_cases h1 : it + 16 + 8 ≤ m.file_size
      · simp only [h1, if_true, h0, if_false]
        obtain ⟨hv, hs1, hs2⟩ := ih (rdN m.mem (it + 16) 8)
        cases ha : iter_children_loop k (rdN m.mem (it + 16) 8) (m.reopened place) with
        | ok v1 s1 =>
          cases hb : iter_children_loop k (rdN m.mem (it + 16) 8) m with
          | ok v2 s2 =>
            rw [ha, hb] at hv; rw [ha] at hs1; rw [hb] at hs2
            simp only [Res.val, Res.state, Option.some.injEq] at hv hs1 hs2
            simp [ha, hb, hv, hs1, hs2]
          | err e2 s2 => rw [ha, hb] at hv; simp [Res.val] at hv
        | err e1 s1 =>
          cases hb : iter_children_loop k (rdN m.mem (it + 16) 8) m with
          | ok v2 s2 => rw [ha, hb] at hv; simp [Res.val] at hv
          | err e2 s2 =>
            rw [ha] at hs1; rw [hb] at hs2
            simp only [Res.state] at hs1 hs2
            simp [ha, hb, hs1, hs2]
      · simp [h1]

theorem iter_children_reopened (m : Mapper) (place : Nat → Nat) (fuel d : Nat) :
    (iter_children fuel d (m.reopened place)).val = (iter_children fuel d m).val := by
  unfold iter_children
  simp only [bind_apply, create_iterator_cur, NODE_FIRST_CHILD]
  have hfs : (m.reopened place).file_size = m.file_size := rfl
  have hmem : (m.reopened place).mem = m.mem := rfl
  rw [hfs, hmem]
  by_cases h1 : d + 4 ≤ m.file_size
  · simp only [h1, if_true]
    by_cases h2 : rdN m.mem d 4 = DIR
    · simp only [h2, ne_eq, not_true_eq_false, if_false]
      by_cases h3 : d + 88 + 8 ≤ m.file_size
      · simp only [h3, if_true]
        exact (iter_children_loop_reopened m place fuel _).1
      · simp [h3]
    · simp [h2]
  · simp [h1]

/-! ## Bytes and words -/

theorem rdN_congr (f g : Nat → Nat) (k : Nat) : ∀ a,
    (∀ x, a ≤ x → x < a + k → f x = g x) → rdN f a k = rdN g a k := by
  induction k with
  | zero => intro a _; rfl
  | succ k ih =>
    intro a h
    unfold rdN
    rw [h a (le_refl a) (by omega), ih (a + 1) (fun x h1 h2 => h x (by omega) (by omega))]

theorem rdN_lt (f : Nat → Nat) (k : Nat) : ∀ a, rdN f a k < 256 ^ k := by
  induction k with
  | zero => intro a; simp [rdN]
  | succ k ih =>
    intro a
    unfold rdN
    have h1 := ih (a + 1)
    have h2 : f a % 256 < 256 := Nat.mod_lt _ (by norm_num)
    rw [pow_succ]
    omega

theorem rdN_lt_word (f : Nat → Nat) (a : Nat) : rdN f a 8 < WORD := by
  have := rdN_lt f 8 a
  simpa [WORD] using this

theorem rdN_wrN_same (mem : Nat → Nat) (k : Nat) : ∀ a v,
    rdN (wrN mem a k v) a k = v % 256 ^ k := by
  induction k with
  | zero => intro a v; simp [rdN, Nat.mod_one]
  | succ k ih =>
    intro a v
    unfold rdN
    have h0 : wrN mem a (k + 1) v a = v % 256 := by
      simp [wrN]
    have h1 : rdN (wrN mem a (k + 1) v) (a + 1) k = rdN (wrN mem (a + 1) k (v / 256)) (a + 1) k := by
      apply rdN_congr
      intro x hx1 hx2
      have e1 : x - a = (x - (a + 1)) + 1 := by omega
      simp only [wrN]
      rw [if_pos ⟨by omega, by omega⟩, if_pos ⟨hx1, hx2⟩, e1, pow_succ, Nat.div_div_eq_div_mul,
        Nat.mul_comm]
    rw [h0, h1, ih, Nat.mod_mod, pow_succ, Nat.mul_comm (256 ^ k) 256, Nat.mod_mul]

theorem rdN_wrN_disj (mem : Nat → Nat) (a k v b j : Nat) (h : b + j ≤ a ∨ a + k ≤ b) :
    rdN (wrN mem a k v) b j = rdN mem b j := by
  apply rdN_congr
  intro x h1 h2
  simp only [wrN]
  rw [if_neg]
  omega

theorem rdN_fillN_disj (mem : Nat → Nat) (a n c b j : Nat) (h : b + j ≤ a ∨ a + n ≤ b) :
    rdN (fillN mem a n c) b j = rdN mem b j := by
  apply rdN_congr
  intro x h1 h2
  simp only [fillN]
  rw [if_neg]
  omega

theorem rdN_wrBytes_disj (mem : Nat → Nat) (a n : Nat) (src : Nat → Nat) (b j : Nat)
    (h : b + j ≤ a ∨ a + n ≤ b) :
    rdN (wrBytes mem a n src) b j = rdN mem b j := by
  apply rdN_congr
  intro x h1 h2
  simp only [wrBytes]
  rw [if_neg]
  omega

theorem rdN_zero (k : Nat) : ∀ a, rdN (fun _ => 0) a k = 0 := by
  induction k with
  | zero => intro a; rfl
  | succ k ih => intro a; simp [rdN, ih]

theorem rdBytes_congr (f g : Nat → Nat) (a k : Nat)
    (h : ∀ x, a ≤ x → x < a + k → f x = g x) : rdBytes f a k = rdBytes g a k := by
  unfold rdBytes
  apply List.map_congr_left
  intro i hi
  rw [List.mem_range] at hi
  rw [h (a + i) (by omega) (by omega)]

theorem cmem_congr (f g : Nat → Nat) (a k : Nat)
    (h : ∀ x, a ≤ x → x < a + k → f x = g x) : cmem f a k = cmem g a k := by
  unfold cmem
  rw [rdBytes_congr f g a k h]

theorem MAP_OFFSET_cur (root off : Nat) (h : off < WORD) :
    MAP_OFFSET root ⟨root, off⟩ = off := by
  unfold MAP_OFFSET
  simp only [WORD] at *
  omega

/-! ## Names -/

theorem rdBytes_succ (mem : Nat → Nat) (a k : Nat) :
    rdBytes mem a (k + 1) = (mem a % 256) :: rdBytes mem (a + 1) k := by
  unfold rdBytes
  rw [List.range_succ_eq_map, List.map_cons, List.map_map]
  congr 1
  apply List.map_congr_left
  intro i _
  simp only [Function.comp, Nat.add_zero]
  congr 2
  omega

theorem cmem_succ (mem : Nat → Nat) (a k : Nat) :
    cmem mem a (k + 1) =
      if mem a % 256 = 0 then [] else (mem a % 256) :: cmem mem (a + 1) k := by
  unfold cmem
  rw [rdBytes_succ]
  by_cases h : mem a % 256 = 0
  · simp [h, List.takeWhile]
  · have h1 : (mem a % 256 != 0) = true := by simp [h]
    simp [h, List.takeWhile, h1]

theorem cstr_cons (c : Nat) (cs : List Nat) :
    cstr (c :: cs) = if c % 256 = 0 then [] else (c % 256) :: cstr cs := by
  unfold cstr
  by_cases h : c % 256 = 0
  · simp [h, List.takeWhile]
  · have h1 : (c % 256 != 0) = true := by simp [h]
    simp [h, List.takeWhile, h1]

theorem cstr_nil : cstr [] = [] := rfl

theorem rdN_one (mem : Nat → Nat) (a : Nat) : rdN mem a 1 = mem a % 256 := by
  simp [rdN]

/-- A `strcmp` of a name stored in a field of `k` bytes against a string
shorter than `k`: it returns, changes nothing, and reports whether the
stored name is the string. -/
theorem strcmp_spec (m : Mapper) (name : List Nat) : ∀ a k,
    (cstr name).length < k → a + k ≤ m.file_size →
    strcmp ⟨m.root, a⟩ name m = .ok (decide (cmem m.mem a k = cstr name)) m := by
  induction name with
  | nil =>
    intro a k hk hfs
    obtain ⟨k, rfl⟩ : ∃ j, k = j + 1 := ⟨k - 1, by simp [cstr] at hk; omega⟩
    have h1 : a + 1 ≤ m.file_size := by omega
    rw [cmem_succ, cstr_nil]
    by_cases hb : m.mem a % 256 = 0
    · simp [strcmp, h1, rdN_one, hb]
    · simp [strcmp, h1, rdN_one, hb]
  | cons c cs ih =>
    intro a k hk hfs
    obtain ⟨k, rfl⟩ : ∃ j, k = j + 1 := ⟨k - 1, by omega⟩
    have h1 : a + 1 ≤ m.file_size := by omega
    rw [cmem_succ, cstr_cons]
    rw [cstr_cons] at hk
    by_cases hc : c % 256 = 0
    · by_cases hb : m.mem a % 256 = 0
      · simp [strcmp, h1, rdN_one, hb, hc]
      · simp [strcmp, h1, rdN_one, hb, hc]
    · simp only [hc, if_false, List.length_cons] at hk
      by_cases hb : m.mem a % 256 = c % 256
      · have hb0 : ¬ m.mem a % 256 = 0 := by rw [hb]; exact hc
        have hrec := ih (a + 1) k (by omega) (by omega)
        simp only [strcmp, bind_apply, load8_cur _ _ _ rfl, h1, if_true, rdN_one, hb, ne_eq,
          not_true_eq_false, if_false, hc, Ptr.add, hrec]
        rw [← hb]
        simp [hb0]
      · have hne : ¬ (if m.mem a % 256 = 0 then [] else m.mem a % 256 :: cmem m.mem (a + 1) k)
            = c % 256 :: cstr cs := by
          by_cases hb0 : m.mem a % 256 = 0
          · simp [hb0]
          · simp [hb0, hb]
        simp [strcmp, h1, rdN_one, hb, hc, hne]

/-! ## The search loop of `create_children` -/

/-- With a child of the wanted name in the chain, the search ends in
`exit(1)` and has changed nothing. -/
theorem create_children_scan_dup (m : Mapper) (name : List Nat) (c : Nat)
    (hlen : (cstr name).length < MAX_NAME_LENGTH) (hname : stored_name m c = cstr name) :
    ∀ cs x fuel, SibChain m x cs → c ∈ cs → cs.length < fuel →
      create_children_scan name fuel x m = .err .already_exists m := by
  intro cs
  induction cs with
  | nil => intro x fuel _ hc; cases hc
  | cons e rest ih =>
    intro x fuel hch hc hfuel
    obtain ⟨fuel, rfl⟩ : ∃ j, fuel = j + 1 := ⟨fuel - 1, by simp at hfuel; omega⟩
    obtain ⟨rfl, he0, hein, hrest⟩ := hch
    simp only [NULL_OFF, NODE_SIZE, NODE_NEXT_SIBLING] at he0 hein hrest
    have h1 : x + 16 + 8 ≤ m.file_size := by omega
    have hs := strcmp_spec m name (x + 24) 64 (by simpa using hlen) (by omega)
    unfold create_children_scan
    simp only [bind_apply, iter_next_cur, NULL_OFF, NODE_NEXT_SIBLING, he0, if_false, h1, if_true,
      getM_apply, OUT_OFFSET, Ptr.add, NODE_NAME, hs]
    by_cases heq : cmem m.mem (x + 24) 64 = cstr name
    · simp [heq]
    · have hc1 : c ∈ rest := by
        rcases List.mem_cons.mp hc with h | h
        · exfalso; apply heq; rw [← hname, h]; simp [stored_name]
        · exact h
      simp only [heq, decide_False, Bool.false_eq_true, if_false]
      exact ih _ fuel hrest hc1 (by simp at hfuel; omega)

/-- A search that returned has changed nothing and has found no child of
the wanted name. -/
theorem create_children_scan_ok (m : Mapper) (name : List Nat)
    (hlen : (cstr name).length < MAX_NAME_LENGTH) :
    ∀ cs x fuel m1, SibChain m x cs → create_children_scan name fuel x m = .ok () m1 →
      m1 = m ∧ ∀ c ∈ cs, stored_name m c ≠ cstr name := by
  intro cs
  induction cs with
  | nil =>
    intro x fuel m1 hch h
    simp only [SibChain] at hch
    subst hch
    cases fuel with
    | zero => simp [create_children_scan] at h
    | succ k =>
      simp [create_children_scan, iter_next_cur] at h
      exact ⟨h.symm, fun c hc => by cases hc⟩
  | cons e rest ih =>
    intro x fuel m1 hch h
    obtain ⟨rfl, he0, hein, hrest⟩ := hch
    simp only [NULL_OFF, NODE_SIZE, NODE_NEXT_SIBLING] at he0 hein hrest
    cases fuel with
    | zero => simp [create_children_scan] at h
    | succ k =>
      have h1 : x + 16 + 8 ≤ m.file_size := by omega
      have hs := strcmp_spec m name (x + 24) 64 (by simpa using hlen) (by omega)
      unfold create_children_scan at h
      simp only [bind_apply, iter_next_cur, NULL_OFF, NODE_NEXT_SIBLING, he0, if_false, h1,
        if_true, getM_apply, OUT_OFFSET, Ptr.add, NODE_NAME, hs] at h
      by_cases heq : cmem m.mem (x + 24) 64 = cstr name
      · simp [heq] at h
      · simp only [heq, decide_False, Bool.false_eq_true, if_false] at h
        obtain ⟨hm, hall⟩ := ih _ k m1 hrest h
        refine ⟨hm, ?_⟩
        intro c hc
        rcases List.mem_cons.mp hc with hc | hc
        · subst hc; simpa [stored_name] using heq
        · exact hall c hc

theorem create_children_dup (m : Mapper) (fuel d : Nat) (name cs : List Nat) (c : Nat)
    (hsmall : m.file_size ≤ MAX_FILE_SIZE)
    (hlen : (cstr name).length < MAX_NAME_LENGTH)
    (hd : d + NODE_SIZE ≤ m.file_size)
    (htype : rdN m.mem (d + NODE_TYPE) 4 = DIR)
    (hchain : SibChain m (rdN m.mem (d + NODE_FIRST_CHILD) 8) cs)
    (hc : c ∈ cs) (hname : stored_name m c = cstr name)
    (hfuel : cs.length < fuel) :
    create_children fuel (OUT_OFFSET m.root d) name m = .err .already_exists m := by
  simp only [NODE_SIZE, NODE_TYPE, NODE_FIRST_CHILD, MAX_FILE_SIZE, Nat.add_zero] at hsmall hd htype hchain
  have h1 : d + 4 ≤ m.file_size := by omega
  have h2 : d + 88 + 8 ≤ m.file_size := by omega
  have h3 : MAP_OFFSET m.root ⟨m.root, d⟩ = d := MAP_OFFSET_cur _ _ (by simp only [WORD]; omega)
  have hs := create_children_scan_dup m name c hlen hname cs _ fuel hchain hc hfuel
  simp [create_children, h1, htype, h3, create_iterator_cur, h2, hs]

/-! ## The node allocator -/

@[simp] theorem memcpy_to_cur (r off : Nat) (src : Nat → Nat) (n : Nat) (m : Mapper)
    (h : r = m.root) :
    memcpy_to ⟨r, off⟩ src n m =
      if off + n ≤ m.file_size then .ok () { m with mem := wrBytes m.mem off n src }
      else .err .fault m := by
  unfold memcpy_to valid
  by_cases h1 : off + n ≤ m.file_size <;> simp [h, h1]

theorem load_stale (k r off : Nat) (m : Mapper) (h : r ≠ m.root) :
    load k ⟨r, off⟩ m = .err .fault m := by
  unfold load valid
  simp [h]

theorem rdN_wrN_word (mem : Nat → Nat) (a v : Nat) (h : v < 18446744073709551616) :
    rdN (wrN mem a 8 v) a 8 = v := by
  rw [rdN_wrN_same]
  norm_num
  omega

theorem get_node_next (m : Mapper) (hb cnt : Nat)
    (hfree : rdN m.mem 88 8 = 0) (hhb : rdN m.mem 112 8 = hb) (hcnt : rdN m.mem (hb + 8) 8 = cnt)
    (h0 : hb ≠ 0) (h1 : hb + 4096 ≤ m.file_size) (h2 : cnt < 39)
    (h3 : m.file_size ≤ 9223372036854775807) :
    get_node m = .ok (hb + 16 + 104 * cnt) { m with mem := wrN m.mem (hb + 8) 8 (cnt + 1) } := by
  have e1 : 96 ≤ m.file_size := by omega
  have e2 : 120 ≤ m.file_size := by omega
  have e3 : hb + 8 + 8 ≤ m.file_size := by omega
  have e4 : ¬ (39 ≤ cnt) := by omega
  have e5 : (cnt + 1) % 18446744073709551616 = cnt + 1 := by omega
  have e6 : (cnt + 1 + 18446744073709551615) % 18446744073709551616 = cnt := by omega
  have e7 : MAP_OFFSET m.root ⟨m.root, hb + (16 + 104 * cnt)⟩ = hb + 16 + 104 * cnt := by
    rw [MAP_OFFSET_cur]; omega
    simp only [WORD]; omega
  have e8 : rdN (wrN m.mem (hb + 8) 8 (cnt + 1)) (hb + 8) 8 = cnt + 1 :=
    rdN_wrN_word _ _ _ (by omega)
  simp [get_node, get_first_empty_node, get_node_next_slot, hfree, hhb, hcnt, h0, e1, e2, e3, e4,
    e5, e6, e7, e8]

/-- The bytes `get_node` leaves when it takes a new node block at `b` with
the old head `hb`. -/
theorem get_node_grow (m : Mapper) (hb cnt : Nat)
    (hfree : rdN m.mem 88 8 = 0) (hfreeb : rdN m.mem 96 8 = 0)
    (hhb : rdN m.mem 112 8 = hb) (hcnt : rdN m.mem (hb + 8) 8 = cnt)
    (h0 : hb ≠ 0) (h1 : hb + 4096 ≤ m.file_size) (h2 : 39 ≤ cnt)
    (hsz : m.file_size = 4096 * m.num_blocks)
    (h3 : m.file_size + 4096 ≤ 9223372036854775807) :
    ∃ mem2, get_node m = .ok (m.file_size + 16)
        { m with file_size := m.file_size + 4096, num_blocks := m.num_blocks + 1,
                 root := m.place (m.file_size + 4096), mem := mem2 } ∧
      (∀ x, x < m.file_size → ¬ (112 ≤ x ∧ x < 120) → mem2 x = m.mem x) ∧
      rdN mem2 112 8 = m.file_size ∧ rdN mem2 (m.file_size + 8) 8 = 1 := by
  have e1 : 96 ≤ m.file_size := by omega
  have e2 : 120 ≤ m.file_size := by omega
  have e3 : hb + 8 + 8 ≤ m.file_size := by omega
  have e3' : hb + 16 ≤ m.file_size := by omega
  have e4 : ¬ (9223372036854775807 < m.file_size + 4096) := by omega
  have e5 : m.num_blocks * 4096 % 18446744073709551616 = m.file_size := by omega
  have e6 : 104 ≤ m.file_size := by omega
  have e7 : ∀ x, x < 18446744073709551616 → MAP_OFFSET (m.place (m.file_size + 4096))
      ⟨m.place (m.file_size + 4096), x⟩ = x := fun x hx => MAP_OFFSET_cur _ _ (by simpa using hx)
  have e8 : rdN (wrN (wrN (fun a => if a < m.file_size then m.mem a else 0) m.file_size 8 0)
      (m.file_size + 8) 8 0) 112 8 = hb := by
    rw [rdN_wrN_disj _ _ _ _ _ _ (by omega), rdN_wrN_disj _ _ _ _ _ _ (by omega), ← hhb]
    apply rdN_congr
    intro x hx1 hx2
    rw [if_pos (by omega)]
  refine ⟨wrN (wrN (wrN (wrN (wrN (wrN (wrN (fun a => if a < m.file_size then m.mem a else 0)
    m.file_size 8 0) (m.file_size + 8) 8 0) 112 8 m.file_size) m.file_size 8 hb)
    (m.file_size + 8) 8 1) m.file_size 8 hb) 112 8 m.file_size, ?_, ?_, ?_, ?_⟩
  rotate_left
  · intro x hx hx2
    have : ∀ (f : Nat → Nat) a v, (a + 8 ≤ x ∨ x < a) → wrN f a 8 v x = f x := by
      intro f a v h
      simp only [wrN]
      rw [if_neg]; omega
    rw [this _ _ _ (by omega), this _ _ _ (by omega), this _ _ _ (by omega), this _ _ _ (by omega), this _ _ _ (by omega),
      this _ _ _ (by omega), this _ _ _ (by omega), if_pos hx]
  · exact rdN_wrN_word _ _ _ (by omega)
  · rw [rdN_wrN_disj _ _ _ _ _ _ (by omega), rdN_wrN_disj _ _ _ _ _ _ (by omega)]
    exact rdN_wrN_word _ _ _ (by omega)
  · simp [get_node, get_first_empty_node, get_node_new_block, new_node_block, get_block,
      get_first_empty_block, grow_store, hfree, hfreeb, hhb, hcnt, h0, e1, e2, e3, e3', e4, e5, e6,
      h2, e8, e7 m.file_size (by omega), e7 (m.file_size + 16) (by omega)]

theorem get_node_full (m : Mapper) (hb cnt : Nat)
    (hfree : rdN m.mem 88 8 = 0) (hfreeb : rdN m.mem 96 8 = 0)
    (hhb : rdN m.mem 112 8 = hb) (hcnt : rdN m.mem (hb + 8) 8 = cnt)
    (h0 : hb ≠ 0) (h1 : hb + 4096 ≤ m.file_size) (h2 : 39 ≤ cnt)
    (h3 : 9223372036854775807 < m.file_size + 4096) :
    (get_node m).error = some .exit_failure := by
  have e1 : 96 ≤ m.file_size := by omega
  have e2 : 120 ≤ m.file_size := by omega
  have e3 : hb + 8 + 8 ≤ m.file_size := by omega
  have e3' : hb + 16 ≤ m.file_size := by omega
  have e6 : 104 ≤ m.file_size := by omega
  simp [get_node, get_first_empty_node, get_node_new_block, new_node_block, get_block,
      get_first_empty_block, grow_store, hfree, hfreeb, hhb, hcnt, h0, e1, e2, e3, e3', e6,
      h2, h3]

theorem used_iff (m : Mapper) (n : Nat) :
    Used m n ↔ (4096 ≤ n ∧ n < m.file_size ∧ ∃ i, i < 39 ∧ n % 4096 = 16 + 104 * i) ∧
      ∀ i, n = rdN m.mem 112 8 + 16 + 104 * i →
        i < rdN m.mem (rdN m.mem 112 8 + 8) 8 := by
  simp [Used, Slot, head_block, head_count]

theorem get_node_post (m : Mapper) (ns : List Nat) (hwf : WF m ns) (nc : Nat) (m2 : Mapper)
    (h : get_node m = .ok nc m2) : AllocPost m nc m2 := by
  obtain ⟨hsize, hsmall, hfn, hfb, hne, hal, hin, hct, _, _, _⟩ := hwf
  simp only [head_block, head_count, ROOT_FIRST_FREE_NODE, ROOT_FIRST_FREE_BLOCK, ROOT_FIRST_BLOCK,
    BLOCK_NODE_COUNT, BLOCK_SIZE, MAX_NODE_COUNT, NULL_OFF, MAX_FILE_SIZE, NODE_SIZE,
    Nat.reduceSub, Nat.reduceDiv] at hsize hsmall hfn hfb hne hal hin hct
  by_cases hc : rdN m.mem (rdN m.mem 112 8 + 8) 8 < 39
  · rw [get_node_next m _ _ hfn rfl rfl hne hin hc hsmall] at h
    injection h with h1 h2
    subst h1; subst h2
    generalize hhb : rdN m.mem 112 8 = hb at *
    generalize hcnt : rdN m.mem (hb + 8) 8 = cnt at *
    have r1 : ∀ a j, (a + j ≤ hb + 8 ∨ hb + 16 ≤ a) →
        rdN (wrN m.mem (hb + 8) 8 (cnt + 1)) a j = rdN m.mem a j :=
      fun a j hh => rdN_wrN_disj _ _ _ _ _ _ (by omega)
    have r2 : rdN (wrN m.mem (hb + 8) 8 (cnt + 1)) (hb + 8) 8 = cnt + 1 :=
      rdN_wrN_word _ _ _ (by omega)
    have r3 : rdN (wrN m.mem (hb + 8) 8 (cnt + 1)) 112 8 = hb := by
      rw [r1 _ _ (by omega)]; exact hhb
    have hu : ∀ n, Used m n → Used { m with mem := wrN m.mem (hb + 8) 8 (cnt + 1) } n := by
      intro n hn
      rw [used_iff] at hn ⊢
      simp only [r3, r2, hhb, hcnt] at hn ⊢
      refine ⟨hn.1, fun i hi => ?_⟩
      have := hn.2 i hi
      omega
    constructor
    · exact hsize
    · exact hsmall
    · exact le_refl _
    · show rdN (wrN m.mem (hb + 8) 8 (cnt + 1)) 88 8 = 0
      rw [r1 _ _ (by omega)]; exact hfn
    · show rdN (wrN m.mem (hb + 8) 8 (cnt + 1)) 96 8 = 0
      rw [r1 _ _ (by omega)]; exact hfb
    · simpa [head_block, r3] using hne
    · simpa [head_block, r3] using hal
    · simpa [head_block, r3] using hin
    · simp only [head_count, head_block, ROOT_FIRST_BLOCK, r3, BLOCK_NODE_COUNT, r2,
        MAX_NODE_COUNT, BLOCK_SIZE, NODE_SIZE, Nat.reduceSub, Nat.reduceDiv]
      omega
    · rw [used_iff]
      simp only [r3, r2]
      refine ⟨⟨by omega, by omega, cnt, hc, by omega⟩, fun i hi => by omega⟩
    · intro n hn
      rw [used_iff] at hn
      simp only [hhb, hcnt] at hn
      obtain ⟨⟨hn1, hn2, i, hi1, hi2⟩, hn3⟩ := hn
      have := hn3 i
      simp only [NODE_SIZE]
      by_cases he : n = hb + 16 + 104 * i
      · have := this he; omega
      · omega
    · exact hu
    · intro n hn x hx1 hx2
      rw [used_iff] at hn
      obtain ⟨⟨hn1, hn2, i, hi1, hi2⟩, hn3⟩ := hn
      simp only [NODE_SIZE] at hx2
      show wrN m.mem (hb + 8) 8 (cnt + 1) x = m.mem x
      simp only [wrN]
      rw [if_neg]
      rcases Nat.lt_trichotomy (n / 4096) (hb / 4096) with h | h | h <;> omega
    · exact Or.inl rfl
    · rfl
    · rfl
  · have hc' : 39 ≤ rdN m.mem (rdN m.mem 112 8 + 8) 8 := by omega
    by_cases hm : m.file_size + 4096 ≤ 9223372036854775807
    · obtain ⟨mem2, heq, hfr, hr1, hr2⟩ :=
        get_node_grow m _ _ hfn hfb rfl rfl hne hin hc' hsize hm
      rw [heq] at h
      injection h with h1 h2
      subst h1; subst h2
      generalize hhb : rdN m.mem 112 8 = hb at *
      generalize hcnt : rdN m.mem (hb + 8) 8 = cnt at *
      have f1 : ∀ a j, a + j ≤ 112 → a + j ≤ m.file_size → rdN mem2 a j = rdN m.mem a j := by
        intro a j hh1 hh2
        apply rdN_congr
        intro x hx1 hx2
        exact hfr x (by omega) (by omega)
      constructor
      · show m.file_size + 4096 = BLOCK_SIZE * (m.num_blocks + 1)
        simp only [BLOCK_SIZE]; omega
      · exact hm
      · show m.file_size ≤ m.file_size + 4096
        omega
      · show rdN mem2 88 8 = 0
        rw [f1 _ _ (by omega) (by omega)]; exact hfn
      · show rdN mem2 96 8 = 0
        rw [f1 _ _ (by omega) (by omega)]; exact hfb
      · simp only [head_block, ROOT_FIRST_BLOCK, hr1, NULL_OFF]; omega
      · simp only [head_block, ROOT_FIRST_BLOCK, hr1, BLOCK_SIZE]; omega
      · simp only [head_block, ROOT_FIRST_BLOCK, hr1, BLOCK_SIZE]; omega
      · simp only [head_count, head_block, ROOT_FIRST_BLOCK, hr1, BLOCK_NODE_COUNT, hr2,
          MAX_NODE_COUNT, BLOCK_SIZE, NODE_SIZE, Nat.reduceSub, Nat.reduceDiv]
        omega
      · rw [used_iff]
        simp only [hr1, hr2]
        refine ⟨⟨by omega, by omega, 0, by omega, by omega⟩, fun i hi => by omega⟩
      · intro n hn
        rw [used_iff] at hn
        obtain ⟨⟨hn1, hn2, i, hi1, hi2⟩, hn3⟩ := hn
        simp only [NODE_SIZE]
        rcases Nat.lt_trichotomy (n / 4096) (m.num_blocks) with h | h | h <;> omega
      · intro n hn
        rw [used_iff] at hn ⊢
        obtain ⟨⟨hn1, hn2, i, hi1, hi2⟩, hn3⟩ := hn
        simp only [hr1, hr2]
        refine ⟨⟨hn1, by omega, i, hi1, hi2⟩, fun j hj => by omega⟩
      · intro n hn x hx1 hx2
        rw [used_iff] at hn
        obtain ⟨⟨hn1, hn2, i, hi1, hi2⟩, hn3⟩ := hn
        simp only [NODE_SIZE] at hx2
        have hx3 : x < m.file_size := by
          rcases Nat.lt_trichotomy (n / 4096) (m.num_blocks) with h | h | h <;> omega
        exact hfr x hx3 (by omega)
      · exact Or.inr rfl
      · rfl
      · rfl
    · have := get_node_full m _ _ hfn hfb rfl rfl hne hin hc' (by omega)
      rw [h] at this
      simp at this

/-! ## Creating a child -/

theorem cstr_pos (s : List Nat) : ∀ c ∈ cstr s, c ≠ 0 ∧ c < 256 := by
  induction s with
  | nil => intro c hc; simp [cstr] at hc
  | cons x xs ih =>
    intro c hc
    rw [cstr_cons] at hc
    by_cases hx : x % 256 = 0
    · simp [hx] at hc
    · simp only [hx, if_false, List.mem_cons] at hc
      rcases hc with rfl | hc
      · exact ⟨hx, Nat.mod_lt _ (by norm_num)⟩
      · exact ih c hc

/-- A field that holds the characters of `l` followed by a NUL holds the
name `l`. -/
theorem cmem_of_bytes (f : Nat → Nat) (l : List Nat) (hl : ∀ c ∈ l, c ≠ 0 ∧ c < 256) :
    ∀ a k, l.length < k → (∀ i, i < k → f (a + i) % 256 = l.getD i 0) → cmem f a k = l := by
  induction l with
  | nil =>
    intro a k hk h
    obtain ⟨k, rfl⟩ : ∃ j, k = j + 1 := ⟨k - 1, by simp at hk; omega⟩
    have := h 0 (by omega)
    simp at this
    rw [cmem_succ]
    simp [this]
  | cons c cs ih =>
    intro a k hk h
    obtain ⟨k, rfl⟩ : ∃ j, k = j + 1 := ⟨k - 1, by simp at hk; omega⟩
    have h0 := h 0 (by omega)
    simp at h0
    have hc := hl c (List.mem_cons_self _ _)
    rw [cmem_succ, h0]
    simp only [hc.1, if_false, List.cons.injEq, true_and]
    apply ih (fun x hx => hl x (List.mem_cons_of_mem _ hx)) (a + 1) k (by simp at hk; omega)
    intro i hi
    have := h (i + 1) (by omega)
    simp only [List.getD_cons_succ] at this
    rw [← this]
    congr 2
    omega

theorem used_in (m : Mapper) (n : Nat) (hsz : m.file_size = 4096 * m.num_blocks)
    (h : Used m n) : 4096 ≤ n ∧ n + 104 ≤ m.file_size := by
  rw [used_iff] at h
  obtain ⟨⟨h1, h2, i, hi1, hi2⟩, _⟩ := h
  refine ⟨h1, ?_⟩
  rcases Nat.lt_trichotomy (n / 4096) (m.num_blocks) with h | h | h <;> omega

theorem SibChain_unique (m : Mapper) : ∀ cs cs1 x, SibChain m x cs → SibChain m x cs1 →
    cs = cs1 := by
  intro cs
  induction cs with
  | nil =>
    intro cs1 x h h1
    cases cs1 with
    | nil => rfl
    | cons a l => simp only [SibChain] at h h1; omega
  | cons c l ih =>
    intro cs1 x h h1
    cases cs1 with
    | nil => simp only [SibChain] at h h1; omega
    | cons a l1 =>
      simp only [SibChain] at h h1
      obtain ⟨rfl, _, _, h4⟩ := h
      obtain ⟨rfl, _, _, h8⟩ := h1
      rw [ih l1 _ h4 h8]

/-- The bytes a create leaves: the parent, the name and the sibling link of
the new inode at `nc` and the child link of the directory at `d`, written
over the bytes `f` that `get_node` left. -/
theorem create_write_out (f : Nat → Nat) (nc d fc : Nat) (sb : Nat → Nat) (x : Nat)
    (h1 : ¬ (nc + 8 ≤ x ∧ x < nc + 88)) (h2 : ¬ (d + 88 ≤ x ∧ x < d + 96)) :
    wrN (wrN (wrBytes (wrN f (nc + 8) 8 d) (nc + 24) 64 sb) (d + 88) 8 nc) (nc + 16) 8 fc x
      = f x := by
  simp only [wrN, wrBytes]
  rw [if_neg (by omega), if_neg (by omega), if_neg (by omega), if_neg (by omega)]

/-- The run of a `create_children` that returned: the directory passed the
assertion, the search found no child of that name, `get_node` returned the
new inode without moving the mapping, and the four stores followed. -/
theorem create_children_run (m : Mapper) (ns : List Nat) (hwf : WF m ns) (fuel d : Nat)
    (name : List Nat) (hd : d ∈ ns) (hlen : (cstr name).length < MAX_NAME_LENGTH)
    (nc : Nat) (m1 : Mapper)
    (h : create_children fuel (OUT_OFFSET m.root d) name m = .ok nc m1) :
    rdN m.mem d 4 = DIR ∧
    (∀ cs, SibChain m (rdN m.mem (d + 88) 8) cs → ∀ c ∈ cs, stored_name m c ≠ cstr name) ∧
    ∃ m2, get_node m = .ok nc m2 ∧ m.root = m2.root ∧
      m1 = { m2 with mem := create_bytes m2.mem nc d name (rdN (wrBytes (wrN m2.mem (nc + 8) 8 d) (nc + 24) 64 (strncpy_bytes name)) (d + 88) 8) } := by
  have hsize := hwf.size
  have hsmall := hwf.small
  have hud := hwf.used d hd
  simp only [BLOCK_SIZE, MAX_FILE_SIZE] at hsize hsmall
  obtain ⟨hd1, hd2⟩ := used_in m d hsize hud
  have e1 : d + 4 ≤ m.file_size := by omega
  have e2 : d + 88 + 8 ≤ m.file_size := by omega
  have e3 : MAP_OFFSET m.root ⟨m.root, d⟩ = d := MAP_OFFSET_cur _ _ (by simp only [WORD]; omega)
  by_cases ht : rdN m.mem d 4 = DIR
  swap
  · simp [create_children, e1, ht] at h
  obtain ⟨cs0, hcs0, hcs0in, hcs0nd⟩ := hwf.dirs d hd (by simpa using ht)
  simp only [NODE_FIRST_CHILD] at hcs0
  simp only [create_children, bind_apply, OUT_OFFSET, Ptr.add, NODE_TYPE, Nat.add_zero,
    load32_cur _ _ _ rfl, e1, if_true, ht, ne_eq, not_true_eq_false, if_false, getM_apply, e3,
    create_iterator_cur, NODE_FIRST_CHILD, e2] at h
  cases hscan : create_children_scan name fuel (rdN m.mem (d + 88) 8) m with
  | err e ms => rw [hscan] at h; simp at h
  | ok u ms =>
    obtain ⟨hms, hnames⟩ := create_children_scan_ok m name hlen cs0 _ fuel ms hcs0 hscan
    rw [hscan] at h
    simp only at h
    rw [hms] at h
    clear hscan hms ms
    refine ⟨ht, fun cs hcs c hc => ?_, ?_⟩
    · rw [SibChain_unique m cs cs0 _ hcs hcs0] at hc
      exact hnames c hc
    cases hgn : get_node m with
    | err e m2 => rw [hgn] at h; simp at h
    | ok nc2 m2 =>
      have hap := get_node_post m ns hwf nc2 m2 hgn
      rw [hgn] at h
      have hsize2 := hap.size
      have hsmall2 := hap.small
      simp only [BLOCK_SIZE, MAX_FILE_SIZE] at hsize2 hsmall2
      obtain ⟨hn1, hn2⟩ := used_in m2 nc2 hsize2 hap.new_used
      have hgrow := hap.grow
      have g1 : nc2 + 8 + 8 ≤ m2.file_size := by omega
      have g2 : nc2 + 24 + 64 ≤ m2.file_size := by omega
      have g3 : nc2 + 16 + 8 ≤ m2.file_size := by omega
      have g4 : d + 88 + 8 ≤ m2.file_size := by omega
      have g5 : MAP_OFFSET m2.root ⟨m2.root, nc2⟩ = nc2 :=
        MAP_OFFSET_cur _ _ (by simp only [WORD]; omega)
      by_cases hroot : m.root = m2.root
      swap
      · simp [strncpy, g1, g2, load64, load_stale, hroot] at h
      have e3b : MAP_OFFSET m2.root ⟨m2.root, d⟩ = d := by rw [← hroot]; exact e3
      simp only [hroot] at h
      simp [strncpy, g1, g2, g3, g4, g5, e3b] at h
      obtain ⟨h1, h2⟩ := h
      have h1s := h1.symm
      subst h1s
      refine ⟨m2, rfl, hroot, ?_⟩
      rw [← h2]
      simp [create_bytes]

theorem create_post_of_alloc (m m2 m1 : Mapper) (d nc : Nat) (name : List Nat)
    (hlen : (cstr name).length < MAX_NAME_LENGTH)
    (hsize : m.file_size = 4096 * m.num_blocks) (hud : Used m d)
    (hap : AllocPost m nc m2) (hroot : m.root = m2.root)
    (h2 : m1 = { m2 with mem := create_bytes m2.mem nc d name (rdN (wrBytes (wrN m2.mem (nc + 8) 8 d) (nc + 24) 64 (strncpy_bytes name)) (d + 88) 8) }) :
    CreatePost m d name nc m1 := by
  obtain ⟨hd1, hd2⟩ := used_in m d hsize hud
  have hsize2 := hap.size
  have hsmall2 := hap.small
  simp only [BLOCK_SIZE, MAX_FILE_SIZE] at hsize2 hsmall2
  obtain ⟨hn1, hn2⟩ := used_in m2 nc hsize2 hap.new_used
  have hgrow := hap.grow
  have hfresh := hap.fresh d hud
  simp only [NODE_SIZE] at hfresh
  have hfd : rdN (wrBytes (wrN m2.mem (nc + 8) 8 d) (nc + 24) 64 (strncpy_bytes name))
      (d + 88) 8 = rdN m.mem (d + 88) 8 := by
    rw [rdN_wrBytes_disj _ _ _ _ _ _ (by omega), rdN_wrN_disj _ _ _ _ _ _ (by omega)]
    apply rdN_congr
    intro x hx1 hx2
    exact hap.frame d hud x (by omega) (by simp only [NODE_SIZE]; omega)
  rw [hfd] at h2
  have hfs1 : m1.file_size = m2.file_size := by rw [h2]
  have hnb1 : m1.num_blocks = m2.num_blocks := by rw [h2]
  have hrt1 : m1.root = m2.root := by rw [h2]
  have hmem1 : m1.mem = wrN (wrN (wrBytes (wrN m2.mem (nc + 8) 8 d) (nc + 24) 64
      (strncpy_bytes name)) (d + 88) 8 nc) (nc + 16) 8 (rdN m.mem (d + 88) 8) := by
    rw [h2]
    simp [create_bytes]
  clear h2
  have hout : ∀ x, ¬ (nc + 8 ≤ x ∧ x < nc + 88) → ¬ (d + 88 ≤ x ∧ x < d + 96) →
      m1.mem x = m2.mem x := by
    intro x hx1 hx2
    rw [hmem1]
    exact create_write_out _ _ _ _ _ _ hx1 hx2
  have hrd : ∀ a j, (a + j ≤ nc + 8 ∨ nc + 88 ≤ a) → (a + j ≤ d + 88 ∨ d + 96 ≤ a) →
      rdN m1.mem a j = rdN m2.mem a j := by
    intro a j hx1 hx2
    apply rdN_congr
    intro x hx3 hx4
    exact hout x (by omega) (by omega)
  have hhead : head_block m1 = head_block m2 := by
    simp only [head_block, ROOT_FIRST_BLOCK]
    exact hrd _ _ (by omega) (by omega)
  have hal2 := hap.head_al
  have hne2 := hap.head_ne
  have hin2 := hap.head_in
  simp only [BLOCK_SIZE, NULL_OFF] at hal2 hne2 hin2
  have hnu := hap.new_used
  have hud2 := hud
  rw [used_iff] at hnu hud2
  obtain ⟨⟨_, _, i2, hi2a, hi2b⟩, hnu3⟩ := hnu
  obtain ⟨⟨_, _, id, hida, hidb⟩, hud3⟩ := hud2
  have hcount : head_count m1 = head_count m2 := by
    simp only [head_count, hhead, BLOCK_NODE_COUNT]
    apply hrd
    · rcases Nat.lt_trichotomy (nc / 4096) (head_block m2 / 4096) with h | h | h <;> omega
    · rcases Nat.lt_trichotomy (d / 4096) (head_block m2 / 4096) with h | h | h <;> omega
  have husame : ∀ n, Used m2 n → Used m1 n := by
    intro n hn
    unfold Used at hn ⊢
    rw [hhead, hcount, hfs1]
    exact hn
  have hframe : ∀ n, Used m n → ∀ x, n ≤ x → x < n + NODE_SIZE →
      ¬ (d + NODE_FIRST_CHILD ≤ x ∧ x < d + NODE_FIRST_CHILD + 8) → m1.mem x = m.mem x := by
    intro n hn x hx1 hx2 hx3
    have hfr := hap.fresh n hn
    simp only [NODE_SIZE, NODE_FIRST_CHILD] at hfr hx2 hx3
    rw [hout x (by omega) (by omega)]
    exact hap.frame n hn x hx1 (by simp only [NODE_SIZE]; omega)
  have hlink : rdN m1.mem (d + NODE_FIRST_CHILD) 8 = nc := by
    show rdN m1.mem (d + 88) 8 = nc
    rw [hmem1, rdN_wrN_disj _ _ _ _ _ _ (by omega)]
    exact rdN_wrN_word _ _ _ (by omega)
  have hparent : rdN m1.mem (nc + NODE_PARENT) 8 = d := by
    show rdN m1.mem (nc + 8) 8 = d
    rw [hmem1, rdN_wrN_disj _ _ _ _ _ _ (by omega), rdN_wrN_disj _ _ _ _ _ _ (by omega),
      rdN_wrBytes_disj _ _ _ _ _ _ (by omega)]
    exact rdN_wrN_word _ _ _ (by omega)
  have hnext : rdN m1.mem (nc + NODE_NEXT_SIBLING) 8 = rdN m.mem (d + NODE_FIRST_CHILD) 8 := by
    show rdN m1.mem (nc + 16) 8 = rdN m.mem (d + 88) 8
    rw [hmem1]
    exact rdN_wrN_word _ _ _ (by have := rdN_lt_word m.mem (d + 88); simpa using this)
  have hname : stored_name m1 nc = cstr name := by
    show cmem m1.mem (nc + 24) 64 = cstr name
    apply cmem_of_bytes _ _ (cstr_pos name) _ _ (by simpa using hlen)
    intro i hi
    rw [hmem1]
    simp only [wrN, wrBytes]
    rw [if_neg (by omega), if_neg (by omega), if_pos (by omega)]
    have e : nc + 24 + i - (nc + 24) = i := by omega
    rw [e]
    simp only [strncpy_bytes]
    by_cases hi2 : i < (cstr name).length
    · rw [List.getD_eq_getElem _ _ hi2, Nat.mod_mod]
      exact Nat.mod_eq_of_lt (cstr_pos name _ (List.getElem_mem _)).2
    · rw [List.getD_eq_default _ _ (by omega)]
  have hfn : rdN m1.mem ROOT_FIRST_FREE_NODE 8 = NULL_OFF := by
    show rdN m1.mem 88 8 = 0
    rw [hrd _ _ (by omega) (by omega)]; exact hap.free_node
  have hfb : rdN m1.mem ROOT_FIRST_FREE_BLOCK 8 = NULL_OFF := by
    show rdN m1.mem 96 8 = 0
    rw [hrd _ _ (by omega) (by omega)]; exact hap.free_block
  exact
    { size := by rw [hfs1, hnb1]; exact hap.size
      small := by rw [hfs1]; exact hap.small
      grow := by rw [hfs1]; exact hap.grow
      free_node := hfn
      free_block := hfb
      head_ne := by rw [hhead]; exact hap.head_ne
      head_al := by rw [hhead]; exact hap.head_al
      head_in := by rw [hhead, hfs1]; exact hap.head_in
      count := by rw [hcount]; exact hap.count
      new_used := husame _ hap.new_used
      fresh := hap.fresh
      used := fun n hn => husame n (hap.used n hn)
      frame := hframe
      link := hlink
      parent := hparent
      next := hnext
      name := hname
      root := by rw [hrt1]; exact hroot.symm }

theorem create_children_post (m : Mapper) (ns : List Nat) (hwf : WF m ns) (fuel d : Nat)
    (name : List Nat) (hd : d ∈ ns) (hlen : (cstr name).length < MAX_NAME_LENGTH)
    (nc : Nat) (m1 : Mapper)
    (h : create_children fuel (OUT_OFFSET m.root d) name m = .ok nc m1) :
    CreatePost m d name nc m1 ∧ rdN m.mem (d + NODE_TYPE) 4 = DIR ∧
      ∀ cs, SibChain m (rdN m.mem (d + NODE_FIRST_CHILD) 8) cs →
        ∀ c ∈ cs, stored_name m c ≠ cstr name := by
  obtain ⟨ht, hnames, m2, hgn, hroot, hm1⟩ :=
    create_children_run m ns hwf fuel d name hd hlen nc m1 h
  have hsize := hwf.size
  simp only [BLOCK_SIZE] at hsize
  exact ⟨create_post_of_alloc m m2 m1 d nc name hlen hsize (hwf.used d hd)
    (get_node_post m ns hwf nc m2 hgn) hroot hm1, by simpa using ht, by simpa using hnames⟩

/-! ## The fresh store -/

theorem rdN_zext (f : Nat → Nat) (n b j : Nat) (h : b + j ≤ n) :
    rdN (fun a => if a < n then f a else 0) b j = rdN f b j := by
  apply rdN_congr
  intro x h1 h2
  rw [if_pos (by omega)]

theorem new_mapper_fresh (place : Nat → Nat) :
    new_mapper place empty_file = .ok () (fresh_mapper place) := by
  have e7 : ∀ r x, x < 18446744073709551616 → MAP_OFFSET r ⟨r, x⟩ = x :=
    fun r x hx => MAP_OFFSET_cur _ _ (by simpa using hx)
  unfold fresh_mapper fresh_mem
  rw [new_mapper_empty, new_mapper_empty]
  simp [new_mapper_init, get_node, get_first_empty_node, get_node_new_block, new_node_block,
    get_block, get_first_empty_block, grow_store, ROOT, rdN_wrN_disj, rdN_wrN_same, rdN_zero, e7,
    DIR, rdN_zext]

theorem fresh_wf (place : Nat → Nat) : WF (fresh_mapper place) [4112] := by
  constructor
  · rfl
  · show 2 * 4096 ≤ 9223372036854775807
    decide
  · show rdN fresh_mem 88 8 = 0
    decide
  · show rdN fresh_mem 96 8 = 0
    decide
  · show rdN fresh_mem 112 8 ≠ 0
    decide
  · show rdN fresh_mem 112 8 % 4096 = 0
    decide
  · show rdN fresh_mem 112 8 + 4096 ≤ 8192
    decide
  · show rdN fresh_mem (rdN fresh_mem 112 8 + 8) 8 ≤ 39
    decide
  · intro n hn
    simp only [List.mem_singleton] at hn
    subst hn
    rw [used_iff]
    have h1 : rdN fresh_mem 112 8 = 4096 := by decide
    have h2 : rdN fresh_mem (4096 + 8) 8 = 1 := by decide
    refine ⟨⟨by decide, (by decide : 4112 < 2 * 4096), 0, by decide, by decide⟩, fun i hi => ?_⟩
    show i < rdN fresh_mem (rdN fresh_mem 112 8 + 8) 8
    rw [h1, h2]
    rw [show (fresh_mapper place).mem = fresh_mem from rfl] at hi
    rw [h1] at hi
    omega
  · intro n hn
    simp only [List.mem_singleton] at hn
    subst hn
    show (cmem fresh_mem (4112 + 24) 64).length < 64
    decide
  · intro n hn _
    simp only [List.mem_singleton] at hn
    subst hn
    refine ⟨[], ?_, by simp, by simp⟩
    show rdN fresh_mem (4112 + 88) 8 = 0
    decide

theorem fresh_root_dir (place : Nat → Nat) :
    rdN (fresh_mapper place).mem ROOT_ROOT_DIR 8 = 4112 := by
  show rdN fresh_mem 104 8 = 4112
  decide

/-! ## Well-formedness is kept by a create -/

theorem used_disjoint (m : Mapper) (a b : Nat) (ha : Used m a) (hb : Used m b) (hab : a ≠ b) :
    a + 104 ≤ b ∨ b + 104 ≤ a := by
  rw [used_iff] at ha hb
  obtain ⟨⟨_, _, i, hi1, hi2⟩, _⟩ := ha
  obtain ⟨⟨_, _, j, hj1, hj2⟩, _⟩ := hb
  rcases Nat.lt_trichotomy (a / 4096) (b / 4096) with h | h | h <;> omega

theorem SibChain_frame (m m1 : Mapper) (hgrow : m.file_size ≤ m1.file_size) :
    ∀ cs x, SibChain m x cs →
      (∀ c ∈ cs, rdN m1.mem (c + NODE_NEXT_SIBLING) 8 = rdN m.mem (c + NODE_NEXT_SIBLING) 8) →
      SibChain m1 x cs := by
  intro cs
  induction cs with
  | nil => intro x h _; exact h
  | cons c l ih =>
    intro x h hf
    obtain ⟨h1, h2, h3, h4⟩ := h
    refine ⟨h1, h2, by omega, ?_⟩
    rw [hf c (List.mem_cons_self _ _)]
    exact ih _ h4 (fun e he => hf e (List.mem_cons_of_mem _ he))

/-- Writes inside the type and payload fields of the new inode keep what a
create has set up. -/
theorem create_post_init (m m1 : Mapper) (d nc : Nat) (name : List Nat)
    (hsize : m.file_size = 4096 * m.num_blocks) (hud : Used m d)
    (hp : CreatePost m d name nc m1) (f : Nat → Nat)
    (hf : ∀ x, ¬ (nc ≤ x ∧ x < nc + 8) → ¬ (nc + 88 ≤ x ∧ x < nc + 104) → f x = m1.mem x) :
    CreatePost m d name nc { m1 with mem := f } := by
  obtain ⟨hd1, hd2⟩ := used_in m d hsize hud
  have hsize1 := hp.size
  simp only [BLOCK_SIZE] at hsize1
  obtain ⟨hn1, hn2⟩ := used_in m1 nc hsize1 hp.new_used
  have hfresh := hp.fresh d hud
  simp only [NODE_SIZE] at hfresh
  have hrd : ∀ a j, (a + j ≤ nc ∨ nc + 104 ≤ a ∨ (nc + 8 ≤ a ∧ a + j ≤ nc + 88)) →
      rdN f a j = rdN m1.mem a j := by
    intro a j hx
    apply rdN_congr
    intro x hx3 hx4
    exact hf x (by omega) (by omega)
  have hhead : head_block { m1 with mem := f } = head_block m1 := by
    simp only [head_block, ROOT_FIRST_BLOCK]
    exact hrd _ _ (by omega)
  have hal2 := hp.head_al
  have hne2 := hp.head_ne
  have hin2 := hp.head_in
  simp only [BLOCK_SIZE, NULL_OFF] at hal2 hne2 hin2
  have hnu := hp.new_used
  rw [used_iff] at hnu
  obtain ⟨⟨_, _, i2, hi2a, hi2b⟩, hnu3⟩ := hnu
  have hcount : head_count { m1 with mem := f } = head_count m1 := by
    simp only [head_count, hhead, BLOCK_NODE_COUNT]
    apply hrd
    rcases Nat.lt_trichotomy (nc / 4096) (head_block m1 / 4096) with h | h | h <;> omega
  have husame : ∀ n, Used m1 n → Used { m1 with mem := f } n := by
    intro n hn
    unfold Used at hn ⊢
    rw [hhead, hcount]
    exact hn
  have hframe : ∀ n, Used m n → ∀ x, n ≤ x → x < n + NODE_SIZE →
      ¬ (d + NODE_FIRST_CHILD ≤ x ∧ x < d + NODE_FIRST_CHILD + 8) → f x = m.mem x := by
    intro n hn x hx1 hx2 hx3
    have hfr := hp.fresh n hn
    simp only [NODE_SIZE] at hfr hx2
    rw [hf x (by omega) (by omega)]
    exact hp.frame n hn x hx1 hx2 hx3
  exact
    { size := hp.size
      small := hp.small
      grow := hp.grow
      free_node := by
        show rdN f 88 8 = 0
        rw [hrd _ _ (by omega)]; exact hp.free_node
      free_block := by
        show rdN f 96 8 = 0
        rw [hrd _ _ (by omega)]; exact hp.free_block
      head_ne := by rw [hhead]; exact hp.head_ne
      head_al := by rw [hhead]; exact hp.head_al
      head_in := by rw [hhead]; exact hp.head_in
      count := by rw [hcount]; exact hp.count
      new_used := husame _ hp.new_used
      fresh := hp.fresh
      used := fun n hn => husame n (hp.used n hn)
      frame := hframe
      link := by
        show rdN f (d + 88) 8 = nc
        rw [hrd _ _ (by omega)]; exact hp.link
      parent := by
        show rdN f (nc + 8) 8 = d
        rw [hrd _ _ (by omega)]; exact hp.parent
      next := by
        show rdN f (nc + 16) 8 = _
        rw [hrd _ _ (by omega)]; exact hp.next
      name := by
        show cmem f (nc + 24) 64 = cstr name
        rw [cmem_congr f m1.mem _ _ (fun x h1 h2 => hf x (by omega) (by omega))]
        exact hp.name
      root := hp.root }

theorem initialize_dir_post (m m1 m2 : Mapper) (d nc : Nat) (name : List Nat)
    (hsize : m.file_size = 4096 * m.num_blocks) (hud : Used m d)
    (hp : CreatePost m d name nc m1)
    (h : initialize_dir (OUT_OFFSET m1.root nc) m1 = .ok () m2) :
    CreatePost m d name nc m2 ∧ rdN m2.mem (nc + NODE_TYPE) 4 = DIR ∧
      rdN m2.mem (nc + NODE_FIRST_CHILD) 8 = 0 := by
  have hsize1 := hp.size
  simp only [BLOCK_SIZE] at hsize1
  obtain ⟨hn1, hn2⟩ := used_in m1 nc hsize1 hp.new_used
  have g1 : nc + 4 ≤ m1.file_size := by omega
  have g2 : nc + 88 + 8 ≤ m1.file_size := by omega
  simp [initialize_dir, g1, g2] at h
  subst h
  refine ⟨create_post_init m m1 d nc name hsize hud hp _ ?_, ?_, ?_⟩
  · intro x h1 h2
    simp only [wrN]
    rw [if_neg (by omega), if_neg (by omega)]
  · show rdN (wrN (wrN m1.mem nc 4 DIR) (nc + 88) 8 0) (nc + 0) 4 = DIR
    rw [rdN_wrN_disj _ _ _ _ _ _ (by omega), Nat.add_zero, rdN_wrN_same]
    decide
  · show rdN (wrN (wrN m1.mem nc 4 DIR) (nc + 88) 8 0) (nc + 88) 8 = 0
    exact rdN_wrN_word _ _ _ (by decide)

theorem initialize_file_post (m m1 m2 : Mapper) (d nc : Nat) (name : List Nat)
    (hsize : m.file_size = 4096 * m.num_blocks) (hud : Used m d)
    (hp : CreatePost m d name nc m1)
    (h : initialize_file (OUT_OFFSET m1.root nc) m1 = .ok () m2) :
    CreatePost m d name nc m2 ∧ rdN m2.mem (nc + NODE_TYPE) 4 = FIL ∧
      rdN m2.mem (nc + NODE_FILE_SIZE) 8 = 0 ∧ rdN m2.mem (nc + NODE_FILE_FIRST_BLOCK) 8 = 0 := by
  have hsize1 := hp.size
  simp only [BLOCK_SIZE] at hsize1
  obtain ⟨hn1, hn2⟩ := used_in m1 nc hsize1 hp.new_used
  have g1 : nc + 4 ≤ m1.file_size := by omega
  have g2 : nc + 88 + 8 ≤ m1.file_size := by omega
  have g3 : nc + 96 + 8 ≤ m1.file_size := by omega
  simp [initialize_file, g1, g2, g3] at h
  subst h
  refine ⟨create_post_init m m1 d nc name hsize hud hp _ ?_, ?_, ?_, ?_⟩
  · intro x h1 h2
    simp only [wrN]
    rw [if_neg (by omega), if_neg (by omega), if_neg (by omega)]
  · show rdN (wrN (wrN (wrN m1.mem nc 4 FIL) (nc + 96) 8 0) (nc + 88) 8 0) (nc + 0) 4 = FIL
    rw [rdN_wrN_disj _ _ _ _ _ _ (by omega), rdN_wrN_disj _ _ _ _ _ _ (by omega), Nat.add_zero,
      rdN_wrN_same]
    decide
  · show rdN (wrN (wrN (wrN m1.mem nc 4 FIL) (nc + 96) 8 0) (nc + 88) 8 0) (nc + 88) 8 = 0
    exact rdN_wrN_word _ _ _ (by decide)
  · show rdN (wrN (wrN (wrN m1.mem nc 4 FIL) (nc + 96) 8 0) (nc + 88) 8 0) (nc + 96) 8 = 0
    rw [rdN_wrN_disj _ _ _ _ _ _ (by omega)]
    exact rdN_wrN_word _ _ _ (by decide)

/-- The fields of an older inode below its payload are not changed by a
create, and the payload of every older inode but the parent is not either. -/
theorem create_post_old (m m2 : Mapper) (ns : List Nat) (hwf : WF m ns) (d nc : Nat)
    (name : List Nat) (hd : d ∈ ns) (hp : CreatePost m d name nc m2) (n : Nat) (hn : n ∈ ns) :
    (∀ x, n ≤ x → x < n + 88 → m2.mem x = m.mem x) ∧
    (n ≠ d → ∀ x, n ≤ x → x < n + 104 → m2.mem x = m.mem x) ∧
    stored_name m2 n = stored_name m n ∧
    rdN m2.mem (n + NODE_TYPE) 4 = rdN m.mem (n + NODE_TYPE) 4 ∧
    rdN m2.mem (n + NODE_NEXT_SIBLING) 8 = rdN m.mem (n + NODE_NEXT_SIBLING) 8 ∧
    n ≠ nc := by
  have hun := hwf.used n hn
  have hud := hwf.used d hd
  have h1 : ∀ x, n ≤ x → x < n + 88 → m2.mem x = m.mem x := by
    intro x hx1 hx2
    apply hp.frame n hun x hx1 (by simp only [NODE_SIZE]; omega)
    simp only [NODE_FIRST_CHILD]
    by_cases hnd : n = d
    · subst hnd; omega
    · have := used_disjoint m n d hun hud hnd; omega
  have h2 : n ≠ d → ∀ x, n ≤ x → x < n + 104 → m2.mem x = m.mem x := by
    intro hnd x hx1 hx2
    apply hp.frame n hun x hx1 (by simp only [NODE_SIZE]; omega)
    simp only [NODE_FIRST_CHILD]
    have := used_disjoint m n d hun hud hnd; omega
  refine ⟨h1, h2, ?_, ?_, ?_, ?_⟩
  · exact cmem_congr _ _ _ _ (fun x hx1 hx2 => h1 x (by simp only [NODE_NAME] at hx1; omega)
      (by simp only [NODE_NAME, MAX_NAME_LENGTH] at hx2; omega))
  · exact rdN_congr _ _ _ _ (fun x hx1 hx2 => h1 x (by simp only [NODE_TYPE] at hx1; omega)
      (by simp only [NODE_TYPE] at hx2; omega))
  · exact rdN_congr _ _ _ _ (fun x hx1 hx2 => h1 x (by omega)
      (by simp only [NODE_NEXT_SIBLING] at hx2; omega))
  · have := hp.fresh n hun
    simp only [NODE_SIZE] at this
    omega

theorem wf_step (m m2 : Mapper) (ns : List Nat) (hwf : WF m ns) (d nc : Nat) (name : List Nat)
    (hd : d ∈ ns) (hlen : (cstr name).length < MAX_NAME_LENGTH)
    (hp : CreatePost m d name nc m2)
    (hnames : ∀ cs, SibChain m (rdN m.mem (d + NODE_FIRST_CHILD) 8) cs →
      ∀ c ∈ cs, stored_name m c ≠ cstr name)
    (hnew : rdN m2.mem (nc + NODE_TYPE) 4 = DIR → rdN m2.mem (nc + NODE_FIRST_CHILD) 8 = 0) :
    WF m2 (nc :: ns) := by
  have hsize2 := hp.size
  simp only [BLOCK_SIZE] at hsize2
  obtain ⟨hn1, hn2⟩ := used_in m2 nc hsize2 hp.new_used
  have hchain : ∀ cs x, SibChain m x cs → (∀ c ∈ cs, c ∈ ns) → SibChain m2 x cs := by
    intro cs x hcs hin
    apply SibChain_frame m m2 hp.grow cs x hcs
    intro c hc
    exact (create_post_old m m2 ns hwf d nc name hd hp c (hin c hc)).2.2.2.2.1
  have hnamesame : ∀ cs : List Nat, (∀ c ∈ cs, c ∈ ns) →
      cs.map (stored_name m2) = cs.map (stored_name m) := by
    intro cs hin
    apply List.map_congr_left
    intro c hc
    exact (create_post_old m m2 ns hwf d nc name hd hp c (hin c hc)).2.2.1
  refine
    { size := hp.size
      small := hp.small
      free_node := hp.free_node
      free_block := hp.free_block
      head_ne := hp.head_ne
      head_al := hp.head_al
      head_in := hp.head_in
      count := hp.count
      used := ?_
      named := ?_
      dirs := ?_ }
  · intro n hn
    rcases List.mem_cons.mp hn with rfl | hn
    · exact hp.new_used
    · exact hp.used n (hwf.used n hn)
  · intro n hn
    rcases List.mem_cons.mp hn with rfl | hn
    · rw [hp.name]; exact hlen
    · rw [(create_post_old m m2 ns hwf d nc name hd hp n hn).2.2.1]
      exact hwf.named n hn
  · intro n hn htype
    rcases List.mem_cons.mp hn with rfl | hn
    · refine ⟨[], ?_, by simp, by simp⟩
      rw [hnew htype]
      rfl
    · obtain ⟨_, hpay, _, hty, _, hne⟩ := create_post_old m m2 ns hwf d nc name hd hp n hn
      rw [hty] at htype
      obtain ⟨cs, hcs, hin, hnd⟩ := hwf.dirs n hn htype
      by_cases hnd1 : n = d
      · subst hnd1
        refine ⟨nc :: cs, ?_, ?_, ?_⟩
        · refine ⟨hp.link, by simp only [NULL_OFF]; omega, by simp only [NODE_SIZE]; omega, ?_⟩
          rw [hp.next]
          exact hchain cs _ hcs hin
        · intro c hc
          rcases List.mem_cons.mp hc with rfl | hc
          · exact List.mem_cons_self _ _
          · exact List.mem_cons_of_mem _ (hin c hc)
        · rw [List.map_cons, List.nodup_cons, hnamesame cs hin, hp.name]
          refine ⟨?_, hnd⟩
          intro hmem
          obtain ⟨c, hc, hceq⟩ := List.mem_map.mp hmem
          exact hnames cs hcs c hc hceq
      · refine ⟨cs, ?_, fun c hc => List.mem_cons_of_mem _ (hin c hc), ?_⟩
        · have : rdN m2.mem (n + NODE_FIRST_CHILD) 8 = rdN m.mem (n + NODE_FIRST_CHILD) 8 :=
            rdN_congr _ _ _ _ (fun x hx1 hx2 => hpay hnd1 x (by omega)
              (by simp only [NODE_FIRST_CHILD] at hx2; omega))
          rw [this]
          exact hchain cs _ hcs hin
        · rw [hnamesame cs hin]; exact hnd

/-- Every store reached by creates is well-formed. -/
theorem created_wf (m : Mapper) (ns : List Nat) (h : Created m ns) : WF m ns := by
  induction h with
  | fresh place m h =>
    rw [new_mapper_fresh] at h
    injection h with _ h
    subst h
    rw [fresh_root_dir]
    exact fresh_wf place
  | create_dir fuel d name m m1 m2 ns nc _ hd hlen hc hi ih =>
    obtain ⟨hp, ht, hnames⟩ := create_children_post m ns ih fuel d name hd hlen nc m1 hc
    have hsize := ih.size
    simp only [BLOCK_SIZE] at hsize
    obtain ⟨hp2, _, hfc⟩ := initialize_dir_post m m1 m2 d nc name hsize (ih.used d hd) hp hi
    exact wf_step m m2 ns ih d nc name hd hlen hp2 hnames (fun _ => hfc)
  | create_file fuel d name m m1 m2 ns nc _ hd hlen hc hi ih =>
    obtain ⟨hp, ht, hnames⟩ := create_children_post m ns ih fuel d name hd hlen nc m1 hc
    have hsize := ih.size
    simp only [BLOCK_SIZE] at hsize
    obtain ⟨hp2, hty, _⟩ := initialize_file_post m m1 m2 d nc name hsize (ih.used d hd) hp hi
    refine wf_step m m2 ns ih d nc name hd hlen hp2 hnames (fun h => ?_)
    rw [hty] at h
    exact absurd h (by decide)

/-- Iterating a chain of siblings yields the chain. -/
theorem iter_children_loop_chain (m : Mapper) : ∀ cs x fuel, SibChain m x cs →
    cs.length < fuel → iter_children_loop fuel x m = .ok cs m := by
  intro cs
  induction cs with
  | nil =>
    intro x fuel h hf
    simp only [SibChain] at h
    subst h
    obtain ⟨k, rfl⟩ : ∃ j, fuel = j + 1 := ⟨fuel - 1, by simp at hf; omega⟩
    simp [iter_children_loop, iter_next_cur]
  | cons c l ih =>
    intro x fuel h hf
    obtain ⟨rfl, h2, h3, h4⟩ := h
    obtain ⟨k, rfl⟩ : ∃ j, fuel = j + 1 := ⟨fuel - 1, by simp at hf; omega⟩
    simp only [NULL_OFF, NODE_SIZE, NODE_NEXT_SIBLING] at h2 h3 h4
    have g : x + 16 + 8 ≤ m.file_size := by omega
    have := ih _ k h4 (by simp at hf; omega)
    simp [iter_children_loop, iter_next_cur, h2, g, this]

/-! ## Resolving a name -/

theorem cstr_valid (name : List Nat) (h : ∀ c ∈ name, c ≠ 0 ∧ c < 256 ∧ c ≠ 47) :
    cstr name = name := by
  induction name with
  | nil => rfl
  | cons c l ih =>
    have hc := h c (List.mem_cons_self _ _)
    rw [cstr_cons, Nat.mod_eq_of_lt hc.2.1, if_neg hc.1,
      ih (fun x hx => h x (List.mem_cons_of_mem _ hx))]

theorem find_char_idx_none (c : Nat) (hc : c = 47 ∨ c = 0) (name : List Nat)
    (h : ∀ x ∈ name, x ≠ 0 ∧ x < 256 ∧ x ≠ 47) : ∀ i, find_char_idx c name i = none := by
  induction name with
  | nil => intro i; rfl
  | cons x l ih =>
    intro i
    have hx := h x (List.mem_cons_self _ _)
    unfold find_char_idx
    rw [Nat.mod_eq_of_lt hx.2.1, if_neg hx.1, if_neg (by omega)]
    exact ih (fun y hy => h y (List.mem_cons_of_mem _ hy)) (i + 1)

theorem find_char_none (c : Nat) (hc : c = 47 ∨ c = 0) (name : List Nat)
    (h : ∀ x ∈ name, x ≠ 0 ∧ x < 256 ∧ x ≠ 47) : find_char name c = -1 := by
  unfold find_char
  rw [find_char_idx_none c hc name h 0]

theorem strncmp_str_dotdot (name : List Nat) (h : ∀ x ∈ name, x ≠ 0 ∧ x < 256 ∧ x ≠ 47)
    (hne : name ≠ [46, 46]) (n : Nat) : strncmp_str (n + 3) name [46, 46] = false := by
  match name, h, hne with
  | [], _, _ => simp [strncmp_str]
  | [a], h, hne =>
    have ha := h a (List.mem_cons_self _ _)
    by_cases h1 : a = 46
    · subst h1; simp [strncmp_str]
    · simp [strncmp_str, Nat.mod_eq_of_lt ha.2.1, h1]
  | [a, b], h, hne =>
    have ha := h a (List.mem_cons_self _ _)
    have hb := h b (List.mem_cons_of_mem _ (List.mem_cons_self _ _))
    by_cases h1 : a = 46
    · subst h1
      by_cases h2 : b = 46
      · subst h2; exact absurd rfl hne
      · simp [strncmp_str, Nat.mod_eq_of_lt hb.2.1, h2]
    · simp [strncmp_str, Nat.mod_eq_of_lt ha.2.1, h1]
  | a :: b :: c :: l, h, hne =>
    have ha := h a (List.mem_cons_self _ _)
    have hb := h b (List.mem_cons_of_mem _ (List.mem_cons_self _ _))
    have hc := h c (List.mem_cons_of_mem _ (List.mem_cons_of_mem _ (List.mem_cons_self _ _)))
    by_cases h1 : a = 46
    · subst h1
      by_cases h2 : b = 46
      · subst h2
        simp [strncmp_str, Nat.mod_eq_of_lt hc.2.1, hc.1]
      · simp [strncmp_str, Nat.mod_eq_of_lt hb.2.1, h2]
    · simp [strncmp_str, Nat.mod_eq_of_lt ha.2.1, h1]

/-- A `strncmp` over more characters than the string has finds a field that
holds the string equal to it. -/
theorem strncmp_eq (m : Mapper) (s : List Nat) : ∀ n a k,
    cmem m.mem a k = cstr s → (cstr s).length < k → (cstr s).length < n →
    a + k ≤ m.file_size → strncmp n ⟨m.root, a⟩ s m = .ok true m := by
  induction s with
  | nil =>
    intro n a k he hk hn hfs
    obtain ⟨k, rfl⟩ : ∃ j, k = j + 1 := ⟨k - 1, by omega⟩
    obtain ⟨n, rfl⟩ : ∃ j, n = j + 1 := ⟨n - 1, by omega⟩
    rw [cmem_succ, cstr_nil] at he
    have hb : m.mem a % 256 = 0 := by
      by_contra hb
      simp [hb] at he
    have h1 : a + 1 ≤ m.file_size := by omega
    simp [strncmp, h1, rdN_one, hb]
  | cons c cs ih =>
    intro n a k he hk hn hfs
    obtain ⟨k, rfl⟩ : ∃ j, k = j + 1 := ⟨k - 1, by omega⟩
    obtain ⟨n, rfl⟩ : ∃ j, n = j + 1 := ⟨n - 1, by omega⟩
    have h1 : a + 1 ≤ m.file_size := by omega
    rw [cmem_succ, cstr_cons] at he
    rw [cstr_cons] at hk hn
    by_cases hc : c % 256 = 0
    · have hb : m.mem a % 256 = 0 := by
        by_contra hb
        simp [hb, hc] at he
      simp [strncmp, h1, rdN_one, hb, hc]
    · simp only [hc, if_false, List.length_cons] at hk hn he
      have hb : m.mem a % 256 ≠ 0 := by
        intro hb
        simp [hb] at he
      simp only [hb, if_false, List.cons.injEq] at he
      have hrec := ih n (a + 1) k he.2 (by omega) (by omega) (by omega)
      simp [strncmp, h1, rdN_one, he.1, hc, hrec]

/-- A create that returned, split into `create_children` and the
initialisation of the new inode. -/
theorem create_file_ok (m m2 : Mapper) (fuel d : Nat) (name : List Nat)
    (h : create_file fuel d name m = .ok () m2) :
    ∃ nc m1, create_children fuel (OUT_OFFSET m.root d) name m = .ok nc m1 ∧
      initialize_file (OUT_OFFSET m1.root nc) m1 = .ok () m2 := by
  cases hc : create_children fuel (OUT_OFFSET m.root d) name m with
  | err e m1 =>
    simp only [OUT_OFFSET] at hc
    simp [create_file, hc] at h
  | ok nc m1 =>
    simp only [OUT_OFFSET] at hc
    refine ⟨nc, m1, rfl, ?_⟩
    simpa [create_file, hc] using h

theorem create_dir_ok (m m2 : Mapper) (fuel d : Nat) (name : List Nat)
    (h : create_dir fuel d name m = .ok () m2) :
    ∃ nc m1, create_children fuel (OUT_OFFSET m.root d) name m = .ok nc m1 ∧
      initialize_dir (OUT_OFFSET m1.root nc) m1 = .ok () m2 := by
  cases hc : create_children fuel (OUT_OFFSET m.root d) name m with
  | err e m1 =>
    simp only [OUT_OFFSET] at hc
    simp [create_dir, hc] at h
  | ok nc m1 =>
    simp only [OUT_OFFSET] at hc
    refine ⟨nc, m1, rfl, ?_⟩
    simpa [create_dir, hc] using h

/-- After a create under `d`, resolving the name from `d` finds the new
inode at the head of the children of `d`. -/
theorem traverse_after_create (m m2 : Mapper) (ns : List Nat) (hwf : WF m ns) (d nc : Nat)
    (name : List Nat) (hd : d ∈ ns) (hv : ValidName name) (hne : name ≠ [46, 46])
    (hp : CreatePost m d name nc m2) (ht : rdN m.mem (d + NODE_TYPE) 4 = DIR)
    (fuel : Nat) (hfuel : 0 < fuel) :
    traverse_path fuel d name m2 = .ok nc m2 := by
  obtain ⟨hchars, hlen⟩ := hv
  simp only [MAX_NAME_LENGTH] at hlen
  have hsize := hwf.size
  have hsize2 := hp.size
  simp only [BLOCK_SIZE] at hsize hsize2
  obtain ⟨hd1, hd2⟩ := used_in m d hsize (hwf.used d hd)
  obtain ⟨hn1, hn2⟩ := used_in m2 nc hsize2 hp.new_used
  have hgrow := hp.grow
  have hty : rdN m2.mem d 4 = DIR := by
    have := (create_post_old m m2 ns hwf d nc name hd hp d hd).2.2.2.1
    simp only [NODE_TYPE, Nat.add_zero] at this ht
    rw [this]; exact ht
  have hlink := hp.link
  simp only [NODE_FIRST_CHILD] at hlink
  have hname : cmem m2.mem (nc + 24) 64 = cstr name := hp.name
  obtain ⟨k, rfl⟩ : ∃ j, fuel = j + 1 := ⟨fuel - 1, by omega⟩
  have hcs : (cstr name).length < 64 := by rw [cstr_valid name hchars]; exact hlen
  have hs := strncmp_eq m2 name 18446744073709551615 (nc + 24) 64 hname hcs (by omega) (by omega)
  have e1 : d + 4 ≤ m2.file_size := by omega
  have e2 : d + 88 + 8 ≤ m2.file_size := by omega
  have e3 : nc + 16 + 8 ≤ m2.file_size := by omega
  have e4 : ¬ nc = 0 := by omega
  have hstep : traverse_single_step (k + 1) d name 18446744073709551615 m2 = .ok nc m2 := by
    simp [traverse_single_step, create_iterator_cur, e1, hty, e2, hlink, traverse_scan,
      iter_next_cur, e3, e4, hs]
  have hdd := strncmp_str_dotdot name hchars hne 18446744073709551612
  have hf1 := find_char_none 47 (Or.inl rfl) name hchars
  have hf2 := find_char_none 0 (Or.inr rfl) name hchars
  have hsz : to_size_t (-1) = 18446744073709551615 := by decide
  simp only [Nat.reduceAdd] at hdd
  unfold traverse_path traverse_path_loop
  simp [hf1, hf2, hsz, hdd, hstep]

/-- Claim C7.  Create-then-resolve round trip.  In a well-formed store, for every
inode `d` of the store and every name of at most `MAX_NAME_LENGTH - 1`
characters other than NUL and `'/'` that is not `".."`: when
`create_file(d, name)` or `create_dir(d, name)` returns, `create_children`
has returned a new inode `nc`, and `traverse_path(d, name)` on the store
after the call returns `nc`. -/
theorem create_then_resolve (m m2 : Mapper) (ns : List Nat) (hwf : WF m ns) (fuel d : Nat)
    (name : List Nat) (hd : d ∈ ns) (hv : ValidName name) (hne : name ≠ [46, 46])
    (h : create_file fuel d name m = .ok () m2 ∨ create_dir fuel d name m = .ok () m2) :
    ∃ nc m1, create_children fuel (OUT_OFFSET m.root d) name m = .ok nc m1 ∧ nc ∉ ns ∧
      ∀ fuel2, 0 < fuel2 → traverse_path fuel2 d name m2 = .ok nc m2 := by
  have hsize := hwf.size
  simp only [BLOCK_SIZE] at hsize
  have hlen : (cstr name).length < MAX_NAME_LENGTH := by
    rw [cstr_valid name hv.1]; exact hv.2
  rcases h with h | h
  · obtain ⟨nc, m1, hc, hi⟩ := create_file_ok m m2 fuel d name h
    obtain ⟨hp, ht, _⟩ := create_children_post m ns hwf fuel d name hd hlen nc m1 hc
    obtain ⟨hp2, _, _⟩ := initialize_file_post m m1 m2 d nc name hsize (hwf.used d hd) hp hi
    refine ⟨nc, m1, hc, fun hin => ?_, fun fuel2 hf =>
      traverse_after_create m m2 ns hwf d nc name hd hv hne hp2 ht fuel2 hf⟩
    exact (create_post_old m m2 ns hwf d nc name hd hp2 nc hin).2.2.2.2.2 rfl
  · obtain ⟨nc, m1, hc, hi⟩ := create_dir_ok m m2 fuel d name h
    obtain ⟨hp, ht, _⟩ := create_children_post m ns hwf fuel d name hd hlen nc m1 hc
    obtain ⟨hp2, _, _⟩ := initialize_dir_post m m1 m2 d nc name hsize (hwf.used d hd) hp hi
    refine ⟨nc, m1, hc, fun hin => ?_, fun fuel2 hf =>
      traverse_after_create m m2 ns hwf d nc name hd hv hne hp2 ht fuel2 hf⟩
    exact (create_post_old m m2 ns hwf d nc name hd hp2 nc hin).2.2.2.2.2 rfl

/-- Claim C6 as amended.  Name uniqueness is an invariant: in every store reached
from a fresh store by `create_dir` and `create_file` calls that returned,
each on an inode created before and with a name of at most
`MAX_NAME_LENGTH - 1` characters, iterating the children of any directory
returns and the names of the inodes it yields are pairwise distinct. -/
theorem created_names_distinct (m : Mapper) (ns : List Nat) (h : Created m ns) (d : Nat)
    (hd : d ∈ ns) (ht : rdN m.mem (d + NODE_TYPE) 4 = DIR) :
    ∃ cs, (∀ fuel, cs.length < fuel → iter_children fuel d m = .ok cs m) ∧
      (cs.map (stored_name m)).Nodup := by
  have hwf := created_wf m ns h
  obtain ⟨cs, hcs, _, hnd⟩ := hwf.dirs d hd ht
  refine ⟨cs, fun fuel hf => ?_, hnd⟩
  have hsize := hwf.size
  simp only [BLOCK_SIZE] at hsize
  obtain ⟨hd1, hd2⟩ := used_in m d hsize (hwf.used d hd)
  simp only [NODE_TYPE, Nat.add_zero, NODE_FIRST_CHILD] at ht hcs
  have e1 : d + 4 ≤ m.file_size := by omega
  have e2 : d + 88 + 8 ≤ m.file_size := by omega
  simp [iter_children, create_iterator_cur, e1, e2, ht,
    iter_children_loop_chain m cs _ fuel hcs hf]

/-! ## The claims on concrete stores -/

theorem res_unit_ok (r : Res Unit) (h : r.error = none) : r = .ok () r.state := by
  cases r with
  | ok a m => rfl
  | err e m => simp at h

theorem res_ok_of_val {α : Type} (r : Res α) (a : α) (h : r.val = some a) :
    r = .ok a r.state := by
  cases r with
  | ok b m => simp at h; rw [h]; rfl
  | err e m => simp at h

/-- Claim C2, on the code: in a file whose blocks are the ones at 8192 and
12288, a write of one byte at the logical position 4088 lands at offset
12288, the first byte of the `next_block` header of the second block, and
not at index 0 of the data area of the second block (offset 12296). -/
theorem byte_4088_lands_in_header :
    rdN store_two_blocks.mem (4216 + NODE_FILE_FIRST_BLOCK) 8 = 8192 ∧
    rdN store_two_blocks.mem (8192 + BLOCK_NEXT) 8 = 12288 ∧
    rdN store_two_blocks.mem (12288 + BLOCK_NEXT) 8 = 0 ∧
    (write_file 0 (fun _ => 170) 1 (after (seek_file 0 4088 SEEK_SET) store_two_blocks)).val
      = some 1 ∧
    rdN (after (write_file 0 (fun _ => 170) 1)
      (after (seek_file 0 4088 SEEK_SET) store_two_blocks)).mem (12288 + BLOCK_NEXT) 8 = 170 ∧
    rdN (after (write_file 0 (fun _ => 170) 1)
      (after (seek_file 0 4088 SEEK_SET) store_two_blocks)).mem (12288 + BLOCK_DATA) 1 = 120 := by
  refine ⟨?_, ?_, ?_, ?_, ?_, ?_⟩ <;> decide!

/-- Claim C9, on the code: a write of 5 bytes at cursor 0 of an empty file
returns 5 and leaves the size 6, not `max(0, 0 + 5)`. -/
theorem write_size_off_by_one :
    rdN store_file.mem (4216 + NODE_FILE_SIZE) 8 = 0 ∧
    (store_file.fd_table 0).offset = 0 ∧
    (write_file 0 (fun _ => 104) 5 store_file).val = some 5 ∧
    rdN (after (write_file 0 (fun _ => 104) 5) store_file).mem (4216 + NODE_FILE_SIZE) 8 = 6 := by
  refine ⟨?_, ?_, ?_, ?_⟩ <;> decide!

/-- Claim C5 as amended.  Duplicate create is rejected: for every directory
`d` whose children are the chain `cs`, one of them with the stored name
`name`, and every `name` of at most `MAX_NAME_LENGTH - 1` characters,
`create_dir(d, name)` and `create_file(d, name)` end in `exit(1)` after
"there already is a node with that name", and the store is the one before
the call: no inode is allocated and the child list of `d` is unchanged. -/
theorem create_duplicate_rejected (m : Mapper) (fuel d : Nat) (name cs : List Nat) (c : Nat)
    (hsmall : m.file_size ≤ MAX_FILE_SIZE)
    (hlen : (cstr name).length < MAX_NAME_LENGTH)
    (hd : d + NODE_SIZE ≤ m.file_size)
    (htype : rdN m.mem (d + NODE_TYPE) 4 = DIR)
    (hchain : SibChain m (rdN m.mem (d + NODE_FIRST_CHILD) 8) cs)
    (hc : c ∈ cs) (hname : stored_name m c = cstr name)
    (hfuel : cs.length < fuel) :
    create_dir fuel d name m = .err .already_exists m ∧
    create_file fuel d name m = .err .already_exists m := by
  have h := create_children_dup m fuel d name cs c hsmall hlen hd htype hchain hc hname hfuel
  simp only [OUT_OFFSET] at h
  constructor
  · simp [create_dir, h]
  · simp [create_file, h]

theorem create_duplicate_rejected_witness :
    create_dir 4 4112 [97] store_two_children = .err .already_exists store_two_children ∧
    create_file 4 4112 [97] store_two_children = .err .already_exists store_two_children :=
  create_duplicate_rejected store_two_children 4 4112 [97] [4320, 4216] 4216
    (by decide) (by decide) (by decide) (by decide)
    (by decide)
    (by decide) (by decide) (by decide)

/-- Claim C5 as stated fails for a name of `MAX_NAME_LENGTH` characters: the
root directory has the one child 4216 whose name field holds `name64`, and
`create_dir(root, name64)` returns and adds a second child. -/
theorem create_duplicate_accepted_name64 :
    (iter_children 4 4112 store_long_name).val = some [4216] ∧
    rdBytes store_long_name.mem (4216 + NODE_NAME) MAX_NAME_LENGTH = name64 ∧
    (create_dir 4 4112 name64 store_long_name).error = none ∧
    (iter_children 4 4112 (after (create_dir 4 4112 name64) store_long_name)).val
      = some [4424, 4216] := by
  refine ⟨?_, ?_, ?_, ?_⟩ <;> decide!

/-- Claim C6 as stated fails for names of `MAX_NAME_LENGTH` characters:
three creates that return leave the root directory with the children 4424
and 4216 of the same name. -/
theorem created_names_clash_name64 :
    (create_dir 4 4112 name64 (fresh_mapper place_fixed)).error = none ∧
    (create_dir 4 4216 [98] (after (create_dir 4 4112 name64) (fresh_mapper place_fixed))).error
      = none ∧
    (create_dir 4 4112 name64 store_long_name).error = none ∧
    (iter_children 4 4112 (after (create_dir 4 4112 name64) store_long_name)).val
      = some [4424, 4216] ∧
    stored_name (after (create_dir 4 4112 name64) store_long_name) 4424
      = stored_name (after (create_dir 4 4112 name64) store_long_name) 4216 := by
  refine ⟨?_, ?_, ?_, ?_, ?_⟩ <;> decide!

theorem create_then_resolve_witness :
    ∃ nc m1, create_children 4 (OUT_OFFSET (fresh_mapper place_fixed).root 4112) [102]
        (fresh_mapper place_fixed) = .ok nc m1 ∧ nc ∉ [4112] ∧
      ∀ fuel2, 0 < fuel2 → traverse_path fuel2 4112 [102] store_created_file
        = .ok nc store_created_file :=
  create_then_resolve (fresh_mapper place_fixed) store_created_file [4112]
    (fresh_wf place_fixed) 4 4112 [102] (by simp) (by decide) (by decide)
    (Or.inl (res_unit_ok _ (by decide!)))

/-! ## Stores reached by creates -/

/-- The store `store_dir` is reached by one `create_dir` on the fresh store. -/
theorem store_dir_created : Created store_dir [4216, 4112] :=
  have h0 : Created (fresh_mapper place_fixed) [4112] := by
    have := Created.fresh place_fixed _ (new_mapper_fresh place_fixed)
    rwa [fresh_root_dir] at this
  Created.create_dir 4 4112 [97] (fresh_mapper place_fixed) store_dir_mid store_dir [4112] 4216
    h0 (by simp) (by decide) (res_ok_of_val _ 4216 (by decide!)) (res_unit_ok _ (by decide!))

/-! ## The same store at another address -/

theorem relres_bind {α β : Type} {fd fd2 : Nat} {x y : FS α} {f g : α → FS β} {m m2 : Mapper}
    (h : RelRes fd fd2 (x m) (y m2))
    (hf : ∀ a m1 m3, Same fd fd2 m1 m3 → RelRes fd fd2 (f a m1) (g a m3)) :
    RelRes fd fd2 ((x >>= f) m) ((y >>= g) m2) := by
  rw [bind_apply, bind_apply]
  obtain ⟨h1, h2, h3⟩ := h
  cases hx : x m with
  | ok a m1 =>
    cases hy : y m2 with
    | ok b m3 =>
      rw [hx, hy] at h1 h3
      simp at h1 h3
      subst h1
      exact hf b m1 m3 h3
    | err e m3 => rw [hx, hy] at h1; simp at h1
  | err e m1 =>
    cases hy : y m2 with
    | ok b m3 => rw [hx, hy] at h1; simp at h1
    | err e2 m3 =>
      rw [hx, hy] at h2 h3
      simp at h2 h3
      subst h2
      exact ⟨rfl, rfl, h3⟩

theorem relres_getM {β : Type} {fd fd2 : Nat} {f g : Mapper → FS β} {m m2 : Mapper}
    (h : RelRes fd fd2 (f m m) (g m2 m2)) :
    RelRes fd fd2 ((getM >>= f) m) ((getM >>= g) m2) := h

theorem relres_pure {α : Type} {fd fd2 : Nat} (a : α) {m m2 : Mapper} (h : Same fd fd2 m m2) :
    RelRes fd fd2 ((pure a : FS α) m) ((pure a : FS α) m2) := ⟨rfl, rfl, h⟩

theorem relres_fail {α : Type} {fd fd2 : Nat} (e : Err) {m m2 : Mapper} (h : Same fd fd2 m m2) :
    RelRes fd fd2 ((fail e : FS α) m) ((fail e : FS α) m2) := ⟨rfl, rfl, h⟩

theorem relres_ite {α : Type} {fd fd2 : Nat} {c : Prop} [Decidable c] {x y x2 y2 : FS α}
    {m m2 : Mapper} (hx : c → RelRes fd fd2 (x m) (x2 m2)) (hy : ¬ c → RelRes fd fd2 (y m) (y2 m2)) :
    RelRes fd fd2 ((if c then x else y) m) ((if c then x2 else y2) m2) := by
  by_cases h : c
  · simp only [h, if_true]; exact hx h
  · simp only [h, if_false]; exact hy h

theorem relres_load {fd fd2 : Nat} (k off : Nat) {m m2 : Mapper} (h : Same fd fd2 m m2) :
    RelRes fd fd2 (load k ⟨m.root, off⟩ m) (load k ⟨m2.root, off⟩ m2) := by
  rw [load_cur _ _ _ _ rfl, load_cur _ _ _ _ rfl, h.file_size, h.mem]
  split <;> (first | exact ⟨rfl, rfl, h⟩ | exact ⟨rfl, rfl, ⟨rfl, rfl, h.num_blocks, h.entry⟩⟩ | exact ⟨rfl, rfl, ⟨h.mem, h.file_size, h.num_blocks, h.entry⟩⟩)

theorem relres_load64 {fd fd2 : Nat} (off : Nat) {m m2 : Mapper} (h : Same fd fd2 m m2) :
    RelRes fd fd2 (load64 ⟨m.root, off⟩ m) (load64 ⟨m2.root, off⟩ m2) := relres_load 8 off h

theorem relres_store {fd fd2 : Nat} (k off v : Nat) {m m2 : Mapper} (h : Same fd fd2 m m2) :
    RelRes fd fd2 (store k ⟨m.root, off⟩ v m) (store k ⟨m2.root, off⟩ v m2) := by
  rw [store_cur _ _ _ _ _ rfl, store_cur _ _ _ _ _ rfl, h.file_size, h.mem]
  split <;> (first | exact ⟨rfl, rfl, h⟩ | exact ⟨rfl, rfl, ⟨rfl, rfl, h.num_blocks, h.entry⟩⟩ | exact ⟨rfl, rfl, ⟨h.mem, h.file_size, h.num_blocks, h.entry⟩⟩)

theorem relres_store64 {fd fd2 : Nat} (off v : Nat) {m m2 : Mapper} (h : Same fd fd2 m m2) :
    RelRes fd fd2 (store64 ⟨m.root, off⟩ v m) (store64 ⟨m2.root, off⟩ v m2) :=
  relres_store 8 off v h

theorem relres_memset {fd fd2 : Nat} (off c n : Nat) {m m2 : Mapper} (h : Same fd fd2 m m2) :
    RelRes fd fd2 (memset ⟨m.root, off⟩ c n m) (memset ⟨m2.root, off⟩ c n m2) := by
  unfold memset valid
  simp only [true_and, h.file_size, h.mem]
  split <;> (first | exact ⟨rfl, rfl, h⟩ | exact ⟨rfl, rfl, ⟨rfl, rfl, h.num_blocks, h.entry⟩⟩ | exact ⟨rfl, rfl, ⟨h.mem, h.file_size, h.num_blocks, h.entry⟩⟩)

theorem relres_memcpy_from {fd fd2 : Nat} (off n : Nat) {m m2 : Mapper} (h : Same fd fd2 m m2) :
    RelRes fd fd2 (memcpy_from ⟨m.root, off⟩ n m) (memcpy_from ⟨m2.root, off⟩ n m2) := by
  unfold memcpy_from valid
  simp only [true_and, h.file_size, h.mem]
  split <;> (first | exact ⟨rfl, rfl, h⟩ | exact ⟨rfl, rfl, ⟨rfl, rfl, h.num_blocks, h.entry⟩⟩ | exact ⟨rfl, rfl, ⟨h.mem, h.file_size, h.num_blocks, h.entry⟩⟩)

theorem MAP_OFFSET_base (root off : Nat) : MAP_OFFSET root ⟨root, off⟩ = off % WORD := by
  unfold MAP_OFFSET
  simp only [WORD]
  omega

theorem relres_get_first_empty_block {fd fd2 : Nat} {m m2 : Mapper} (h : Same fd fd2 m m2) :
    RelRes fd fd2 (get_first_empty_block m.root m) (get_first_empty_block m2.root m2) := by
  obtain ⟨h1, h2, h3, h4⟩ := h
  simp only [get_first_empty_block, bind_apply, load64_cur _ _ _ rfl, OUT_OFFSET, Ptr.add,
    MAP_OFFSET_base, h1, h2, ROOT_FIRST_FREE_BLOCK, BLOCK_NEXT, NULL_OFF, Nat.add_zero]
  by_cases c1 : 96 + 8 ≤ m.file_size
  · simp only [c1, if_true]
    by_cases c2 : rdN m.mem 96 8 = 0
    · simp only [c2, if_true, pure_apply]
      (first | exact ⟨rfl, rfl, ⟨h1, h2, h3, h4⟩⟩ | exact ⟨rfl, rfl, ⟨rfl, rfl, h3, h4⟩⟩ | exact ⟨rfl, rfl, ⟨h1, rfl, h3, h4⟩⟩ | exact ⟨rfl, rfl, ⟨rfl, h2, h3, h4⟩⟩)
    · simp only [c2, if_false, bind_apply, c1, if_true, load64_cur _ _ _ rfl, h1, h2]
      by_cases c3 : rdN m.mem 96 8 + 8 ≤ m.file_size
      · simp only [c3, if_true]
        by_cases c4 : rdN m.mem (rdN m.mem 96 8) 8 = 0
        · simp only [c4, if_true, bind_apply, store64_cur _ _ _ _ rfl, h2, c1, pure_apply, h1]
          (first | exact ⟨rfl, rfl, ⟨h1, h2, h3, h4⟩⟩ | exact ⟨rfl, rfl, ⟨rfl, rfl, h3, h4⟩⟩ | exact ⟨rfl, rfl, ⟨h1, rfl, h3, h4⟩⟩ | exact ⟨rfl, rfl, ⟨rfl, h2, h3, h4⟩⟩)
        · simp only [c4, if_false, bind_apply, store64_cur _ _ _ _ rfl, h2, c1, pure_apply, h1,
            if_true]
          (first | exact ⟨rfl, rfl, ⟨h1, h2, h3, h4⟩⟩ | exact ⟨rfl, rfl, ⟨rfl, rfl, h3, h4⟩⟩ | exact ⟨rfl, rfl, ⟨h1, rfl, h3, h4⟩⟩ | exact ⟨rfl, rfl, ⟨rfl, h2, h3, h4⟩⟩)
      · simp only [c3, if_false]
        (first | exact ⟨rfl, rfl, ⟨h1, h2, h3, h4⟩⟩ | exact ⟨rfl, rfl, ⟨rfl, rfl, h3, h4⟩⟩ | exact ⟨rfl, rfl, ⟨h1, rfl, h3, h4⟩⟩ | exact ⟨rfl, rfl, ⟨rfl, h2, h3, h4⟩⟩)
  · simp only [c1, if_false]
    (first | exact ⟨rfl, rfl, ⟨h1, h2, h3, h4⟩⟩ | exact ⟨rfl, rfl, ⟨rfl, rfl, h3, h4⟩⟩ | exact ⟨rfl, rfl, ⟨h1, rfl, h3, h4⟩⟩ | exact ⟨rfl, rfl, ⟨rfl, h2, h3, h4⟩⟩)

theorem relres_grow_store {fd fd2 : Nat} {m m2 : Mapper} (h : Same fd fd2 m m2) :
    RelRes fd fd2 (grow_store m) (grow_store m2) := by
  obtain ⟨h1, h2, h3, h4⟩ := h
  simp only [grow_store, h1, h2, h3]
  split
  · exact ⟨rfl, rfl, ⟨rfl, rfl, rfl, h4⟩⟩
  · exact ⟨rfl, rfl, ⟨rfl, rfl, rfl, h4⟩⟩

theorem relres_get_block {fd fd2 : Nat} {m m2 : Mapper} (h : Same fd fd2 m m2) :
    RelRes fd fd2 (get_block m) (get_block m2) := by
  unfold get_block
  apply relres_getM
  apply relres_bind (relres_get_first_empty_block h)
  intro a m1 m3 h1
  apply relres_ite
  · intro _; exact relres_pure _ h1
  · intro _; exact relres_grow_store h1

theorem relres_new_data_block {fd fd2 : Nat} {m m2 : Mapper} (h : Same fd fd2 m m2) :
    RelRes fd fd2 (new_data_block m) (new_data_block m2) := by
  unfold new_data_block
  apply relres_bind (relres_get_block h)
  intro a m1 m3 h1
  apply relres_getM
  apply relres_bind (relres_memset _ _ _ h1)
  intro _ m4 m5 h2
  exact relres_pure _ h2

theorem relres_first_block_of {fd fd2 : Nat} (file : Nat) {m m2 : Mapper} (h : Same fd fd2 m m2) :
    RelRes fd fd2 (first_block_of file m) (first_block_of file m2) := by
  unfold first_block_of
  simp only [OUT_OFFSET, Ptr.add]
  repeat' with_reducible (first | intro _ | apply relres_getM | apply relres_ite | exact relres_pure _ (by assumption) | exact relres_fail _ (by assumption) | exact relres_load64 _ (by assumption) | exact relres_store64 _ _ (by assumption) | exact relres_memset _ _ _ (by assumption) | exact relres_memcpy_from _ _ (by assumption) | exact relres_new_data_block (by assumption) | apply relres_bind)

theorem relres_skip_blocks {fd fd2 : Nat} (k : Nat) : ∀ (block : Nat) {m m2 : Mapper},
    Same fd fd2 m m2 → RelRes fd fd2 (skip_blocks k block m) (skip_blocks k block m2) := by
  induction k with
  | zero => intro block m m2 h; exact relres_pure _ h
  | succ k ih =>
    intro block m m2 h
    unfold skip_blocks
    simp only [OUT_OFFSET, Ptr.add]
    repeat' with_reducible (first | intro _ | apply relres_getM | apply relres_ite | exact relres_pure _ (by assumption) | exact relres_fail _ (by assumption) | exact relres_load64 _ (by assumption) | exact relres_store64 _ _ (by assumption) | exact relres_memset _ _ _ (by assumption) | exact relres_memcpy_from _ _ (by assumption) | exact relres_new_data_block (by assumption) | apply relres_bind | exact ih _ (by assumption))

theorem relres_advance_block {fd fd2 : Nat} (more : Bool) (block : Nat) {m m2 : Mapper}
    (h : Same fd fd2 m m2) :
    RelRes fd fd2 (advance_block more block m) (advance_block more block m2) := by
  unfold advance_block
  simp only [OUT_OFFSET, Ptr.add]
  repeat' with_reducible (first | intro _ | apply relres_getM | apply relres_ite | exact relres_pure _ (by assumption) | exact relres_fail _ (by assumption) | exact relres_load64 _ (by assumption) | exact relres_store64 _ _ (by assumption) | exact relres_memset _ _ _ (by assumption) | exact relres_memcpy_from _ _ (by assumption) | exact relres_new_data_block (by assumption) | apply relres_bind)

theorem relres_read_loop {fd fd2 : Nat} (len : Nat) (fuel : Nat) :
    ∀ (block block_offset n_read : Nat) (out : List Nat) {m m2 : Mapper},
    Same fd fd2 m m2 →
    RelRes fd fd2 (read_loop len fuel block block_offset n_read out m)
      (read_loop len fuel block block_offset n_read out m2) := by
  induction fuel with
  | zero =>
    intro block bo n out m m2 h
    unfold read_loop
    apply relres_ite
    · intro _; exact relres_pure _ h
    · intro _; exact relres_fail _ h
  | succ k ih =>
    intro block bo n out m m2 h
    unfold read_loop
    apply relres_ite
    · intro _; exact relres_pure _ h
    · intro _
      apply relres_getM
      apply relres_bind (relres_memcpy_from _ _ h)
      intro chunk m1 m3 h1
      apply relres_bind (relres_advance_block _ _ h1)
      intro next m4 m5 h2
      exact ih _ _ _ _ h2

theorem relres_fd_get {fd fd2 : Nat} (h1 : fd < MAX_FD) (h2 : fd2 < MAX_FD) {m m2 : Mapper}
    (h : Same fd fd2 m m2) : RelRes fd fd2 (fd_get fd m) (fd_get fd2 m2) := by
  unfold fd_get
  simp only [h1, h2, if_true]
  exact ⟨by simp [h.entry], rfl, h⟩

theorem relres_fd_set {fd fd2 : Nat} (h1 : fd < MAX_FD) (h2 : fd2 < MAX_FD) (e : FD)
    {m m2 : Mapper} (h : Same fd fd2 m m2) :
    RelRes fd fd2 (fd_set fd e m) (fd_set fd2 e m2) := by
  unfold fd_set
  simp only [h1, h2, if_true]
  exact ⟨rfl, rfl, ⟨h.mem, h.file_size, h.num_blocks, by simp⟩⟩

theorem relres_read_file {fd fd2 : Nat} (h1 : fd < MAX_FD) (h2 : fd2 < MAX_FD) (len : Nat)
    {m m2 : Mapper} (h : Same fd fd2 m m2) :
    RelRes fd fd2 (read_file fd len m) (read_file fd2 len m2) := by
  unfold read_file
  apply relres_bind (relres_fd_get h1 h2 h)
  intro entry m1 m3 h3
  apply relres_ite
  · intro _; exact relres_fail _ h3
  · intro _
    apply relres_getM
    apply relres_bind (relres_load64 _ h3)
    intro fl m4 m5 h4
    apply relres_bind (relres_first_block_of _ h4)
    intro first m6 m7 h5
    apply relres_bind (relres_skip_blocks _ _ h5)
    intro block m8 m9 h6
    apply relres_bind (relres_read_loop _ _ _ _ _ _ h6)
    intro r m10 m11 h7
    apply relres_bind (relres_fd_get h1 h2 h7)
    intro e1 m12 m13 h8
    apply relres_bind (relres_fd_set h1 h2 _ h8)
    intro _ m14 m15 h9
    exact relres_pure _ h9

theorem relres_seek_set {fd fd2 : Nat} (h1 : fd < MAX_FD) (h2 : fd2 < MAX_FD) (o : Nat)
    {m m2 : Mapper} (h : Same fd fd2 m m2) :
    RelRes fd fd2 (seek_file fd o SEEK_SET m) (seek_file fd2 o SEEK_SET m2) := by
  unfold seek_file
  apply relres_bind (relres_fd_get h1 h2 h)
  intro entry m1 m3 h3
  apply relres_ite
  · intro _; exact relres_fail _ h3
  · intro _
    apply relres_getM
    simp only [SEEK_SET, if_true]
    exact relres_fd_set h1 h2 _ h3

theorem get_empty_fd_from_closed (m : Mapper) (h : ∀ i, (m.fd_table i).in_use = 0) (k i : Nat)
    (hk : 0 < k) : get_empty_fd_from m k i = i := by
  cases k with
  | zero => omega
  | succ k => simp [get_empty_fd_from, h]

theorem open_file_free (m : Mapper) (f : Nat) (hfree : get_empty_fd m < MAX_FD) :
    open_file (OUT_OFFSET m.root f) m = .ok (get_empty_fd m)
      { m with fd_table := fun i => if i = get_empty_fd m then ⟨1, f % WORD, 0⟩
                                    else m.fd_table i } := by
  simp only [open_file, bind_apply, getM_apply, fd_get, fd_set, hfree, if_true, pure_apply,
    OUT_OFFSET, MAP_OFFSET_base]

/-- The sequence open, seek, read gives the same count and the same bytes in
a store and in the store reopened, when the store has a free handle. -/
theorem open_seek_read_reopened (m : Mapper) (place : Nat → Nat) (f o len : Nat)
    (hfree : get_empty_fd m < MAX_FD) :
    (open_seek_read f o len (m.reopened place)).val = (open_seek_read f o len m).val := by
  have h0 : get_empty_fd (m.reopened place) = 0 :=
    get_empty_fd_from_closed _ (fun _ => rfl) _ _ (by decide)
  have hfree2 : get_empty_fd (m.reopened place) < MAX_FD := by rw [h0]; decide
  have key : RelRes (get_empty_fd m) 0 (open_seek_read f o len m)
      (open_seek_read f o len (m.reopened place)) := by
    unfold open_seek_read
    apply relres_getM
    rw [bind_apply, bind_apply, open_file_free m f hfree,
      open_file_free (m.reopened place) f hfree2, h0]
    apply relres_bind
    · apply relres_seek_set hfree (by decide)
      exact ⟨rfl, rfl, rfl, by simp⟩
    · intro _ m1 m3 h1
      exact relres_read_file hfree (by decide) len h1
  exact key.1

/-- Claim C3.  Persistence round trip.  For every store produced from a fresh
store by calls of the interface that returned, `close_mapper` followed by
`new_mapper` on the backing file it leaves returns the same store: the same
bytes at every offset, the same length and block count (the root record is
not initialised again and no block is allocated); only the address of the
mapping and the handle table are new.  Hence `root_dir`, the listing of
every directory and the bytes read from every file (open the file, seek,
read, in a store with a free handle) are the same as before closing. -/
theorem reopen_preserves_store (m : Mapper) (h : Reachable m) (place : Nat → Nat) :
    new_mapper place (close_mapper m) = .ok () (m.reopened place) ∧
    (m.reopened place).mem = m.mem ∧
    (m.reopened place).file_size = m.file_size ∧
    (m.reopened place).num_blocks = m.num_blocks ∧
    (load64 ⟨(m.reopened place).root, ROOT_ROOT_DIR⟩ (m.reopened place)).val
      = (load64 ⟨m.root, ROOT_ROOT_DIR⟩ m).val ∧
    (∀ fuel d, (iter_children fuel d (m.reopened place)).val = (iter_children fuel d m).val) ∧
    ∀ f o len, get_empty_fd m < MAX_FD →
      (open_seek_read f o len (m.reopened place)).val = (open_seek_read f o len m).val := by
  have hs := reachable_size m h
  obtain ⟨h1, h2⟩ := hs
  refine ⟨?_, rfl, rfl, rfl, ?_, fun fuel d => iter_children_reopened m place fuel d,
    fun f o len hfree => open_seek_read_reopened m place f o len hfree⟩
  · have hq : m.file_size / BLOCK_SIZE = m.num_blocks := by
      rw [h1]; simp [BLOCK_SIZE]
    have hne : ¬ (m.num_blocks = 0) := by omega
    simp only [new_mapper, close_mapper, hq, hne, if_false, Mapper.reopened]
  · rw [load64_cur _ _ _ rfl, load64_cur _ _ _ rfl]
    have hfs : (m.reopened place).file_size = m.file_size := rfl
    have hmem : (m.reopened place).mem = m.mem := rfl
    rw [hfs, hmem]
    split <;> rfl

theorem reopen_preserves_store_witness :
    Reachable store_written ∧
    new_mapper place_moving (close_mapper store_written)
      = .ok () (store_written.reopened place_moving) ∧
    (store_written.reopened place_moving).mem = store_written.mem ∧
    (iter_children 4 4112 (store_written.reopened place_moving)).val
      = (iter_children 4 4112 store_written).val ∧
    (open_seek_read 4216 0 5 (store_written.reopened place_moving)).val
      = (open_seek_read 4216 0 5 store_written).val ∧
    (open_seek_read 4216 0 5 store_written).val = some (5, [104, 101, 108, 108, 111]) :=
  have h1 : Reachable store_created_file :=
    Reachable.step (Call.create_file 4 4112 [102]) (fresh_mapper place_fixed) store_created_file
      (Reachable.fresh place_fixed _ (new_mapper_fresh place_fixed))
      (res_unit_ok _ (by decide!))
  have h2 : Reachable (after (Call.run (.open_file 4216)) store_created_file) :=
    Reachable.step (Call.open_file 4216) store_created_file _ h1 (res_unit_ok _ (by decide!))
  have h : Reachable store_written :=
    Reachable.step (Call.write_file 0 hello 5) _ store_written h2 (res_unit_ok _ (by decide!))
  ⟨h, (reopen_preserves_store store_written h place_moving).1,
    (reopen_preserves_store store_written h place_moving).2.1,
    (reopen_preserves_store store_written h place_moving).2.2.2.2.2.1 4 4112,
    (reopen_preserves_store store_written h place_moving).2.2.2.2.2.2 4216 0 5 (by decide!),
    by decide!⟩

/-! ## The fresh store, seeking and the handle table -/

/-- Claim C20.  Fresh-store initialisation: `new_mapper` on an empty backing
file returns, whatever address the kernel picks, and leaves a store of two
blocks in which `first_free_node` and `first_free_block` are `NULL_OFF`,
`root_dir` is the offset 4112, not `NULL_OFF`, of an inode of type `DIR`
with `parent`, `next_sibling` and `first_child` all `NULL_OFF`, iterating
it yields nothing, and the inode is slot 0 of the head node block (offset
4096), whose `node_count` is 1. -/
theorem fresh_store_initialised (place : Nat → Nat) :
    ∃ m, new_mapper place empty_file = .ok () m ∧
      m.file_size = 2 * BLOCK_SIZE ∧
      rdN m.mem ROOT_FIRST_FREE_NODE 8 = NULL_OFF ∧
      rdN m.mem ROOT_FIRST_FREE_BLOCK 8 = NULL_OFF ∧
      rdN m.mem ROOT_ROOT_DIR 8 ≠ NULL_OFF ∧
      rdN m.mem (rdN m.mem ROOT_ROOT_DIR 8 + NODE_TYPE) 4 = DIR ∧
      rdN m.mem (rdN m.mem ROOT_ROOT_DIR 8 + NODE_PARENT) 8 = NULL_OFF ∧
      rdN m.mem (rdN m.mem ROOT_ROOT_DIR 8 + NODE_NEXT_SIBLING) 8 = NULL_OFF ∧
      rdN m.mem (rdN m.mem ROOT_ROOT_DIR 8 + NODE_FIRST_CHILD) 8 = NULL_OFF ∧
      (∀ fuel, 0 < fuel → iter_children fuel (rdN m.mem ROOT_ROOT_DIR 8) m = .ok [] m) ∧
      head_block m ≠ NULL_OFF ∧
      rdN m.mem ROOT_ROOT_DIR 8 = head_block m + BLOCK_NODES + NODE_SIZE * 0 ∧
      head_count m = 1 := by
  have hr : rdN fresh_mem 104 8 = 4112 := by decide
  have ht : rdN fresh_mem 4112 4 = 2 := by decide
  have hc : rdN fresh_mem (4112 + 88) 8 = 0 := by decide
  refine ⟨fresh_mapper place, new_mapper_fresh place, rfl, ?_, ?_, ?_, ?_, ?_, ?_, ?_, ?_, ?_, ?_, ?_⟩
  · show rdN fresh_mem 88 8 = 0
    decide
  · show rdN fresh_mem 96 8 = 0
    decide
  · show rdN fresh_mem 104 8 ≠ 0
    decide
  · show rdN fresh_mem (rdN fresh_mem 104 8 + 0) 4 = 2
    decide
  · show rdN fresh_mem (rdN fresh_mem 104 8 + 8) 8 = 0
    decide
  · show rdN fresh_mem (rdN fresh_mem 104 8 + 16) 8 = 0
    decide
  · show rdN fresh_mem (rdN fresh_mem 104 8 + 88) 8 = 0
    decide
  · intro fuel hf
    obtain ⟨k, rfl⟩ : ∃ k, fuel = k + 1 := ⟨fuel - 1, by omega⟩
    show iter_children (k + 1) (rdN fresh_mem 104 8) (fresh_mapper place) = _
    rw [hr]
    have e1 : 4112 + 4 ≤ (fresh_mapper place).file_size := by
      show 4112 + 4 ≤ 2 * 4096
      decide
    have e2 : 4112 + 88 + 8 ≤ (fresh_mapper place).file_size := by
      show 4112 + 88 + 8 ≤ 2 * 4096
      decide
    have ht2 : rdN (fresh_mapper place).mem 4112 4 = DIR := ht
    have hc2 : rdN (fresh_mapper place).mem (4112 + 88) 8 = 0 := hc
    simp [iter_children, create_iterator_cur, e1, e2, ht2, hc2, iter_children_loop,
      iter_next]
  · show rdN fresh_mem 112 8 ≠ 0
    decide
  · show rdN fresh_mem 104 8 = rdN fresh_mem 112 8 + 16 + 104 * 0
    decide
  · show rdN fresh_mem (rdN fresh_mem 112 8 + 8) 8 = 1
    decide

/-- Claim C12, on the code: on a file of size 6, `seek(fd, 0, END)` leaves the
cursor at 5, not at `6 - 0`; on an empty file it leaves the cursor at
`(size_t)-1`. -/
theorem seek_end_off_by_one :
    rdN store_written.mem (4216 + NODE_FILE_SIZE) 8 = 6 ∧
    (seek_file 0 0 SEEK_END store_written).error = none ∧
    ((after (seek_file 0 0 SEEK_END) store_written).fd_table 0).offset = 5 ∧
    rdN store_file.mem (4216 + NODE_FILE_SIZE) 8 = 0 ∧
    ((after (seek_file 0 0 SEEK_END) store_file).fd_table 0).offset = SIZE_MAX := by
  refine ⟨?_, ?_, ?_, ?_, ?_⟩ <;> decide!

/-! ### The lowest free slot -/

theorem get_empty_fd_from_spec (m : Mapper) : ∀ k i,
    i ≤ get_empty_fd_from m k i ∧ get_empty_fd_from m k i ≤ i + k ∧
    (∀ j, i ≤ j → j < get_empty_fd_from m k i → (m.fd_table j).in_use ≠ 0) ∧
    (get_empty_fd_from m k i < i + k → (m.fd_table (get_empty_fd_from m k i)).in_use = 0) := by
  intro k
  induction k with
  | zero =>
    intro i
    simp only [get_empty_fd_from]
    exact ⟨Nat.le_refl _, Nat.le_refl _, fun j h1 h2 => by omega, fun h => by omega⟩
  | succ k ih =>
    intro i
    simp only [get_empty_fd_from]
    by_cases h : (m.fd_table i).in_use = 0
    · rw [if_pos h]
      exact ⟨Nat.le_refl _, by omega, fun j h1 h2 => by omega, fun _ => h⟩
    · rw [if_neg h]
      obtain ⟨h1, h2, h3, h4⟩ := ih (i + 1)
      refine ⟨by omega, by omega, fun j hj1 hj2 => ?_, fun hlt => h4 (by omega)⟩
      by_cases hji : j = i
      · rw [hji]; exact h
      · exact h3 j (by omega) hj2

/-- The function `get_empty_fd` finds the lowest free slot when there is one. -/
theorem get_empty_fd_free (m : Mapper) (i : Nat) (hi : i < MAX_FD)
    (hfree : (m.fd_table i).in_use = 0) :
    get_empty_fd m < MAX_FD ∧ (m.fd_table (get_empty_fd m)).in_use = 0 ∧
    ∀ j, j < get_empty_fd m → (m.fd_table j).in_use ≠ 0 := by
  obtain ⟨h1, h2, h3, h4⟩ := get_empty_fd_from_spec m MAX_FD 0
  have hlt : get_empty_fd_from m MAX_FD 0 < MAX_FD := by
    by_contra hc
    exact h3 i (Nat.zero_le _) (by omega) hfree
  refine ⟨hlt, h4 (by omega), fun j hj => h3 j (Nat.zero_le _) hj⟩

/-- The function `get_empty_fd` returns `MAX_FD` when every slot is in use. -/
theorem get_empty_fd_full (m : Mapper) (hfull : ∀ i, i < MAX_FD → (m.fd_table i).in_use ≠ 0) :
    get_empty_fd m = MAX_FD := by
  obtain ⟨h1, h2, h3, h4⟩ := get_empty_fd_from_spec m MAX_FD 0
  by_contra hc
  have hlt : get_empty_fd_from m MAX_FD 0 < MAX_FD := by
    unfold get_empty_fd at hc
    omega
  exact hfull _ hlt (h4 (by omega))

/-- The lowest free slot is the only one with its properties. -/
theorem lowest_free_unique (m : Mapper) (i j : Nat)
    (hi : (m.fd_table i).in_use = 0) (hi2 : ∀ k, k < i → (m.fd_table k).in_use ≠ 0)
    (hj : (m.fd_table j).in_use = 0) (hj2 : ∀ k, k < j → (m.fd_table k).in_use ≠ 0) : i = j := by
  rcases Nat.lt_trichotomy i j with h | h | h
  · exact absurd hi (hj2 i h)
  · exact h
  · exact absurd hj (hi2 j h)

/-- Claim C13.  Lowest-free-slot policy.  For every handle table with a free
slot, `open_file` on the inode at offset `f` returns the smallest index `i`
whose slot is not in use, and the table afterwards has the slot `i` in use
with `file = f` and cursor 0 and every other slot as before (nothing else of
the store changes).  Consequently, after `close_file(j)` on a full table the
next `open_file` returns `j`. -/
theorem open_file_lowest_free (m : Mapper) (f : Nat) (hf : f < WORD) :
    ((∃ i, i < MAX_FD ∧ (m.fd_table i).in_use = 0) →
      ∃ i, i < MAX_FD ∧ (m.fd_table i).in_use = 0 ∧
        (∀ j, j < i → (m.fd_table j).in_use ≠ 0) ∧
        open_file (OUT_OFFSET m.root f) m = .ok i
          { m with fd_table := fun k => if k = i then ⟨1, f, 0⟩ else m.fd_table k }) ∧
    (∀ j, j < MAX_FD → (∀ i, i < MAX_FD → (m.fd_table i).in_use ≠ 0) →
      ∃ m1, close_file j m = .ok () m1 ∧
        (open_file (OUT_OFFSET m1.root f) m1).val = some j) := by
  have hmod : f % WORD = f := Nat.mod_eq_of_lt hf
  constructor
  · rintro ⟨i, hi, hfree⟩
    obtain ⟨h1, h2, h3⟩ := get_empty_fd_free m i hi hfree
    refine ⟨get_empty_fd m, h1, h2, h3, ?_⟩
    rw [open_file_free m f h1, hmod]
  · intro j hj hfull
    have hc : close_file j m = .ok ()
        { m with fd_table := fun k => if k = j then { m.fd_table j with in_use := 0 }
                                       else m.fd_table k } := by
      simp only [close_file, bind_apply, fd_get, fd_set, hj, if_true]
    refine ⟨_, hc, ?_⟩
    generalize hm1 : ({ m with fd_table := fun k => if k = j then { m.fd_table j with in_use := 0 }
                                       else m.fd_table k } : Mapper) = m1
    have hj0 : (m1.fd_table j).in_use = 0 := by
      rw [← hm1]; simp
    have hlow : ∀ k, k < j → (m1.fd_table k).in_use ≠ 0 := by
      intro k hk
      rw [← hm1]
      have hkj : k ≠ j := by omega
      simp only [hkj, if_false]
      exact hfull k (by omega)
    obtain ⟨h1, h2, h3⟩ := get_empty_fd_free m1 j hj hj0
    have he : get_empty_fd m1 = j := lowest_free_unique m1 _ _ h2 h3 hj0 hlow
    rw [open_file_free m1 f h1, he]
    rfl

/-- With every slot in use `open_file` addresses `fd_table[MAX_FD]`, past the
end of the table. -/
theorem open_file_full (m : Mapper) (p : Ptr)
    (hfull : ∀ i, i < MAX_FD → (m.fd_table i).in_use ≠ 0) :
    open_file p m = .err .fault m := by
  simp [open_file, get_empty_fd_full m hfull, fd_get]

/-- Opening the same file `k` times from an empty handle table fills the
slots below `k`. -/
theorem open_times_table (m : Mapper) (f : Nat) (hf : f < WORD)
    (hempty : m.fd_table = fun _ => ⟨0, 0, 0⟩) : ∀ k, k ≤ MAX_FD →
    open_times f k m = .ok ()
      { m with fd_table := fun i => if i < k then ⟨1, f, 0⟩ else ⟨0, 0, 0⟩ } := by
  intro k
  induction k with
  | zero =>
    intro _
    simp only [open_times, pure_apply, Nat.not_lt_zero, if_false]
    rw [← hempty]
  | succ k ih =>
    intro hk
    have hk1 : k < MAX_FD := by omega
    simp only [open_times, bind_apply, ih (by omega), getM_apply]
    generalize hm1 : ({ m with fd_table := fun i => if i < k then ⟨1, f, 0⟩ else ⟨0, 0, 0⟩ }
      : Mapper) = m1
    have hk0 : (m1.fd_table k).in_use = 0 := by
      rw [← hm1]; simp
    have hlow : ∀ j, j < k → (m1.fd_table j).in_use ≠ 0 := by
      intro j hj
      rw [← hm1]; simp [hj]
    obtain ⟨h1, h2, h3⟩ := get_empty_fd_free m1 k hk1 hk0
    have he : get_empty_fd m1 = k := lowest_free_unique m1 _ _ h2 h3 hk0 hlow
    have hroot : m.root = m1.root := by rw [← hm1]
    rw [hroot, open_file_free m1 f h1, he, Nat.mod_eq_of_lt hf]
    simp only [pure_apply]
    rw [← hm1]
    congr 2
    funext i
    by_cases h4 : i = k
    · subst h4; simp
    · by_cases h5 : i < k
      · have : i < k + 1 := by omega
        simp [h4, h5, this]
      · have : ¬ i < k + 1 := by omega
        simp [h4, h5, this]

/-- Claim C14, on the code: `MAX_FD` calls of `open_file` on the file of
`store_created_file` return and leave every slot of the handle table in use;
`get_empty_fd` then returns `MAX_FD`, and the next `open_file` addresses
`fd_table[MAX_FD]`, which is past the end of the table, instead of failing
with no slot touched. -/
theorem open_on_full_table_overruns :
    open_times 4216 MAX_FD store_created_file = .ok () store_full ∧
    (∀ i, i < MAX_FD → (store_full.fd_table i).in_use ≠ 0) ∧
    get_empty_fd store_full = MAX_FD ∧
    open_file (OUT_OFFSET store_full.root 4216) store_full = .err .fault store_full := by
  have hfull : ∀ i, i < MAX_FD → (store_full.fd_table i).in_use ≠ 0 := by
    intro i hi
    simp [store_full, hi]
  refine ⟨?_, hfull, get_empty_fd_full _ hfull, open_file_full _ _ hfull⟩
  have h := open_times_table store_created_file 4216 (by decide) rfl MAX_FD (Nat.le_refl _)
  rw [h]
  rfl

theorem open_file_lowest_free_witness :
    (∃ i, i < MAX_FD ∧ (store_written.fd_table i).in_use = 0 ∧
        (∀ j, j < i → (store_written.fd_table j).in_use ≠ 0) ∧
        open_file (OUT_OFFSET store_written.root 4216) store_written = .ok i
          { store_written with
            fd_table := fun k => if k = i then ⟨1, 4216, 0⟩ else store_written.fd_table k }) ∧
    (∃ m1, close_file 7 store_full = .ok () m1 ∧
        (open_file (OUT_OFFSET m1.root 4216) m1).val = some 7) :=
  ⟨(open_file_lowest_free store_written 4216 (by decide)).1 ⟨1, by decide, by decide!⟩,
   (open_file_lowest_free store_full 4216 (by decide)).2 7 (by decide)
     (fun i hi => by simp [store_full, hi])⟩

/-! ## Reading at the end of a file -/

/-- Skipping blocks of a chain that has them changes nothing. -/
theorem skip_blocks_chain (m : Mapper) : ∀ k b, BlockChain m k b →
    ∃ b2, skip_blocks k b m = .ok b2 m := by
  intro k
  induction k with
  | zero => intro b _; exact ⟨b, rfl⟩
  | succ k ih =>
    intro b h
    obtain ⟨h1, h2, h3⟩ := h
    simp only [BLOCK_NEXT, Nat.add_zero, NULL_OFF] at h1 h2 h3
    obtain ⟨b2, hb2⟩ := ih _ h3
    refine ⟨b2, ?_⟩
    simp only [skip_blocks, bind_apply, getM_apply, OUT_OFFSET, Ptr.add, BLOCK_NEXT,
      Nat.add_zero, load64_cur _ _ _ rfl, h1, if_true, NULL_OFF, h2, if_false, pure_apply, hb2]

/-- Writing back the entry a slot holds leaves the table as it is. -/
theorem fd_table_same (m : Mapper) (fd : Nat) (e : FD) (h : m.fd_table fd = e) :
    ({ m with fd_table := fun i => if i = fd then e else m.fd_table i } : Mapper) = m := by
  cases m with
  | mk fs nb r mem t p =>
    simp only [Mapper.mk.injEq, true_and, and_true]
    funext i
    by_cases hi : i = fd
    · subst hi; simp only [if_true]; exact h.symm
    · simp only [hi, if_false]

/-- Claim C11 as amended.  A read at the end of a file that has its blocks
mutates nothing: for every open handle whose cursor equals the size of its
file, when the file has a first block and its chain has a block for each of
the `cursor / BLOCK_SIZE` steps the read skips, `read_file` returns 0,
copies nothing and leaves the whole store as it was: the bytes of the
backing file (the inode, the block chain), its length, the handle table
with the cursor. -/
theorem read_at_eof_keeps_store (m : Mapper) (fd len : Nat) (hfd : fd < MAX_FD)
    (huse : (m.fd_table fd).in_use ≠ 0)
    (hin : (m.fd_table fd).file + NODE_SIZE ≤ m.file_size)
    (heof : (m.fd_table fd).offset = rdN m.mem ((m.fd_table fd).file + NODE_FILE_SIZE) 8)
    (hfirst : rdN m.mem ((m.fd_table fd).file + NODE_FILE_FIRST_BLOCK) 8 ≠ NULL_OFF)
    (hchain : BlockChain m ((m.fd_table fd).offset / BLOCK_SIZE)
      (rdN m.mem ((m.fd_table fd).file + NODE_FILE_FIRST_BLOCK) 8)) :
    read_file fd len m = .ok (0, []) m := by
  obtain ⟨b2, hb2⟩ := skip_blocks_chain m _ _ hchain
  simp only [NODE_SIZE, NODE_FILE_SIZE, NODE_FILE_FIRST_BLOCK, NULL_OFF, BLOCK_SIZE] at *
  have hlt : (m.fd_table fd).offset < 18446744073709551616 := by
    rw [heof]; exact rdN_lt_word _ _
  have e1 : (m.fd_table fd).file + 88 + 8 ≤ m.file_size := by omega
  have e2 : (m.fd_table fd).file + 96 + 8 ≤ m.file_size := by omega
  have hlen : min_sz len ((rdN m.mem ((m.fd_table fd).file + 88) 8 +
      (18446744073709551616 - (m.fd_table fd).offset % 18446744073709551616))
        % 18446744073709551616) = 0 := by
    rw [← heof, Nat.mod_eq_of_lt hlt]
    have : (m.fd_table fd).offset + (18446744073709551616 - (m.fd_table fd).offset)
        = 18446744073709551616 := by omega
    rw [this]
    simp [min_sz]
  have hoff : ((m.fd_table fd).offset + 0) % 18446744073709551616 = (m.fd_table fd).offset := by
    rw [Nat.add_zero, Nat.mod_eq_of_lt hlt]
  simp only [read_file, bind_apply, fd_get, hfd, if_true, huse, if_false, getM_apply,
    OUT_OFFSET, Ptr.add, NODE_FILE_SIZE, load64_cur _ _ _ rfl, e1, WORD, hlen, first_block_of,
    NODE_FILE_FIRST_BLOCK, e2, NULL_OFF, hfirst, pure_apply, BLOCK_SIZE, hb2, read_loop,
    fd_set, hoff, to_int]
  rw [fd_table_same m fd _ rfl]
  rfl

/-- Claim C11 as stated fails on a newly created empty file: the read at
cursor 0 of the file of size 0 returns 0 and copies nothing, but it
allocates a data block, which grows the backing file from 8192 to 12288
bytes, and records it as the `first_block` of the file. -/
theorem read_of_empty_file_allocates :
    rdN store_file.mem (4216 + NODE_FILE_SIZE) 8 = 0 ∧
    (store_file.fd_table 0).offset = 0 ∧
    (read_file 0 5 store_file).val = some (0, []) ∧
    rdN store_file.mem (4216 + NODE_FILE_FIRST_BLOCK) 8 = NULL_OFF ∧
    rdN (after (read_file 0 5) store_file).mem (4216 + NODE_FILE_FIRST_BLOCK) 8 = 8192 ∧
    store_file.file_size = 8192 ∧
    (after (read_file 0 5) store_file).file_size = 12288 := by
  refine ⟨?_, ?_, ?_, ?_, ?_, ?_, ?_⟩ <;> decide!

theorem read_at_eof_keeps_store_witness :
    read_file 0 5 store_at_eof = .ok (0, []) store_at_eof :=
  read_at_eof_keeps_store store_at_eof 0 5 (by decide) (by decide!) (by decide!) (by decide!)
    (by decide!) (by decide!)

/-! ## Path resolution -/

/-! ### Resolution changes nothing -/

theorem ro_load {P : Mapper → Prop} (k : Nat) (p : Ptr) : Keeps P (load k p) := by
  constructor; intro m hm; unfold load; split <;> exact hm

theorem ro_load8 {P : Mapper → Prop} (p : Ptr) : Keeps P (load8 p) := ro_load 1 p
theorem ro_load32 {P : Mapper → Prop} (p : Ptr) : Keeps P (load32 p) := ro_load 4 p
theorem ro_load64 {P : Mapper → Prop} (p : Ptr) : Keeps P (load64 p) := ro_load 8 p

theorem ro_strncmp {P : Mapper → Prop} (n : Nat) : ∀ p s, Keeps P (strncmp n p s) := by
  induction n with
  | zero => intro p s; unfold strncmp; exact Keeps.pure _
  | succ k ih =>
    intro p s; unfold strncmp
    repeat' with_reducible (first | intro _ | apply Keeps.bind | apply Keeps.ite | exact Keeps.pure _ | exact Keeps.fail _ | exact Keeps.getM | exact ro_load8 _ | exact ro_load32 _ | exact ro_load64 _ | exact ih _ _)

theorem ro_create_iterator {P : Mapper → Prop} (n : Nat) : Keeps P (create_iterator n) := by
  unfold create_iterator
  repeat' with_reducible (first | intro _ | apply Keeps.bind | apply Keeps.ite | exact Keeps.pure _ | exact Keeps.fail _ | exact Keeps.getM | exact ro_load8 _ | exact ro_load32 _ | exact ro_load64 _)

theorem ro_iter_next {P : Mapper → Prop} (it : Nat) : Keeps P (iter_next it) := by
  unfold iter_next
  repeat' with_reducible (first | intro _ | apply Keeps.bind | apply Keeps.ite | exact Keeps.pure _ | exact Keeps.fail _ | exact Keeps.getM | exact ro_load8 _ | exact ro_load32 _ | exact ro_load64 _)

theorem ro_traverse_scan {P : Mapper → Prop} (name : List Nat) (len fuel : Nat) :
    ∀ it, Keeps P (traverse_scan name len fuel it) := by
  induction fuel with
  | zero => intro it; unfold traverse_scan; exact Keeps.fail _
  | succ k ih =>
    intro it; unfold traverse_scan
    repeat' with_reducible (first | intro _ | apply Keeps.bind | apply Keeps.ite | exact Keeps.pure _ | exact Keeps.fail _ | exact Keeps.getM | exact ro_load8 _ | exact ro_load32 _ | exact ro_load64 _ | exact ro_iter_next _ | exact ro_strncmp _ _ _ | exact ih _)

theorem ro_traverse_single_step {P : Mapper → Prop} (fuel dir : Nat) (name : List Nat)
    (len : Nat) : Keeps P (traverse_single_step fuel dir name len) := by
  unfold traverse_single_step
  repeat' with_reducible (first | intro _ | apply Keeps.bind | apply Keeps.ite | exact Keeps.pure _ | exact Keeps.fail _ | exact Keeps.getM | exact ro_create_iterator _ | exact ro_traverse_scan _ _ _ _)

/-- A step of the resolution that returns leaves the store as it was. -/
theorem traverse_single_step_ok (m : Mapper) (fuel dir : Nat) (name : List Nat) (len a : Nat)
    (h : (traverse_single_step fuel dir name len m).val = some a) :
    traverse_single_step fuel dir name len m = .ok a m := by
  have hk := (ro_traverse_single_step fuel dir name len).run m (rfl : (fun s => s = m) m)
  cases hx : traverse_single_step fuel dir name len m with
  | ok b m1 =>
    rw [hx] at h hk
    simp only [Res.val, Option.some.injEq] at h
    simp only [Res.state] at hk
    rw [h, hk]
  | err e m1 => rw [hx] at h; simp at h

/-! ### Tokens -/

theorem find_char_idx_bound (c : Nat) : ∀ (l : List Nat) (j i : Nat),
    find_char_idx c l j = some i → j ≤ i ∧ i < j + l.length := by
  intro l
  induction l with
  | nil => intro j i h; simp [find_char_idx] at h
  | cons x xs ih =>
    intro j i h
    unfold find_char_idx at h
    by_cases h1 : x % 256 = 0
    · rw [if_pos h1] at h; cases h
    · by_cases h2 : x % 256 = c
      · rw [if_neg h1, if_pos h2] at h
        injection h with h
        simp only [List.length_cons]; omega
      · rw [if_neg h1, if_neg h2] at h
        have := ih (j + 1) i h
        simp only [List.length_cons]; omega

theorem find_char_idx_token (t rest : List Nat) (ht : ∀ c ∈ t, c ≠ 0 ∧ c < 256 ∧ c ≠ 47) :
    ∀ j, find_char_idx 47 (t ++ 47 :: rest) j = some (j + t.length) := by
  induction t with
  | nil => intro j; simp [find_char_idx]
  | cons x xs ih =>
    intro j
    have hx := ht x (List.mem_cons_self _ _)
    rw [List.cons_append]
    unfold find_char_idx
    rw [Nat.mod_eq_of_lt hx.2.1, if_neg hx.1, if_neg hx.2.2,
      ih (fun c hc => ht c (List.mem_cons_of_mem _ hc)) (j + 1)]
    simp only [List.length_cons]
    congr 1
    omega

theorem to_int_small (n : Nat) (h : n < 2147483648) : to_int n = (n : Int) := by
  unfold to_int
  have : (n + 2147483648) % 4294967296 = n + 2147483648 := Nat.mod_eq_of_lt (by omega)
  rw [this]
  push_cast
  omega

theorem to_size_t_nat (n : Nat) (h : n < 2147483648) : to_size_t (n : Int) = n := by
  unfold to_size_t
  have : ((n : Int) % 18446744073709551616) = (n : Int) := Int.emod_eq_of_lt (by omega) (by omega)
  rw [this]
  simp

theorem find_char_token (t rest : List Nat) (ht : ∀ c ∈ t, c ≠ 0 ∧ c < 256 ∧ c ≠ 47)
    (hlen : t.length < 2147483648) : find_char (t ++ 47 :: rest) 47 = (t.length : Int) := by
  unfold find_char
  rw [find_char_idx_token t rest ht 0]
  simp only [Nat.zero_add]
  exact to_int_small _ hlen

/-- A comparison of `n` characters looks at the first `n` characters only. -/
theorem strncmp_append (n : Nat) : ∀ (p : Ptr) (s r : List Nat), n ≤ s.length →
    strncmp n p (s ++ r) = strncmp n p s := by
  induction n with
  | zero => intro p s r _; simp [strncmp]
  | succ k ih =>
    intro p s r h
    cases s with
    | nil => simp at h
    | cons c cs =>
      simp only [List.length_cons] at h
      simp only [strncmp, List.cons_append, List.headD_cons, List.tail_cons]
      rw [ih (p.add 1) cs r (by omega)]

theorem strncmp_str_append (n : Nat) : ∀ (s r x : List Nat), n ≤ s.length →
    strncmp_str n (s ++ r) x = strncmp_str n s x := by
  induction n with
  | zero => intro s r x _; simp [strncmp_str]
  | succ k ih =>
    intro s r x h
    cases s with
    | nil => simp at h
    | cons c cs =>
      simp only [List.length_cons] at h
      simp only [strncmp_str, List.cons_append, List.headD_cons, List.tail_cons]
      rw [ih cs r x.tail (by omega)]

theorem traverse_scan_append (name r : List Nat) (len : Nat) (h : len ≤ name.length)
    (fuel : Nat) : ∀ it, traverse_scan (name ++ r) len fuel it = traverse_scan name len fuel it := by
  induction fuel with
  | zero => intro it; simp [traverse_scan]
  | succ k ih =>
    intro it
    simp only [traverse_scan, strncmp_append len _ name r h, ih]

theorem traverse_single_step_append (fuel dir : Nat) (name r : List Nat) (len : Nat)
    (h : len ≤ name.length) :
    traverse_single_step fuel dir (name ++ r) len = traverse_single_step fuel dir name len := by
  simp only [traverse_single_step, traverse_scan_append name r len h]

/-- A name token is not taken for `".."`. -/
theorem strncmp_str_token (t : List Nat) (ht : NameToken t) :
    strncmp_str t.length t [46, 46] = false := by
  obtain ⟨h, h0, h1, h2⟩ := ht
  match t, h, h0, h1, h2 with
  | [], _, h0, _, _ => exact absurd rfl h0
  | [a], h, _, h1, _ =>
    have ha := h a (List.mem_cons_self _ _)
    have : a ≠ 46 := fun e => h1 (by rw [e])
    simp [strncmp_str, Nat.mod_eq_of_lt ha.2.1, this]
  | [a, b], h, _, _, h2 =>
    have ha := h a (List.mem_cons_self _ _)
    have hb := h b (List.mem_cons_of_mem _ (List.mem_cons_self _ _))
    by_cases e1 : a = 46
    · subst e1
      have : b ≠ 46 := fun e => h2 (by rw [e])
      simp [strncmp_str, Nat.mod_eq_of_lt hb.2.1, this]
    · simp [strncmp_str, Nat.mod_eq_of_lt ha.2.1, e1]
  | a :: b :: c :: l, h, _, _, _ =>
    have ha := h a (List.mem_cons_self _ _)
    have hb := h b (List.mem_cons_of_mem _ (List.mem_cons_self _ _))
    have hc := h c (List.mem_cons_of_mem _ (List.mem_cons_of_mem _ (List.mem_cons_self _ _)))
    by_cases e1 : a = 46
    · subst e1
      by_cases e2 : b = 46
      · subst e2
        simp [strncmp_str, Nat.mod_eq_of_lt hc.2.1, hc.1]
      · simp [strncmp_str, Nat.mod_eq_of_lt hb.2.1, e2]
    · simp [strncmp_str, Nat.mod_eq_of_lt ha.2.1, e1]

/-! ### The loop of `traverse_path` -/

theorem getM_bind {β : Type} (f : Mapper → FS β) (m : Mapper) : (getM >>= f) m = f m m := rfl

theorem bind_congr_right {α β : Type} {x : FS α} {f g : α → FS β} {m : Mapper}
    (h : ∀ a m1, f a m1 = g a m1) : (x >>= f) m = (x >>= g) m := by
  rw [bind_apply, bind_apply]
  cases x m with
  | ok a m1 => exact h a m1
  | err e m1 => rfl

/-- The loop of `traverse_path` does not depend on the bound on its rounds,
once the bound exceeds the length of the path. -/
theorem traverse_path_loop_steps (fuel : Nat) : ∀ (s1 s2 : Nat) (path : List Nat) (d : Nat)
    (m : Mapper), path.length < 2147483648 → path.length < s1 → path.length < s2 →
    traverse_path_loop fuel s1 d path m = traverse_path_loop fuel s2 d path m := by
  intro s1
  induction s1 with
  | zero => intro s2 path d m _ h _; omega
  | succ k ih =>
    intro s2 path d m hlen h1 h2
    obtain ⟨j, rfl⟩ : ∃ j, s2 = j + 1 := ⟨s2 - 1, by omega⟩
    by_cases hfin : find_char path 47 = -1
    · simp only [traverse_path_loop, hfin, decide_True, if_true]
    · have hsome : ∃ i, find_char_idx 47 path 0 = some i := by
        cases hq : find_char_idx 47 path 0 with
        | none => exact absurd (by simp [find_char, hq]) hfin
        | some i => exact ⟨i, rfl⟩
      obtain ⟨i, hi⟩ := hsome
      obtain ⟨_, hb⟩ := find_char_idx_bound 47 path 0 i hi
      have he : find_char path 47 = (i : Int) := by
        simp only [find_char, hi]
        exact to_int_small i (by omega)
      have hdrop : ((find_char path 47) + 1).toNat = i + 1 := by
        rw [he]; omega
      have hl : (List.drop (i + 1) path).length < path.length := by
        rw [List.length_drop]; omega
      have hrec : ∀ y m1, traverse_path_loop fuel k y (List.drop (i + 1) path) m1
          = traverse_path_loop fuel j y (List.drop (i + 1) path) m1 :=
        fun y m1 => ih j _ y m1 (by omega) (by omega) (by omega)
      simp only [traverse_path_loop, hfin, decide_False, if_false, hdrop, getM_bind]
      simp only [Bool.false_eq_true, if_false]
      split
      · apply bind_congr_right
        intro p m1
        split
        · apply bind_congr_right
          intro y m2
          exact hrec y m2
        · apply bind_congr_right
          intro y m2
          exact hrec y m2
      · apply bind_congr_right
        intro y m2
        exact hrec y m2

/-- A round of the loop on a token taken for `".."`, at an inode without
parent: the inode stays. -/
theorem traverse_loop_up_root (m : Mapper) (fuel steps d : Nat) (t rest : List Nat)
    (ht : ∀ c ∈ t, c ≠ 0 ∧ c < 256 ∧ c ≠ 47) (hlen : t.length < 2147483648)
    (hdd : strncmp_str t.length t [46, 46] = true)
    (hin : d + NODE_PARENT + 8 ≤ m.file_size)
    (hpar : rdN m.mem (d + NODE_PARENT) 8 = NULL_OFF) :
    traverse_path_loop fuel (steps + 1) d (t ++ 47 :: rest) m
      = traverse_path_loop fuel steps d rest m := by
  simp only [NODE_PARENT, NULL_OFF] at hin hpar
  have hfc := find_char_token t rest ht hlen
  have hne : ¬ ((t.length : Int) = -1) := by omega
  have hdrop : ((t.length : Int) + 1).toNat = t.length + 1 := by omega
  have hd2 : List.drop (t.length + 1) (t ++ 47 :: rest) = rest := by
    have : t ++ 47 :: rest = (t ++ [47]) ++ rest := by simp
    rw [this]
    have hl : t.length + 1 = (t ++ [47]).length := by simp
    rw [hl, List.drop_left]
  simp only [traverse_path_loop, bind_apply, getM_apply, hfc, hne, if_false, decide_False,
    to_size_t_nat _ hlen, strncmp_str_append _ t _ _ (Nat.le_refl _), hdd, if_true,
    OUT_OFFSET, Ptr.add, NODE_PARENT, load64_cur _ _ _ rfl, hin, hpar, NULL_OFF, ne_eq,
    not_true_eq_false, pure_apply, hdrop, hd2]
  simp

/-- A round of the loop on a token taken for `".."`, at an inode with a
parent: the parent is next. -/
theorem traverse_loop_up (m : Mapper) (fuel steps d : Nat) (t rest : List Nat)
    (ht : ∀ c ∈ t, c ≠ 0 ∧ c < 256 ∧ c ≠ 47) (hlen : t.length < 2147483648)
    (hdd : strncmp_str t.length t [46, 46] = true)
    (hin : d + NODE_PARENT + 8 ≤ m.file_size)
    (hpar : rdN m.mem (d + NODE_PARENT) 8 ≠ NULL_OFF) :
    traverse_path_loop fuel (steps + 1) d (t ++ 47 :: rest) m
      = traverse_path_loop fuel steps (rdN m.mem (d + NODE_PARENT) 8) rest m := by
  simp only [NODE_PARENT, NULL_OFF] at hin hpar
  have hfc := find_char_token t rest ht hlen
  have hne : ¬ ((t.length : Int) = -1) := by omega
  have hdrop : ((t.length : Int) + 1).toNat = t.length + 1 := by omega
  have hd2 : List.drop (t.length + 1) (t ++ 47 :: rest) = rest := by
    have : t ++ 47 :: rest = (t ++ [47]) ++ rest := by simp
    rw [this]
    have hl : t.length + 1 = (t ++ [47]).length := by simp
    rw [hl, List.drop_left]
  simp only [traverse_path_loop, bind_apply, getM_apply, hfc, hne, if_false, decide_False,
    to_size_t_nat _ hlen, strncmp_str_append _ t _ _ (Nat.le_refl _), hdd, if_true,
    OUT_OFFSET, Ptr.add, NODE_PARENT, load64_cur _ _ _ rfl, hin, hpar, NULL_OFF, ne_eq,
    not_false_eq_true, pure_apply, hdrop, hd2]
  simp

/-- A round of the loop on a name token that resolves to `x`. -/
theorem traverse_loop_name (m : Mapper) (fuel steps d x : Nat) (t rest : List Nat)
    (ht : NameToken t) (hlen : t.length < 2147483648)
    (hx : (traverse_single_step fuel d t t.length m).val = some x) :
    traverse_path_loop fuel (steps + 1) d (t ++ 47 :: rest) m
      = traverse_path_loop fuel steps x rest m := by
  have hfc := find_char_token t rest ht.1 hlen
  have hne : ¬ ((t.length : Int) = -1) := by omega
  have hdrop : ((t.length : Int) + 1).toNat = t.length + 1 := by omega
  have hd2 : List.drop (t.length + 1) (t ++ 47 :: rest) = rest := by
    have : t ++ 47 :: rest = (t ++ [47]) ++ rest := by simp
    rw [this]
    have hl : t.length + 1 = (t ++ [47]).length := by simp
    rw [hl, List.drop_left]
  have hstep := traverse_single_step_ok m fuel d t t.length x hx
  simp only [traverse_path_loop, bind_apply, getM_apply, hfc, hne, if_false, decide_False,
    to_size_t_nat _ hlen, strncmp_str_append _ t _ _ (Nat.le_refl _), strncmp_str_token t ht,
    traverse_single_step_append fuel d t _ _ (Nat.le_refl _), hdrop, hd2]
  simp only [Bool.false_eq_true, if_false]
  exact bind_ok hstep

/-! ### Looking up the last token -/

/-- A `strncmp` over more characters than the string has, of a name stored
in a field of `k` bytes against a string shorter than `k`: it returns,
changes nothing, and reports whether the stored name is the string. -/
theorem strncmp_spec (m : Mapper) (s : List Nat) : ∀ n a k,
    (cstr s).length < k → (cstr s).length < n → a + k ≤ m.file_size →
    strncmp n ⟨m.root, a⟩ s m = .ok (decide (cmem m.mem a k = cstr s)) m := by
  induction s with
  | nil =>
    intro n a k hk hn hfs
    obtain ⟨k, rfl⟩ : ∃ j, k = j + 1 := ⟨k - 1, by simp [cstr] at hk; omega⟩
    obtain ⟨n, rfl⟩ : ∃ j, n = j + 1 := ⟨n - 1, by simp [cstr] at hn; omega⟩
    have h1 : a + 1 ≤ m.file_size := by omega
    rw [cmem_succ, cstr_nil]
    by_cases hb : m.mem a % 256 = 0
    · simp [strncmp, h1, rdN_one, hb]
    · simp [strncmp, h1, rdN_one, hb]
  | cons c cs ih =>
    intro n a k hk hn hfs
    obtain ⟨k, rfl⟩ : ∃ j, k = j + 1 := ⟨k - 1, by omega⟩
    obtain ⟨n, rfl⟩ : ∃ j, n = j + 1 := ⟨n - 1, by omega⟩
    have h1 : a + 1 ≤ m.file_size := by omega
    rw [cmem_succ, cstr_cons]
    rw [cstr_cons] at hk hn
    by_cases hc : c % 256 = 0
    · by_cases hb : m.mem a % 256 = 0
      · simp [strncmp, h1, rdN_one, hb, hc]
      · simp [strncmp, h1, rdN_one, hb, hc]
    · simp only [hc, if_false, List.length_cons] at hk hn
      by_cases hb : m.mem a % 256 = c % 256
      · have hb0 : ¬ m.mem a % 256 = 0 := by rw [hb]; exact hc
        have hrec := ih n (a + 1) k (by omega) (by omega) (by omega)
        simp only [strncmp, bind_apply, load8_cur _ _ _ rfl, h1, if_true, rdN_one, hb, ne_eq,
          List.headD_cons, List.tail_cons, not_true_eq_false, if_false, hc, Ptr.add, hrec]
        rw [← hb]
        simp [hb0]
      · have hne : ¬ (if m.mem a % 256 = 0 then [] else m.mem a % 256 :: cmem m.mem (a + 1) k)
            = c % 256 :: cstr cs := by
          by_cases hb0 : m.mem a % 256 = 0
          · simp [hb0]
          · simp [hb0, hb]
        simp [strncmp, h1, rdN_one, hb, hc, hne]

/-- The search loop of `traverse_single_step` with the length `(size_t)-1`
over the children `cs`: it returns the first child whose stored name is the
string, `NULL_OFF` when there is none, and changes nothing. -/
theorem traverse_scan_chain (m : Mapper) (t : List Nat) (hlen : (cstr t).length < MAX_NAME_LENGTH) :
    ∀ cs x fuel, SibChain m x cs → cs.length < fuel →
      traverse_scan t SIZE_MAX fuel x m
        = .ok ((cs.find? (fun c => decide (stored_name m c = cstr t))).getD NULL_OFF) m := by
  intro cs
  induction cs with
  | nil =>
    intro x fuel hch hfuel
    simp only [SibChain] at hch
    subst hch
    obtain ⟨fuel, rfl⟩ : ∃ j, fuel = j + 1 := ⟨fuel - 1, by simp at hfuel; omega⟩
    simp [traverse_scan, iter_next_cur]
  | cons e rest ih =>
    intro x fuel hch hfuel
    obtain ⟨fuel, rfl⟩ : ∃ j, fuel = j + 1 := ⟨fuel - 1, by simp at hfuel; omega⟩
    obtain ⟨rfl, he0, hein, hrest⟩ := hch
    simp only [NULL_OFF, NODE_SIZE, NODE_NEXT_SIBLING, MAX_NAME_LENGTH] at he0 hein hrest hlen
    have h1 : x + 16 + 8 ≤ m.file_size := by omega
    have hs := strncmp_spec m t 18446744073709551615 (x + 24) 64 hlen (by omega) (by omega)
    unfold traverse_scan
    simp only [bind_apply, iter_next_cur, NULL_OFF, NODE_NEXT_SIBLING, he0, if_false, h1, if_true,
      getM_apply, OUT_OFFSET, Ptr.add, NODE_NAME, SIZE_MAX, hs]
    by_cases heq : cmem m.mem (x + 24) 64 = cstr t
    · have hsn : stored_name m x = cstr t := by simpa [stored_name] using heq
      simp [heq, hsn, List.find?]
    · have hsn : ¬ stored_name m x = cstr t := by simpa [stored_name] using heq
      simp only [heq, decide_False, Bool.false_eq_true, if_false, List.find?, hsn]
      have := ih _ fuel hrest (by simp at hfuel; omega)
      simp only [SIZE_MAX, NULL_OFF] at this
      exact this

/-- Resolving a path of one name: `traverse_path(d, t)` on a directory `d`
with the children `cs` returns the first child whose stored name is `t`,
and `NULL_OFF` when there is none. -/
theorem traverse_last_token (m : Mapper) (fuel d : Nat) (t cs : List Nat)
    (hv : ValidName t) (hne : t ≠ [46, 46])
    (hd : d + NODE_SIZE ≤ m.file_size) (hty : rdN m.mem (d + NODE_TYPE) 4 = DIR)
    (hcs : SibChain m (rdN m.mem (d + NODE_FIRST_CHILD) 8) cs) (hfuel : cs.length < fuel) :
    traverse_path fuel d t m
      = .ok ((cs.find? (fun c => decide (stored_name m c = t))).getD NULL_OFF) m := by
  obtain ⟨hchars, hlen⟩ := hv
  have hct : cstr t = t := cstr_valid t hchars
  have hscan := traverse_scan_chain m t (by rw [hct]; exact hlen) cs _ fuel hcs hfuel
  rw [hct] at hscan
  simp only [NODE_SIZE, NODE_TYPE, Nat.add_zero, NODE_FIRST_CHILD, SIZE_MAX, NULL_OFF] at *
  have e1 : d + 4 ≤ m.file_size := by omega
  have e2 : d + 88 + 8 ≤ m.file_size := by omega
  have hstep : traverse_single_step fuel d t 18446744073709551615 m
      = .ok ((cs.find? (fun c => decide (stored_name m c = t))).getD 0) m := by
    simp only [traverse_single_step, bind_apply, create_iterator_cur, e1, if_true, hty, ne_eq,
      not_true_eq_false, if_false, NODE_FIRST_CHILD, e2, hscan]
  have hdd := strncmp_str_dotdot t hchars hne 18446744073709551612
  have hf1 := find_char_none 47 (Or.inl rfl) t hchars
  have hf2 := find_char_none 0 (Or.inr rfl) t hchars
  have hsz : to_size_t (-1) = 18446744073709551615 := by decide
  simp only [Nat.reduceAdd] at hdd
  unfold traverse_path traverse_path_loop
  simp [hf1, hf2, hsz, hdd, hstep]

/-- The root directory of a fresh store, the inode 4112, is an inode
without parent in every store produced by creates. -/
theorem created_root_parent (m : Mapper) (ns : List Nat) (h : Created m ns) :
    4112 ∈ ns ∧ rdN m.mem (4112 + NODE_PARENT) 8 = NULL_OFF ∧
      4112 + NODE_SIZE ≤ m.file_size := by
  induction h with
  | fresh place m h =>
    rw [new_mapper_fresh] at h
    injection h with _ h
    subst h
    rw [fresh_root_dir]
    refine ⟨by simp, ?_, ?_⟩
    · show rdN fresh_mem (4112 + 8) 8 = 0
      decide
    · show 4112 + 104 ≤ 2 * 4096
      decide
  | create_dir fuel d name m m1 m2 ns nc hcr hd hlen hc hi ih =>
    have hwf := created_wf m ns hcr
    obtain ⟨hp, ht, hnames⟩ := create_children_post m ns hwf fuel d name hd hlen nc m1 hc
    have hsize := hwf.size
    simp only [BLOCK_SIZE] at hsize
    obtain ⟨hp2, _, hfc⟩ := initialize_dir_post m m1 m2 d nc name hsize (hwf.used d hd) hp hi
    obtain ⟨h1, _⟩ := create_post_old m m2 ns hwf d nc name hd hp2 4112 ih.1
    refine ⟨List.mem_cons_of_mem _ ih.1, ?_, ?_⟩
    · rw [← ih.2.1]
      apply rdN_congr
      intro x hx1 hx2
      simp only [NODE_PARENT] at hx1 hx2
      exact h1 x (by omega) (by omega)
    · have := hp2.grow
      have := ih.2.2
      omega
  | create_file fuel d name m m1 m2 ns nc hcr hd hlen hc hi ih =>
    have hwf := created_wf m ns hcr
    obtain ⟨hp, ht, hnames⟩ := create_children_post m ns hwf fuel d name hd hlen nc m1 hc
    have hsize := hwf.size
    simp only [BLOCK_SIZE] at hsize
    obtain ⟨hp2, _, _⟩ := initialize_file_post m m1 m2 d nc name hsize (hwf.used d hd) hp hi
    obtain ⟨h1, _⟩ := create_post_old m m2 ns hwf d nc name hd hp2 4112 ih.1
    refine ⟨List.mem_cons_of_mem _ ih.1, ?_, ?_⟩
    · rw [← ih.2.1]
      apply rdN_congr
      intro x hx1 hx2
      simp only [NODE_PARENT] at hx1 hx2
      exact h1 x (by omega) (by omega)
    · have := hp2.grow
      have := ih.2.2
      omega

/-! ### The tokens `".."` and `"."` -/

/-- Claim C15.  The token `".."` at the root is the identity.  The root
directory is the inode `d` whose `parent` is `NULL_OFF` (the inode 4112 in
every store produced by creates, see `created_root_parent`); for it
`traverse_path(d, "..")` returns `d`, and for every path `x` (shorter than
`INT_MAX`, the range of `find_char`) `traverse_path(d, "../../x")` is
`traverse_path(d, x)`: the same value or the same error, and the same
store. -/
theorem dotdot_at_root (m : Mapper) (fuel d : Nat)
    (hin : d + NODE_PARENT + 8 ≤ m.file_size)
    (hpar : rdN m.mem (d + NODE_PARENT) 8 = NULL_OFF) :
    traverse_path fuel d [46, 46] m = .ok d m ∧
    ∀ x : List Nat, x.length + 6 < 2147483648 →
      traverse_path fuel d ([46, 46, 47, 46, 46, 47] ++ x) m = traverse_path fuel d x m := by
  constructor
  · simp only [NODE_PARENT, NULL_OFF] at hin hpar
    have hf1 : find_char [46, 46] 47 = -1 := by decide
    have hf2 : find_char [46, 46] 0 = -1 := by decide
    have hsz : to_size_t (-1) = 18446744073709551615 := by decide
    have hdd : strncmp_str 18446744073709551615 [46, 46] [46, 46] = true := by
      simp [strncmp_str]
    unfold traverse_path traverse_path_loop
    simp [hf1, hf2, hsz, hdd, hin, hpar]
  · intro x hx
    have ht : ∀ c ∈ [46, 46], c ≠ 0 ∧ c < 256 ∧ c ≠ 47 := by decide
    have h1 := traverse_loop_up_root m fuel (x.length + 5 + 1) d [46, 46] ([46, 46, 47] ++ x) ht
      (by decide) (by decide) hin hpar
    have h2 := traverse_loop_up_root m fuel (x.length + 5) d [46, 46] x ht
      (by decide) (by decide) hin hpar
    unfold traverse_path
    have e1 : ([46, 46, 47, 46, 46, 47] ++ x).length + 1 = x.length + 5 + 1 + 1 := by
      simp only [List.length_append, List.length_cons, List.length_nil]; omega
    have e2 : [46, 46, 47, 46, 46, 47] ++ x = [46, 46] ++ 47 :: ([46, 46, 47] ++ x) := rfl
    have e3 : [46, 46, 47] ++ x = [46, 46] ++ 47 :: x := rfl
    rw [e1, e2, h1, e3, h2]
    exact traverse_path_loop_steps fuel _ _ x d m (by omega) (by omega) (by omega)

theorem dotdot_at_root_witness :
    traverse_path 4 4112 [46, 46] store_a_c = .ok 4112 store_a_c ∧
    traverse_path 4 4112 ([46, 46, 47, 46, 46, 47] ++ [97, 47, 99]) store_a_c
      = traverse_path 4 4112 [97, 47, 99] store_a_c ∧
    (traverse_path 4 4112 [97, 47, 99] store_a_c).val = some 4320 :=
  ⟨(dotdot_at_root store_a_c 4 4112 (by decide!) (by decide!)).1,
   (dotdot_at_root store_a_c 4 4112 (by decide!) (by decide!)).2 [97, 47, 99] (by decide),
   by decide!⟩

/-- The token `"."` before a `'/'` is taken for `".."`: at an inode `d`
without parent, `traverse_path(d, "./x")` is `traverse_path(d, x)`. -/
theorem dot_slash_at_root (m : Mapper) (fuel d : Nat)
    (hin : d + NODE_PARENT + 8 ≤ m.file_size)
    (hpar : rdN m.mem (d + NODE_PARENT) 8 = NULL_OFF) (x : List Nat)
    (hx : x.length + 2 < 2147483648) :
    traverse_path fuel d ([46, 47] ++ x) m = traverse_path fuel d x m := by
  have ht : ∀ c ∈ [46], c ≠ 0 ∧ c < 256 ∧ c ≠ 47 := by decide
  have h1 := traverse_loop_up_root m fuel (x.length + 2) d [46] x ht
    (by decide) (by decide) hin hpar
  unfold traverse_path
  have e1 : ([46, 47] ++ x).length + 1 = x.length + 2 + 1 := by
    simp only [List.length_append, List.length_cons, List.length_nil]; omega
  have e2 : [46, 47] ++ x = [46] ++ 47 :: x := rfl
  rw [e1, e2, h1]
  exact traverse_path_loop_steps fuel _ _ x d m (by omega) (by omega) (by omega)

/-- Claim C17 as amended.  The token `"."` is a name like any other: for
every directory `d`, with the children `cs`, `traverse_path(d, ".")` returns
the first child of `d` whose stored name is `"."`, and `NULL_OFF` when `d`
has no child of that name; it changes nothing. -/
theorem dot_is_looked_up (m : Mapper) (fuel d : Nat) (cs : List Nat)
    (hd : d + NODE_SIZE ≤ m.file_size) (hty : rdN m.mem (d + NODE_TYPE) 4 = DIR)
    (hcs : SibChain m (rdN m.mem (d + NODE_FIRST_CHILD) 8) cs) (hfuel : cs.length < fuel) :
    traverse_path fuel d [46] m
      = .ok ((cs.find? (fun c => decide (stored_name m c = [46]))).getD NULL_OFF) m ∧
    ((∀ c ∈ cs, stored_name m c ≠ [46]) → traverse_path fuel d [46] m = .ok NULL_OFF m) := by
  have h := traverse_last_token m fuel d [46] cs (by decide) (by decide) hd hty hcs hfuel
  refine ⟨h, fun hall => ?_⟩
  rw [h]
  have : cs.find? (fun c => decide (stored_name m c = [46])) = none := by
    rw [List.find?_eq_none]
    intro c hc
    simpa using hall c hc
  rw [this]
  rfl

/-- Claim C17 as stated fails at the directory `a` (inode 4216), which holds
the file `c` (inode 4320): `traverse_path(a, ".")` returns `NULL_OFF`, not
`a`, and `traverse_path(a, "./c")` returns `NULL_OFF` while
`traverse_path(a, "c")` returns 4320. -/
theorem dot_does_not_keep_node :
    (traverse_path 4 4216 [46] store_a_c).val = some NULL_OFF ∧
    (traverse_path 4 4216 [46, 47, 99] store_a_c).val = some NULL_OFF ∧
    (traverse_path 4 4216 [99] store_a_c).val = some 4320 := by
  refine ⟨?_, ?_, ?_⟩ <;> decide!

theorem dot_is_looked_up_witness :
    traverse_path 4 4216 [46] store_a_c
      = .ok (([4320].find? (fun c => decide (stored_name store_a_c c = [46]))).getD NULL_OFF)
          store_a_c ∧
    traverse_path 4 4216 [46] store_a_c = .ok NULL_OFF store_a_c :=
  ⟨(dot_is_looked_up store_a_c 4 4216 [4320] (by decide!) (by decide!) (by decide!)
      (by decide)).1,
   (dot_is_looked_up store_a_c 4 4216 [4320] (by decide!) (by decide!) (by decide!)
      (by decide)).2 (by decide!)⟩

/-! ### Cancelling a token against `".."` -/

/-- Claim C16 as amended.  For name tokens `a` and `b` (no NUL, no `'/'`, not
empty, not `"."`, not `".."`) and every path `c`, the whole shorter than
`INT_MAX`: when the token `a` resolves in `d` to the inode `x` and the
token `b` resolves in `x` to a child `nb` (not `NULL_OFF`, with
`parent = x`), `traverse_path(d, "a/b/../c")` is `traverse_path(d, "a/c")`:
the same value or the same error, and the same store. -/
theorem dotdot_cancels_child (m : Mapper) (fuel d x nb : Nat) (a b c : List Nat)
    (ha : NameToken a) (hb : NameToken b)
    (hlen : a.length + b.length + c.length + 6 < 2147483648)
    (hx : (traverse_single_step fuel d a a.length m).val = some x)
    (hnb : (traverse_single_step fuel x b b.length m).val = some nb)
    (hx0 : x ≠ NULL_OFF)
    (hin : nb + NODE_PARENT + 8 ≤ m.file_size)
    (hpar : rdN m.mem (nb + NODE_PARENT) 8 = x) :
    traverse_path fuel d (a ++ [47] ++ b ++ [47, 46, 46, 47] ++ c) m
      = traverse_path fuel d (a ++ [47] ++ c) m := by
  have ht : ∀ c ∈ [46, 46], c ≠ 0 ∧ c < 256 ∧ c ≠ 47 := by decide
  have e1 : a ++ [47] ++ b ++ [47, 46, 46, 47] ++ c
      = a ++ 47 :: (b ++ 47 :: ([46, 46] ++ 47 :: c)) := by simp
  have e2 : a ++ [47] ++ c = a ++ 47 :: c := by simp
  have l1 : (a ++ 47 :: (b ++ 47 :: ([46, 46] ++ 47 :: c))).length + 1
      = (a.length + b.length + c.length + 3) + 1 + 1 + 1 := by
    simp only [List.length_append, List.length_cons, List.length_nil]; omega
  have l2 : (a ++ 47 :: c).length + 1 = (a.length + c.length + 1) + 1 := by
    simp only [List.length_append, List.length_cons, List.length_nil]; omega
  have hpar2 : rdN m.mem (nb + NODE_PARENT) 8 ≠ NULL_OFF := by rw [hpar]; exact hx0
  unfold traverse_path
  rw [e1, e2, l1, l2,
    traverse_loop_name m fuel _ d x a _ ha (by omega) hx,
    traverse_loop_name m fuel _ x nb b _ hb (by omega) hnb,
    traverse_loop_up m fuel _ nb [46, 46] c ht (by decide) (by decide) hin hpar2, hpar,
    traverse_loop_name m fuel _ d x a _ ha (by omega) hx]
  exact traverse_path_loop_steps fuel _ _ c x m (by omega) (by omega) (by omega)

/-- Claim C16 as stated fails when `b` names no child of `a`: with the file
`c` (inode 4320) in the directory `a` and no `x` in it,
`traverse_path(root, "a/x/../c")` ends in the failed assertion of
`create_iterator`, while `traverse_path(root, "a/c")` returns 4320. -/
theorem dotdot_after_missing_token :
    (traverse_path 4 4112 [97, 47, 120, 47, 46, 46, 47, 99] store_a_c).error
      = some .assert_failed ∧
    (traverse_path 4 4112 [97, 47, 99] store_a_c).val = some 4320 := by
  constructor <;> decide!

theorem dotdot_cancels_child_witness :
    traverse_path 4 4112 ([97] ++ [47] ++ [98] ++ [47, 46, 46, 47] ++ [99]) store_a_bc
      = traverse_path 4 4112 ([97] ++ [47] ++ [99]) store_a_bc ∧
    (traverse_path 4 4112 ([97] ++ [47] ++ [99]) store_a_bc).val = some 4320 :=
  ⟨dotdot_cancels_child store_a_bc 4 4112 4216 4424 [97] [98] [99] (by decide) (by decide)
    (by decide) (by decide!) (by decide!) (by decide) (by decide!) (by decide!),
   by decide!⟩

/-! ### Lookup by prefix, and a missing intermediate token -/

/-- Claim C18, on the code: the root directory has the one child `ab` (inode
4216), which holds the file `c` (inode 4320).  As the last token of a path
`a` is not found, but as an intermediate token it is matched against the
first character of the stored names only: `traverse_path(root, "a/c")`
returns 4320 through the child `ab`. -/
theorem prefix_of_name_is_matched :
    (iter_children 4 4112 store_ab_c).val = some [4216] ∧
    stored_name store_ab_c 4216 = [97, 98] ∧
    (traverse_path 4 4112 [97] store_ab_c).val = some NULL_OFF ∧
    (traverse_single_step 4 4112 [97, 47, 99] 1 store_ab_c).val = some 4216 ∧
    (traverse_path 4 4112 [97, 47, 99] store_ab_c).val = some 4320 := by
  refine ⟨?_, ?_, ?_, ?_, ?_⟩ <;> decide!

/-- Claim C19, on the code: in the store whose root directory holds the one
directory `a`, a missing last token gives `NULL_OFF`, but after the missing
intermediate token `x` of `"x/y"` the loop goes on from `NULL_OFF`, the
offset of the root record, and ends in the failed assertion
`node->type == DIR` of `create_iterator`. -/
theorem missing_intermediate_token_asserts :
    (traverse_path 4 4112 [120] store_dir).val = some NULL_OFF ∧
    (traverse_single_step 4 4112 [120, 47, 121] 1 store_dir).val = some NULL_OFF ∧
    rdN store_dir.mem (NULL_OFF + NODE_TYPE) 4 = ROOT ∧
    (traverse_path 4 4112 [120, 47, 121] store_dir).error = some .assert_failed := by
  refine ⟨?_, ?_, ?_, ?_⟩ <;> decide!

/-! ## The node allocator -/

/-- With the free lists empty and no room in the head node block (or no
node block at all), `get_node` extends the store by one block, makes it the
head node block and returns its slot 0. -/
theorem get_node_new_head_grow (m : Mapper) (hb : Nat)
    (hfree : rdN m.mem 88 8 = 0) (hfreeb : rdN m.mem 96 8 = 0)
    (hhb : rdN m.mem 112 8 = hb)
    (hfull : hb = 0 ∨ (hb + 16 ≤ m.file_size ∧ 39 ≤ rdN m.mem (hb + 8) 8))
    (hsz : m.file_size = 4096 * m.num_blocks) (hnb : 1 ≤ m.num_blocks)
    (h3 : m.file_size + 4096 ≤ 9223372036854775807) :
    ∃ m2, get_node m = .ok (m.file_size + 16) m2 ∧
      m2.file_size = m.file_size + 4096 ∧ m2.num_blocks = m.num_blocks + 1 ∧
      m2.root = m.place (m.file_size + 4096) ∧
      rdN m2.mem 112 8 = m.file_size ∧ rdN m2.mem m.file_size 8 = hb ∧
      rdN m2.mem (m.file_size + 8) 8 = 1 ∧
      (∀ x, x < m.file_size → ¬ (112 ≤ x ∧ x < 120) → m2.mem x = m.mem x) := by
  have e1 : 96 ≤ m.file_size := by omega
  have e2 : 120 ≤ m.file_size := by omega
  have e4 : ¬ (9223372036854775807 < m.file_size + 4096) := by omega
  have e5 : m.num_blocks * 4096 % 18446744073709551616 = m.file_size := by omega
  have e6 : 104 ≤ m.file_size := by omega
  have e7 : ∀ x, x < 18446744073709551616 → MAP_OFFSET (m.place (m.file_size + 4096))
      ⟨m.place (m.file_size + 4096), x⟩ = x := fun x hx => MAP_OFFSET_cur _ _ (by simpa using hx)
  have e8 : rdN (wrN (wrN (fun a => if a < m.file_size then m.mem a else 0) m.file_size 8 0)
      (m.file_size + 8) 8 0) 112 8 = hb := by
    rw [rdN_wrN_disj _ _ _ _ _ _ (by omega), rdN_wrN_disj _ _ _ _ _ _ (by omega), ← hhb]
    apply rdN_congr
    intro x hx1 hx2
    rw [if_pos (by omega)]
  have hbw : hb < 18446744073709551616 := by rw [← hhb]; exact rdN_lt_word _ _
  have hw : ∀ (f : Nat → Nat) a v x, (a + 8 ≤ x ∨ x < a) → wrN f a 8 v x = f x := by
    intro f a v x h
    simp only [wrN]
    rw [if_neg]; omega
  cases hres : get_node m with
  | err e m2 =>
    exfalso
    rcases hfull with h0 | ⟨h1, h2⟩
    · subst h0
      simp [get_node, get_first_empty_node, get_node_new_block, new_node_block, get_block,
        get_first_empty_block, grow_store, hfree, hfreeb, hhb, e1, e2, e4, e5, e6,
        e8, e7 m.file_size (by omega), e7 (m.file_size + 16) (by omega)] at hres
    · by_cases h0 : hb = 0
      · subst h0
        simp [get_node, get_first_empty_node, get_node_new_block, new_node_block, get_block,
          get_first_empty_block, grow_store, hfree, hfreeb, hhb, e1, e2, e4, e5, e6,
          e8, e7 m.file_size (by omega), e7 (m.file_size + 16) (by omega)] at hres
      · have e3 : hb + 8 + 8 ≤ m.file_size := by omega
        simp [get_node, get_first_empty_node, get_node_new_block, new_node_block, get_block,
          get_first_empty_block, grow_store, hfree, hfreeb, hhb, h0, e1, e2, e3, h1, e4, e5, e6,
          h2, e8, e7 m.file_size (by omega), e7 (m.file_size + 16) (by omega)] at hres
  | ok v m2 =>
    have key : v = m.file_size + 16 ∧ m2.file_size = m.file_size + 4096 ∧
        m2.num_blocks = m.num_blocks + 1 ∧ m2.root = m.place (m.file_size + 4096) ∧
        ∃ f0 : Nat → Nat, (∀ x, x < m.file_size → ¬ (112 ≤ x ∧ x < 120) → f0 x = m.mem x) ∧
          m2.mem = wrN (wrN (wrN f0 (m.file_size + 8) 8 1) m.file_size 8 hb) 112 8
            m.file_size := by
      rcases hfull with h0 | ⟨h1, h2⟩
      · subst h0
        simp [get_node, get_first_empty_node, get_node_new_block, new_node_block, get_block,
          get_first_empty_block, grow_store, hfree, hfreeb, hhb, e1, e2, e4, e5, e6,
          e8, e7 m.file_size (by omega), e7 (m.file_size + 16) (by omega)] at hres
        obtain ⟨rfl, rfl⟩ := hres
        refine ⟨rfl, rfl, rfl, rfl, _, ?_, rfl⟩
        intro x hx hx2
        rw [hw _ _ _ _ (by omega), hw _ _ _ _ (by omega), hw _ _ _ _ (by omega), if_pos hx]
      · by_cases h0 : hb = 0
        · subst h0
          simp [get_node, get_first_empty_node, get_node_new_block, new_node_block, get_block,
            get_first_empty_block, grow_store, hfree, hfreeb, hhb, e1, e2, e4, e5, e6,
            e8, e7 m.file_size (by omega), e7 (m.file_size + 16) (by omega)] at hres
          obtain ⟨rfl, rfl⟩ := hres
          refine ⟨rfl, rfl, rfl, rfl, _, ?_, rfl⟩
          intro x hx hx2
          rw [hw _ _ _ _ (by omega), hw _ _ _ _ (by omega), hw _ _ _ _ (by omega), if_pos hx]
        · have e3 : hb + 8 + 8 ≤ m.file_size := by omega
          simp [get_node, get_first_empty_node, get_node_new_block, new_node_block, get_block,
            get_first_empty_block, grow_store, hfree, hfreeb, hhb, h0, e1, e2, e3, h1, e4, e5,
            e6, h2, e8, e7 m.file_size (by omega), e7 (m.file_size + 16) (by omega)] at hres
          obtain ⟨rfl, rfl⟩ := hres
          refine ⟨rfl, rfl, rfl, rfl, _, ?_, rfl⟩
          intro x hx hx2
          rw [hw _ _ _ _ (by omega), hw _ _ _ _ (by omega), hw _ _ _ _ (by omega),
            hw _ _ _ _ (by omega), if_pos hx]
    obtain ⟨hv, hfs, hnb2, hroot, f0, hf0, hmem⟩ := key
    subst hv
    refine ⟨m2, rfl, hfs, hnb2, hroot, ?_, ?_, ?_, ?_⟩
    · rw [hmem]; exact rdN_wrN_word _ _ _ (by omega)
    · rw [hmem, rdN_wrN_disj _ _ _ _ _ _ (by omega)]; exact rdN_wrN_word _ _ _ hbw
    · rw [hmem, rdN_wrN_disj _ _ _ _ _ _ (by omega), rdN_wrN_disj _ _ _ _ _ _ (by omega)]
      exact rdN_wrN_word _ _ _ (by omega)
    · intro x hx hx2
      rw [hmem, hw _ _ _ _ (by omega), hw _ _ _ _ (by omega), hw _ _ _ _ (by omega)]
      exact hf0 x hx hx2

/-- With the free-inode list empty, no room in the head node block (or no
node block at all) and a block `fb` on the free-block list, `get_node`
takes `fb` off that list, makes it the head node block and returns its
slot 0. -/
theorem get_node_new_head_reuse (m : Mapper) (hb fb : Nat)
    (hfree : rdN m.mem 88 8 = 0) (hfreeb : rdN m.mem 96 8 = fb)
    (hhb : rdN m.mem 112 8 = hb)
    (hfull : hb = 0 ∨ (hb + 16 ≤ m.file_size ∧ 39 ≤ rdN m.mem (hb + 8) 8))
    (hfb0 : 120 ≤ fb) (hfb1 : fb + 16 ≤ m.file_size)
    (h3 : m.file_size ≤ 9223372036854775807) :
    ∃ m2, get_node m = .ok (fb + 16) m2 ∧
      m2.file_size = m.file_size ∧ m2.num_blocks = m.num_blocks ∧ m2.root = m.root ∧
      rdN m2.mem 112 8 = fb ∧ rdN m2.mem fb 8 = hb ∧ rdN m2.mem (fb + 8) 8 = 1 ∧
      rdN m2.mem 96 8 = rdN m.mem fb 8 ∧
      (∀ x, ¬ (96 ≤ x ∧ x < 104) → ¬ (112 ≤ x ∧ x < 120) → ¬ (fb ≤ x ∧ x < fb + 16) →
        m2.mem x = m.mem x) := by
  have e1 : 96 ≤ m.file_size := by omega
  have e2 : 120 ≤ m.file_size := by omega
  have e6 : 104 ≤ m.file_size := by omega
  have e9 : fb + 8 ≤ m.file_size := by omega
  have e10 : fb + 8 + 8 ≤ m.file_size := by omega
  have hfb2 : ¬ fb = 0 := by omega
  have hbw : hb < 18446744073709551616 := by rw [← hhb]; exact rdN_lt_word _ _
  have hnw : rdN m.mem fb 8 < 18446744073709551616 := rdN_lt_word _ _
  have e7 : ∀ x, x < 18446744073709551616 → MAP_OFFSET m.root ⟨m.root, x⟩ = x :=
    fun x hx => MAP_OFFSET_cur _ _ (by simpa using hx)
  have e8 : ∀ v, rdN (wrN (wrN (wrN m.mem 96 8 v) fb 8 0) (fb + 8) 8 0) 112 8 = hb := by
    intro v
    rw [rdN_wrN_disj _ _ _ _ _ _ (by omega), rdN_wrN_disj _ _ _ _ _ _ (by omega),
      rdN_wrN_disj _ _ _ _ _ _ (by omega)]
    exact hhb
  have hw : ∀ (f : Nat → Nat) a v x, (a + 8 ≤ x ∨ x < a) → wrN f a 8 v x = f x := by
    intro f a v x h
    simp only [wrN]
    rw [if_neg]; omega
  have key : ∃ m2, get_node m = .ok (fb + 16) m2 ∧ m2.file_size = m.file_size ∧
      m2.num_blocks = m.num_blocks ∧ m2.root = m.root ∧
      ∃ f0 : Nat → Nat, (∀ x, ¬ (96 ≤ x ∧ x < 104) → ¬ (112 ≤ x ∧ x < 120) →
          ¬ (fb ≤ x ∧ x < fb + 16) → f0 x = m.mem x) ∧ rdN f0 96 8 = rdN m.mem fb 8 ∧
        m2.mem = wrN (wrN (wrN f0 (fb + 8) 8 1) fb 8 hb) 112 8 fb := by
    have hpop : ∀ v, v = rdN m.mem fb 8 → rdN (wrN m.mem 96 8 v) 96 8 = rdN m.mem fb 8 := by
      intro v hv
      rw [hv]; exact rdN_wrN_word _ _ _ hnw
    by_cases hn : rdN m.mem fb 8 = 0
    · by_cases h0 : hb = 0
      · subst h0
        cases hres : get_node m <;>
          simp [get_node, get_first_empty_node, get_node_new_block, new_node_block, get_block,
            get_first_empty_block, hfree, hfreeb, hhb, hfb2, hn, e1, e2, e6, e9, e10,
            e8, e7 fb (by omega), e7 (fb + 16) (by omega)] at hres
        obtain ⟨rfl, rfl⟩ := hres
        refine ⟨_, rfl, rfl, rfl, rfl, wrN (wrN (wrN (wrN m.mem 96 8 0) fb 8 0) (fb + 8) 8 0)
          112 8 fb, ?_, ?_, ?_⟩
        · intro x hx1 hx2 hx3
          rw [hw _ _ _ _ (by omega), hw _ _ _ _ (by omega), hw _ _ _ _ (by omega),
            hw _ _ _ _ (by omega)]
        · rw [rdN_wrN_disj _ _ _ _ _ _ (by omega), rdN_wrN_disj _ _ _ _ _ _ (by omega),
            rdN_wrN_disj _ _ _ _ _ _ (by omega)]
          exact hpop 0 hn.symm
        · rfl
      · obtain ⟨h1, h2⟩ : hb + 16 ≤ m.file_size ∧ 39 ≤ rdN m.mem (hb + 8) 8 := by
          rcases hfull with h | h
          · exact absurd h h0
          · exact h
        have e3 : hb + 8 + 8 ≤ m.file_size := by omega
        cases hres : get_node m <;>
          simp [get_node, get_first_empty_node, get_node_new_block, new_node_block, get_block,
            get_first_empty_block, hfree, hfreeb, hhb, hfb2, hn, h0, h2, e1, e2, e3, e6, e9, e10,
            e8, e7 fb (by omega), e7 (fb + 16) (by omega)] at hres
        obtain ⟨rfl, rfl⟩ := hres
        refine ⟨_, rfl, rfl, rfl, rfl, wrN (wrN (wrN (wrN (wrN m.mem 96 8 0) fb 8 0) (fb + 8) 8 0)
          112 8 fb) fb 8 hb, ?_, ?_, ?_⟩
        · intro x hx1 hx2 hx3
          rw [hw _ _ _ _ (by omega), hw _ _ _ _ (by omega), hw _ _ _ _ (by omega),
            hw _ _ _ _ (by omega), hw _ _ _ _ (by omega)]
        · rw [rdN_wrN_disj _ _ _ _ _ _ (by omega), rdN_wrN_disj _ _ _ _ _ _ (by omega),
            rdN_wrN_disj _ _ _ _ _ _ (by omega), rdN_wrN_disj _ _ _ _ _ _ (by omega)]
          exact hpop 0 hn.symm
        · rfl
    · by_cases h0 : hb = 0
      · subst h0
        cases hres : get_node m <;>
          simp [get_node, get_first_empty_node, get_node_new_block, new_node_block, get_block,
            get_first_empty_block, hfree, hfreeb, hhb, hfb2, hn, e1, e2, e6, e9, e10,
            e8, e7 fb (by omega), e7 (fb + 16) (by omega), e7 _ hnw] at hres
        obtain ⟨rfl, rfl⟩ := hres
        refine ⟨_, rfl, rfl, rfl, rfl, wrN (wrN (wrN (wrN m.mem 96 8 (rdN m.mem fb 8)) fb 8 0)
          (fb + 8) 8 0) 112 8 fb, ?_, ?_, ?_⟩
        · intro x hx1 hx2 hx3
          rw [hw _ _ _ _ (by omega), hw _ _ _ _ (by omega), hw _ _ _ _ (by omega),
            hw _ _ _ _ (by omega)]
        · rw [rdN_wrN_disj _ _ _ _ _ _ (by omega), rdN_wrN_disj _ _ _ _ _ _ (by omega),
            rdN_wrN_disj _ _ _ _ _ _ (by omega)]
          exact hpop _ rfl
        · rfl
      · obtain ⟨h1, h2⟩ : hb + 16 ≤ m.file_size ∧ 39 ≤ rdN m.mem (hb + 8) 8 := by
          rcases hfull with h | h
          · exact absurd h h0
          · exact h
        have e3 : hb + 8 + 8 ≤ m.file_size := by omega
        cases hres : get_node m <;>
          simp [get_node, get_first_empty_node, get_node_new_block, new_node_block, get_block,
            get_first_empty_block, hfree, hfreeb, hhb, hfb2, hn, h0, h2, e1, e2, e3, e6, e9, e10,
            e8, e7 fb (by omega), e7 (fb + 16) (by omega), e7 _ hnw] at hres
        obtain ⟨rfl, rfl⟩ := hres
        refine ⟨_, rfl, rfl, rfl, rfl, wrN (wrN (wrN (wrN (wrN m.mem 96 8 (rdN m.mem fb 8)) fb 8 0)
          (fb + 8) 8 0) 112 8 fb) fb 8 hb, ?_, ?_, ?_⟩
        · intro x hx1 hx2 hx3
          rw [hw _ _ _ _ (by omega), hw _ _ _ _ (by omega), hw _ _ _ _ (by omega),
            hw _ _ _ _ (by omega), hw _ _ _ _ (by omega)]
        · rw [rdN_wrN_disj _ _ _ _ _ _ (by omega), rdN_wrN_disj _ _ _ _ _ _ (by omega),
            rdN_wrN_disj _ _ _ _ _ _ (by omega), rdN_wrN_disj _ _ _ _ _ _ (by omega)]
          exact hpop _ rfl
        · rfl
  obtain ⟨m2, heq, hfs, hnb2, hroot, f0, hf0, hf96, hmem⟩ := key
  refine ⟨m2, heq, hfs, hnb2, hroot, ?_, ?_, ?_, ?_, ?_⟩
  · rw [hmem]; exact rdN_wrN_word _ _ _ (by omega)
  · rw [hmem, rdN_wrN_disj _ _ _ _ _ _ (by omega)]; exact rdN_wrN_word _ _ _ hbw
  · rw [hmem, rdN_wrN_disj _ _ _ _ _ _ (by omega), rdN_wrN_disj _ _ _ _ _ _ (by omega)]
    exact rdN_wrN_word _ _ _ (by omega)
  · rw [hmem, rdN_wrN_disj _ _ _ _ _ _ (by omega), rdN_wrN_disj _ _ _ _ _ _ (by omega),
      rdN_wrN_disj _ _ _ _ _ _ (by omega)]
    exact hf96
  · intro x hx1 hx2 hx3
    rw [hmem, hw _ _ _ _ (by omega), hw _ _ _ _ (by omega), hw _ _ _ _ (by omega)]
    exact hf0 x hx1 hx2 hx3

/-- Claim C22.  Node allocation with an empty free-inode list.  When the head
node block lies in the store and has `node_count = k < MAX_NODE_COUNT`,
`get_node` returns the offset of its slot `k`, which lies wholly inside the
block, sets `node_count` to `k + 1` and changes nothing else.  When there
is no node block or the head node block has `MAX_NODE_COUNT` inodes,
`get_node` takes a new block (the block appended to the store when the
free-block list is empty, else the head of the free-block list), makes it
the head of the node-block list with `next_block` = the old head and
`node_count = 1`, and returns its slot 0; no other byte of the store
changes, the heads of the two lists apart. -/
theorem get_node_allocates (m : Mapper)
    (hfree : rdN m.mem ROOT_FIRST_FREE_NODE 8 = NULL_OFF)
    (hsmall : m.file_size ≤ MAX_FILE_SIZE) :
    (∀ k, head_block m ≠ NULL_OFF → head_block m + BLOCK_SIZE ≤ m.file_size →
      head_count m = k → k < MAX_NODE_COUNT →
      get_node m = .ok (head_block m + BLOCK_NODES + NODE_SIZE * k)
        { m with mem := wrN m.mem (head_block m + BLOCK_NODE_COUNT) 8 (k + 1) } ∧
      head_block m + BLOCK_NODES + NODE_SIZE * k + NODE_SIZE ≤ head_block m + BLOCK_SIZE ∧
      rdN (wrN m.mem (head_block m + BLOCK_NODE_COUNT) 8 (k + 1))
        (head_block m + BLOCK_NODE_COUNT) 8 = k + 1) ∧
    ((head_block m = NULL_OFF ∨
        (head_block m + BLOCK_NODES ≤ m.file_size ∧ MAX_NODE_COUNT ≤ head_count m)) →
      rdN m.mem ROOT_FIRST_FREE_BLOCK 8 = NULL_OFF → SizeInv m →
      m.file_size + BLOCK_SIZE ≤ MAX_FILE_SIZE →
      ∃ m2, get_node m = .ok (m.file_size + BLOCK_NODES) m2 ∧
        m2.file_size = m.file_size + BLOCK_SIZE ∧
        head_block m2 = m.file_size ∧
        rdN m2.mem (m.file_size + BLOCK_NEXT) 8 = head_block m ∧
        head_count m2 = 1 ∧
        (∀ x, x < m.file_size → ¬ (ROOT_FIRST_BLOCK ≤ x ∧ x < ROOT_FIRST_BLOCK + 8) →
          m2.mem x = m.mem x)) ∧
    (∀ fb, (head_block m = NULL_OFF ∨
        (head_block m + BLOCK_NODES ≤ m.file_size ∧ MAX_NODE_COUNT ≤ head_count m)) →
      rdN m.mem ROOT_FIRST_FREE_BLOCK 8 = fb → BLOCK_SIZE ≤ fb → fb + BLOCK_SIZE ≤ m.file_size →
      ∃ m2, get_node m = .ok (fb + BLOCK_NODES) m2 ∧
        m2.file_size = m.file_size ∧
        head_block m2 = fb ∧
        rdN m2.mem (fb + BLOCK_NEXT) 8 = head_block m ∧
        head_count m2 = 1 ∧
        rdN m2.mem ROOT_FIRST_FREE_BLOCK 8 = rdN m.mem (fb + BLOCK_NEXT) 8 ∧
        (∀ x, ¬ (ROOT_FIRST_FREE_BLOCK ≤ x ∧ x < ROOT_FIRST_FREE_BLOCK + 8) →
          ¬ (ROOT_FIRST_BLOCK ≤ x ∧ x < ROOT_FIRST_BLOCK + 8) →
          ¬ (fb ≤ x ∧ x < fb + BLOCK_NODES) → m2.mem x = m.mem x)) := by
  simp only [head_block, head_count, ROOT_FIRST_FREE_NODE, ROOT_FIRST_FREE_BLOCK,
    ROOT_FIRST_BLOCK, BLOCK_NODE_COUNT, BLOCK_NODES, BLOCK_NEXT, BLOCK_SIZE, MAX_NODE_COUNT,
    NULL_OFF, MAX_FILE_SIZE, NODE_SIZE, SizeInv, Nat.reduceSub, Nat.reduceDiv, Nat.add_zero,
    Nat.reduceAdd] at *
  refine ⟨?_, ?_, ?_⟩
  · intro k h0 h1 hk hlt
    refine ⟨get_node_next m _ k hfree rfl hk h0 h1 hlt hsmall, by omega, ?_⟩
    exact rdN_wrN_word _ _ _ (by omega)
  · intro hfull hfb hsz h3
    obtain ⟨m2, heq, hfs, _, _, h112, hnext, hcnt, hframe⟩ :=
      get_node_new_head_grow m _ hfree hfb rfl hfull hsz.1 hsz.2 h3
    refine ⟨m2, heq, hfs, h112, hnext, ?_, hframe⟩
    rw [h112]; exact hcnt
  · intro fb hfull hfb hfb0 hfb1
    obtain ⟨m2, heq, hfs, _, _, h112, hnext, hcnt, h96, hframe⟩ :=
      get_node_new_head_reuse m _ fb hfree hfb rfl hfull (by omega) (by omega) hsmall
    refine ⟨m2, heq, hfs, h112, hnext, ?_, h96, hframe⟩
    rw [h112]; exact hcnt

theorem get_node_allocates_witness :
    (get_node store_dir = .ok (head_block store_dir + BLOCK_NODES + NODE_SIZE * 2)
      { store_dir with mem := wrN store_dir.mem (head_block store_dir + BLOCK_NODE_COUNT) 8 (2 + 1) } ∧
      head_block store_dir + BLOCK_NODES + NODE_SIZE * 2 + NODE_SIZE
        ≤ head_block store_dir + BLOCK_SIZE ∧
      rdN (wrN store_dir.mem (head_block store_dir + BLOCK_NODE_COUNT) 8 (2 + 1))
        (head_block store_dir + BLOCK_NODE_COUNT) 8 = 2 + 1) ∧
    (∃ m2, get_node store_blank = .ok (store_blank.file_size + BLOCK_NODES) m2 ∧
        m2.file_size = store_blank.file_size + BLOCK_SIZE ∧
        head_block m2 = store_blank.file_size ∧
        rdN m2.mem (store_blank.file_size + BLOCK_NEXT) 8 = head_block store_blank ∧
        head_count m2 = 1 ∧
        (∀ x, x < store_blank.file_size →
          ¬ (ROOT_FIRST_BLOCK ≤ x ∧ x < ROOT_FIRST_BLOCK + 8) →
          m2.mem x = store_blank.mem x)) ∧
    (∃ m2, get_node store_free_block = .ok (4096 + BLOCK_NODES) m2 ∧
        m2.file_size = store_free_block.file_size ∧
        head_block m2 = 4096 ∧
        rdN m2.mem (4096 + BLOCK_NEXT) 8 = head_block store_free_block ∧
        head_count m2 = 1 ∧
        rdN m2.mem ROOT_FIRST_FREE_BLOCK 8 = rdN store_free_block.mem (4096 + BLOCK_NEXT) 8 ∧
        (∀ x, ¬ (ROOT_FIRST_FREE_BLOCK ≤ x ∧ x < ROOT_FIRST_FREE_BLOCK + 8) →
          ¬ (ROOT_FIRST_BLOCK ≤ x ∧ x < ROOT_FIRST_BLOCK + 8) →
          ¬ (4096 ≤ x ∧ x < 4096 + BLOCK_NODES) → m2.mem x = store_free_block.mem x)) :=
  ⟨(get_node_allocates store_dir (by decide!) (by decide!)).1 2 (by decide!) (by decide!)
      (by decide!) (by decide),
   (get_node_allocates store_blank (by decide!) (by decide!)).2.1 (Or.inl (by decide!))
      (by decide!) ⟨by decide, by decide⟩ (by decide!),
   (get_node_allocates store_free_block (by decide!) (by decide!)).2.2 4096
      (Or.inl (by decide!)) (by decide!) (by decide) (by decide!)⟩

/-! ## The free lists -/

/-- Calls that return lead from a reachable store to a reachable store. -/
theorem reachable_run_calls : ∀ (cs : List Call) (m : Mapper), Reachable m →
    calls_return cs m = true → Reachable (run_calls cs m) := by
  intro cs
  induction cs with
  | nil => intro m h _; exact h
  | cons c cs ih =>
    intro m h hret
    simp only [calls_return, Bool.and_eq_true, Option.isNone_iff_eq_none] at hret
    exact ih _ (Reachable.step c m _ h (res_unit_ok _ hret.1)) hret.2

/-- In the stores produced by creates both free lists are empty. -/
theorem created_free_lists_empty (m : Mapper) (ns : List Nat) (h : Created m ns) :
    rdN m.mem ROOT_FIRST_FREE_NODE 8 = NULL_OFF ∧ rdN m.mem ROOT_FIRST_FREE_BLOCK 8 = NULL_OFF :=
  ⟨(created_wf m ns h).free_node, (created_wf m ns h).free_block⟩

/-- Claim C23, on the code: the calls `overrun_calls`, all of them on the
file `f` of a fresh store and all returning, leave `first_free_node` at
`0xffffffffffffffff`.  The write of `BLOCK_SIZE` bytes at position 0 runs
eight bytes past the data area of the block at 8192 and puts the word 80
into the `next_block` of the block at 12288; the write at position 8192
follows it and copies its bytes to offset 88 of the root record. -/
theorem free_list_overwritten_by_write :
    Reachable store_created_file ∧
    calls_return overrun_calls store_created_file = true ∧
    Reachable store_overrun ∧
    rdN store_created_file.mem ROOT_FIRST_FREE_NODE 8 = NULL_OFF ∧
    rdN store_overrun.mem (12288 + BLOCK_NEXT) 8 = 80 ∧
    rdN store_overrun.mem ROOT_FIRST_FREE_NODE 8 = 18446744073709551615 := by
  have h1 : Reachable store_created_file :=
    Reachable.step (Call.create_file 4 4112 [102]) (fresh_mapper place_fixed) store_created_file
      (Reachable.fresh place_fixed _ (new_mapper_fresh place_fixed))
      (res_unit_ok _ (by decide!))
  have h2 : calls_return overrun_calls store_created_file = true := by decide!
  refine ⟨h1, h2, reachable_run_calls _ _ h1 h2, ?_, ?_, ?_⟩ <;> decide!

/-! ## Creates with a name of any length -/

theorem cstr_fix (l : List Nat) (h : ∀ c ∈ l, c ≠ 0 ∧ c < 256) : cstr l = l := by
  induction l with
  | nil => rfl
  | cons x xs ih =>
    have hx := h x (List.mem_cons_self _ _)
    rw [cstr_cons, Nat.mod_eq_of_lt hx.2, if_neg hx.1,
      ih (fun c hc => h c (List.mem_cons_of_mem _ hc))]

theorem cmem_pos (mem : Nat → Nat) (a k : Nat) : ∀ c ∈ cmem mem a k, c ≠ 0 ∧ c < 256 := by
  intro c hc
  unfold cmem at hc
  have h1 := List.mem_takeWhile_imp hc
  have h2 := (List.takeWhile_prefix _).subset hc
  simp only [rdBytes, List.mem_map, List.mem_range] at h2
  obtain ⟨i, _, hi⟩ := h2
  refine ⟨by simpa using h1, ?_⟩
  rw [← hi]
  exact Nat.mod_lt _ (by norm_num)

/-- The name an inode holds is a C string. -/
theorem cstr_cmem (mem : Nat → Nat) (a k : Nat) : cstr (cmem mem a k) = cmem mem a k :=
  cstr_fix _ (cmem_pos mem a k)

theorem ro_strcmp {P : Mapper → Prop} (s : List Nat) : ∀ p, Keeps P (strcmp p s) := by
  induction s with
  | nil =>
    intro p; unfold strcmp
    repeat' with_reducible (first | intro _ | apply Keeps.bind | apply Keeps.ite | exact Keeps.pure _ | exact Keeps.fail _ | exact Keeps.getM | exact ro_load8 _ | exact ro_load32 _ | exact ro_load64 _)
  | cons c cs ih =>
    intro p; unfold strcmp
    repeat' with_reducible (first | intro _ | apply Keeps.bind | apply Keeps.ite | exact Keeps.pure _ | exact Keeps.fail _ | exact Keeps.getM | exact ro_load8 _ | exact ro_load32 _ | exact ro_load64 _ | exact ih _)

theorem ro_create_children_scan {P : Mapper → Prop} (name : List Nat) (fuel : Nat) :
    ∀ it, Keeps P (create_children_scan name fuel it) := by
  induction fuel with
  | zero => intro it; unfold create_children_scan; exact Keeps.fail _
  | succ k ih =>
    intro it; unfold create_children_scan
    repeat' with_reducible (first | intro _ | apply Keeps.bind | apply Keeps.ite | exact Keeps.pure _ | exact Keeps.fail _ | exact Keeps.getM | exact ro_load8 _ | exact ro_load32 _ | exact ro_load64 _ | exact ro_iter_next _ | exact ro_strcmp _ _ | exact ih _)

/-- The allocator fields alone make a well-formed store without inodes. -/
theorem alloc_wf (m : Mapper) (ns : List Nat) (h : Alloc m ns) : WF m [] :=
  { size := h.size
    small := h.small
    free_node := h.free_node
    free_block := h.free_block
    head_ne := h.head_ne
    head_al := h.head_al
    head_in := h.head_in
    count := h.count
    used := fun n hn => by cases hn
    named := fun n hn => by cases hn
    dirs := fun n hn => by cases hn }

/-- The run of a `create_children` that returned, for a name of any length:
the directory passed the assertion, the search changed nothing, `get_node`
returned the new inode without moving the mapping, and the four stores
followed. -/
theorem create_children_run_any (m : Mapper) (ns : List Nat) (ha : Alloc m ns) (fuel d : Nat)
    (name : List Nat) (hd : d ∈ ns) (nc : Nat) (m1 : Mapper)
    (h : create_children fuel (OUT_OFFSET m.root d) name m = .ok nc m1) :
    rdN m.mem d 4 = DIR ∧
    ∃ m2, get_node m = .ok nc m2 ∧ m.root = m2.root ∧
      m1 = { m2 with mem := create_bytes m2.mem nc d name (rdN (wrBytes (wrN m2.mem (nc + 8) 8 d) (nc + 24) 64 (strncpy_bytes name)) (d + 88) 8) } := by
  have hwf := alloc_wf m ns ha
  have hsize := ha.size
  have hsmall := ha.small
  have hud := ha.used d hd
  simp only [BLOCK_SIZE, MAX_FILE_SIZE] at hsize hsmall
  obtain ⟨hd1, hd2⟩ := used_in m d hsize hud
  have e1 : d + 4 ≤ m.file_size := by omega
  have e2 : d + 88 + 8 ≤ m.file_size := by omega
  have e3 : MAP_OFFSET m.root ⟨m.root, d⟩ = d := MAP_OFFSET_cur _ _ (by simp only [WORD]; omega)
  by_cases ht : rdN m.mem d 4 = DIR
  swap
  · simp [create_children, e1, ht] at h
  simp only [create_children, bind_apply, OUT_OFFSET, Ptr.add, NODE_TYPE, Nat.add_zero,
    load32_cur _ _ _ rfl, e1, if_true, ht, ne_eq, not_true_eq_false, if_false, getM_apply, e3,
    create_iterator_cur, NODE_FIRST_CHILD, e2] at h
  cases hscan : create_children_scan name fuel (rdN m.mem (d + 88) 8) m with
  | err e ms => rw [hscan] at h; simp at h
  | ok u ms =>
    have hms : ms = m := by
      have hk := (ro_create_children_scan name fuel (rdN m.mem (d + 88) 8)).run m
        (rfl : (fun s => s = m) m)
      rw [hscan] at hk
      exact hk.symm
    rw [hscan] at h
    simp only at h
    rw [hms] at h
    clear hscan hms ms
    refine ⟨ht, ?_⟩
    cases hgn : get_node m with
    | err e m2 => rw [hgn] at h; simp at h
    | ok nc2 m2 =>
      have hap := get_node_post m [] hwf nc2 m2 hgn
      rw [hgn] at h
      have hsize2 := hap.size
      have hsmall2 := hap.small
      simp only [BLOCK_SIZE, MAX_FILE_SIZE] at hsize2 hsmall2
      obtain ⟨hn1, hn2⟩ := used_in m2 nc2 hsize2 hap.new_used
      have hgrow := hap.grow
      have g1 : nc2 + 8 + 8 ≤ m2.file_size := by omega
      have g2 : nc2 + 24 + 64 ≤ m2.file_size := by omega
      have g3 : nc2 + 16 + 8 ≤ m2.file_size := by omega
      have g4 : d + 88 + 8 ≤ m2.file_size := by omega
      have g5 : MAP_OFFSET m2.root ⟨m2.root, nc2⟩ = nc2 :=
        MAP_OFFSET_cur _ _ (by simp only [WORD]; omega)
      by_cases hroot : m.root = m2.root
      swap
      · simp [strncpy, g1, g2, load64, load_stale, hroot] at h
      have e3b : MAP_OFFSET m2.root ⟨m2.root, d⟩ = d := by rw [← hroot]; exact e3
      simp only [hroot] at h
      simp [strncpy, g1, g2, g3, g4, g5, e3b] at h
      obtain ⟨h1, h2⟩ := h
      have h1s := h1.symm
      subst h1s
      refine ⟨m2, rfl, hroot, ?_⟩
      rw [← h2]
      simp [create_bytes]

/-- What `create_children` leaves after `get_node`, for a name of any length:
the new inode holds whatever `strncpy` has put into its name field. -/
theorem create_post_any (m m2 m1 : Mapper) (d nc : Nat) (name : List Nat)
    (hsize : m.file_size = 4096 * m.num_blocks) (hud : Used m d)
    (hap : AllocPost m nc m2) (hroot : m.root = m2.root)
    (h2 : m1 = { m2 with mem := create_bytes m2.mem nc d name (rdN (wrBytes (wrN m2.mem (nc + 8) 8 d) (nc + 24) 64 (strncpy_bytes name)) (d + 88) 8) }) :
    CreatePost m d (stored_name m1 nc) nc m1 := by
  obtain ⟨hd1, hd2⟩ := used_in m d hsize hud
  have hsize2 := hap.size
  have hsmall2 := hap.small
  simp only [BLOCK_SIZE, MAX_FILE_SIZE] at hsize2 hsmall2
  obtain ⟨hn1, hn2⟩ := used_in m2 nc hsize2 hap.new_used
  have hgrow := hap.grow
  have hfresh := hap.fresh d hud
  simp only [NODE_SIZE] at hfresh
  have hfd : rdN (wrBytes (wrN m2.mem (nc + 8) 8 d) (nc + 24) 64 (strncpy_bytes name))
      (d + 88) 8 = rdN m.mem (d + 88) 8 := by
    rw [rdN_wrBytes_disj _ _ _ _ _ _ (by omega), rdN_wrN_disj _ _ _ _ _ _ (by omega)]
    apply rdN_congr
    intro x hx1 hx2
    exact hap.frame d hud x (by omega) (by simp only [NODE_SIZE]; omega)
  rw [hfd] at h2
  have hfs1 : m1.file_size = m2.file_size := by rw [h2]
  have hnb1 : m1.num_blocks = m2.num_blocks := by rw [h2]
  have hrt1 : m1.root = m2.root := by rw [h2]
  have hmem1 : m1.mem = wrN (wrN (wrBytes (wrN m2.mem (nc + 8) 8 d) (nc + 24) 64
      (strncpy_bytes name)) (d + 88) 8 nc) (nc + 16) 8 (rdN m.mem (d + 88) 8) := by
    rw [h2]
    simp [create_bytes]
  clear h2
  have hout : ∀ x, ¬ (nc + 8 ≤ x ∧ x < nc + 88) → ¬ (d + 88 ≤ x ∧ x < d + 96) →
      m1.mem x = m2.mem x := by
    intro x hx1 hx2
    rw [hmem1]
    exact create_write_out _ _ _ _ _ _ hx1 hx2
  have hrd : ∀ a j, (a + j ≤ nc + 8 ∨ nc + 88 ≤ a) → (a + j ≤ d + 88 ∨ d + 96 ≤ a) →
      rdN m1.mem a j = rdN m2.mem a j := by
    intro a j hx1 hx2
    apply rdN_congr
    intro x hx3 hx4
    exact hout x (by omega) (by omega)
  have hhead : head_block m1 = head_block m2 := by
    simp only [head_block, ROOT_FIRST_BLOCK]
    exact hrd _ _ (by omega) (by omega)
  have hal2 := hap.head_al
  have hne2 := hap.head_ne
  have hin2 := hap.head_in
  simp only [BLOCK_SIZE, NULL_OFF] at hal2 hne2 hin2
  have hnu := hap.new_used
  have hud2 := hud
  rw [used_iff] at hnu hud2
  obtain ⟨⟨_, _, i2, hi2a, hi2b⟩, hnu3⟩ := hnu
  obtain ⟨⟨_, _, id, hida, hidb⟩, hud3⟩ := hud2
  have hcount : head_count m1 = head_count m2 := by
    simp only [head_count, hhead, BLOCK_NODE_COUNT]
    apply hrd
    · rcases Nat.lt_trichotomy (nc / 4096) (head_block m2 / 4096) with h | h | h <;> omega
    · rcases Nat.lt_trichotomy (d / 4096) (head_block m2 / 4096) with h | h | h <;> omega
  have husame : ∀ n, Used m2 n → Used m1 n := by
    intro n hn
    unfold Used at hn ⊢
    rw [hhead, hcount, hfs1]
    exact hn
  have hframe : ∀ n, Used m n → ∀ x, n ≤ x → x < n + NODE_SIZE →
      ¬ (d + NODE_FIRST_CHILD ≤ x ∧ x < d + NODE_FIRST_CHILD + 8) → m1.mem x = m.mem x := by
    intro n hn x hx1 hx2 hx3
    have hfr := hap.fresh n hn
    simp only [NODE_SIZE, NODE_FIRST_CHILD] at hfr hx2 hx3
    rw [hout x (by omega) (by omega)]
    exact hap.frame n hn x hx1 (by simp only [NODE_SIZE]; omega)
  have hlink : rdN m1.mem (d + NODE_FIRST_CHILD) 8 = nc := by
    show rdN m1.mem (d + 88) 8 = nc
    rw [hmem1, rdN_wrN_disj _ _ _ _ _ _ (by omega)]
    exact rdN_wrN_word _ _ _ (by omega)
  have hparent : rdN m1.mem (nc + NODE_PARENT) 8 = d := by
    show rdN m1.mem (nc + 8) 8 = d
    rw [hmem1, rdN_wrN_disj _ _ _ _ _ _ (by omega), rdN_wrN_disj _ _ _ _ _ _ (by omega),
      rdN_wrBytes_disj _ _ _ _ _ _ (by omega)]
    exact rdN_wrN_word _ _ _ (by omega)
  have hnext : rdN m1.mem (nc + NODE_NEXT_SIBLING) 8 = rdN m.mem (d + NODE_FIRST_CHILD) 8 := by
    show rdN m1.mem (nc + 16) 8 = rdN m.mem (d + 88) 8
    rw [hmem1]
    exact rdN_wrN_word _ _ _ (by have := rdN_lt_word m.mem (d + 88); simpa using this)
  have hname : stored_name m1 nc = cstr (stored_name m1 nc) := (cstr_cmem _ _ _).symm
  have hfn : rdN m1.mem ROOT_FIRST_FREE_NODE 8 = NULL_OFF := by
    show rdN m1.mem 88 8 = 0
    rw [hrd _ _ (by omega) (by omega)]; exact hap.free_node
  have hfb : rdN m1.mem ROOT_FIRST_FREE_BLOCK 8 = NULL_OFF := by
    show rdN m1.mem 96 8 = 0
    rw [hrd _ _ (by omega) (by omega)]; exact hap.free_block
  exact
    { size := by rw [hfs1, hnb1]; exact hap.size
      small := by rw [hfs1]; exact hap.small
      grow := by rw [hfs1]; exact hap.grow
      free_node := hfn
      free_block := hfb
      head_ne := by rw [hhead]; exact hap.head_ne
      head_al := by rw [hhead]; exact hap.head_al
      head_in := by rw [hhead, hfs1]; exact hap.head_in
      count := by rw [hcount]; exact hap.count
      new_used := husame _ hap.new_used
      fresh := hap.fresh
      used := fun n hn => husame n (hap.used n hn)
      frame := hframe
      link := hlink
      parent := hparent
      next := hnext
      name := hname
      root := by rw [hrt1]; exact hroot.symm }

/-- What a create that returned leaves, for a name of any length. -/
theorem create_made (m m1 m2 : Mapper) (ns : List Nat) (ha : Alloc m ns) (fuel d : Nat)
    (name : List Nat) (hd : d ∈ ns) (nc : Nat)
    (hc : create_children fuel (OUT_OFFSET m.root d) name m = .ok nc m1)
    (hi : initialize_dir (OUT_OFFSET m1.root nc) m1 = .ok () m2 ∨
      initialize_file (OUT_OFFSET m1.root nc) m1 = .ok () m2) :
    CreatePost m d (stored_name m1 nc) nc m2 ∧ rdN m.mem (d + NODE_TYPE) 4 = DIR ∧
      (rdN m2.mem (nc + NODE_TYPE) 4 = DIR → rdN m2.mem (nc + NODE_FIRST_CHILD) 8 = NULL_OFF) := by
  obtain ⟨ht, mg, hgn, hroot, hm1⟩ := create_children_run_any m ns ha fuel d name hd nc m1 hc
  have hsize := ha.size
  simp only [BLOCK_SIZE] at hsize
  have hud := ha.used d hd
  have hp := create_post_any m mg m1 d nc name hsize hud
    (get_node_post m [] (alloc_wf m ns ha) nc mg hgn) hroot hm1
  rcases hi with hi | hi
  · obtain ⟨hp2, _, hfc⟩ := initialize_dir_post m m1 m2 d nc _ hsize hud hp hi
    exact ⟨hp2, by simpa using ht, fun _ => hfc⟩
  · obtain ⟨hp2, hty, _⟩ := initialize_file_post m m1 m2 d nc _ hsize hud hp hi
    refine ⟨hp2, by simpa using ht, fun h => ?_⟩
    rw [hty] at h
    exact absurd h (by decide)

/-- The fields of an older inode below its payload are not changed by a
create, and the payload of every older inode but the parent is not either. -/
theorem create_post_old_any (m m2 : Mapper) (d nc : Nat) (name : List Nat)
    (hp : CreatePost m d name nc m2) (hud : Used m d) (n : Nat) (hun : Used m n) :
    (∀ x, n ≤ x → x < n + 88 → m2.mem x = m.mem x) ∧
    (n ≠ d → ∀ x, n ≤ x → x < n + 104 → m2.mem x = m.mem x) ∧
    stored_name m2 n = stored_name m n ∧
    rdN m2.mem (n + NODE_TYPE) 4 = rdN m.mem (n + NODE_TYPE) 4 ∧
    rdN m2.mem (n + NODE_NEXT_SIBLING) 8 = rdN m.mem (n + NODE_NEXT_SIBLING) 8 ∧
    n ≠ nc := by
  have h1 : ∀ x, n ≤ x → x < n + 88 → m2.mem x = m.mem x := by
    intro x hx1 hx2
    apply hp.frame n hun x hx1 (by simp only [NODE_SIZE]; omega)
    simp only [NODE_FIRST_CHILD]
    by_cases hnd : n = d
    · subst hnd; omega
    · have := used_disjoint m n d hun hud hnd; omega
  have h2 : n ≠ d → ∀ x, n ≤ x → x < n + 104 → m2.mem x = m.mem x := by
    intro hnd x hx1 hx2
    apply hp.frame n hun x hx1 (by simp only [NODE_SIZE]; omega)
    simp only [NODE_FIRST_CHILD]
    have := used_disjoint m n d hun hud hnd; omega
  refine ⟨h1, h2, ?_, ?_, ?_, ?_⟩
  · exact cmem_congr _ _ _ _ (fun x hx1 hx2 => h1 x (by simp only [NODE_NAME] at hx1; omega)
      (by simp only [NODE_NAME, MAX_NAME_LENGTH] at hx2; omega))
  · exact rdN_congr _ _ _ _ (fun x hx1 hx2 => h1 x (by simp only [NODE_TYPE] at hx1; omega)
      (by simp only [NODE_TYPE] at hx2; omega))
  · exact rdN_congr _ _ _ _ (fun x hx1 hx2 => h1 x (by omega)
      (by simp only [NODE_NEXT_SIBLING] at hx2; omega))
  · have := hp.fresh n hun
    simp only [NODE_SIZE] at this
    omega

/-- A create leaves the allocator well-formed, with the new inode among the
slots handed out. -/
theorem alloc_step (m m2 : Mapper) (ns : List Nat) (ha : Alloc m ns) (d nc : Nat)
    (name : List Nat) (hp : CreatePost m d name nc m2) : Alloc m2 (nc :: ns) :=
  { size := hp.size
    small := hp.small
    free_node := hp.free_node
    free_block := hp.free_block
    head_ne := hp.head_ne
    head_al := hp.head_al
    head_in := hp.head_in
    count := hp.count
    used := by
      intro n hn
      rcases List.mem_cons.mp hn with h | h
      · rw [h]; exact hp.new_used
      · exact hp.used n (ha.used n h) }

theorem wf_alloc (m : Mapper) (ns : List Nat) (h : WF m ns) : Alloc m ns :=
  { size := h.size
    small := h.small
    free_node := h.free_node
    free_block := h.free_block
    head_ne := h.head_ne
    head_al := h.head_al
    head_in := h.head_in
    count := h.count
    used := h.used }

/-- Every store produced by creates has well-formed allocator fields, and
its inodes occupy slots that have been handed out. -/
theorem made_alloc (m : Mapper) (ns : List Nat) (h : Made m ns) : Alloc m ns := by
  induction h with
  | fresh place m h =>
    rw [new_mapper_fresh] at h
    injection h with _ h
    subst h
    rw [fresh_root_dir]
    exact wf_alloc _ _ (fresh_wf place)
  | create_dir fuel d name m m1 m2 ns nc hcr hd hc hi ih =>
    exact alloc_step m m2 ns ih d nc _
      (create_made m m1 m2 ns ih fuel d name hd nc hc (Or.inl hi)).1
  | create_file fuel d name m m1 m2 ns nc hcr hd hc hi ih =>
    exact alloc_step m m2 ns ih d nc _
      (create_made m m1 m2 ns ih fuel d name hd nc hc (Or.inr hi)).1

/-- The stores of `Created` are stores of `Made`. -/
theorem created_made (m : Mapper) (ns : List Nat) (h : Created m ns) : Made m ns := by
  induction h with
  | fresh place m h => exact Made.fresh place m h
  | create_dir fuel d name m m1 m2 ns nc hcr hd hlen hc hi ih =>
    exact Made.create_dir fuel d name m m1 m2 ns nc ih hd hc hi
  | create_file fuel d name m m1 m2 ns nc hcr hd hlen hc hi ih =>
    exact Made.create_file fuel d name m m1 m2 ns nc ih hd hc hi

/-! ## The shape of the tree -/

/-- In a well-formed store `get_node` leaves the root record below
`first_block` as it was. -/
theorem get_node_low_frame (m : Mapper) (ns : List Nat) (hwf : WF m ns) (nc : Nat) (m2 : Mapper)
    (h : get_node m = .ok nc m2) : ∀ x, x < 112 → m2.mem x = m.mem x := by
  obtain ⟨hsize, hsmall, hfn, hfb, hne, hal, hin, hct, _, _, _⟩ := hwf
  simp only [head_block, head_count, ROOT_FIRST_FREE_NODE, ROOT_FIRST_FREE_BLOCK, ROOT_FIRST_BLOCK,
    BLOCK_NODE_COUNT, BLOCK_SIZE, MAX_NODE_COUNT, NULL_OFF, MAX_FILE_SIZE, NODE_SIZE,
    Nat.reduceSub, Nat.reduceDiv] at hsize hsmall hfn hfb hne hal hin hct
  intro x hx
  by_cases hc : rdN m.mem (rdN m.mem 112 8 + 8) 8 < 39
  · rw [get_node_next m _ _ hfn rfl rfl hne hin hc hsmall] at h
    obtain ⟨_, h2⟩ := Res.ok.inj h
    rw [← h2]
    show wrN m.mem (rdN m.mem 112 8 + 8) 8 (rdN m.mem (rdN m.mem 112 8 + 8) 8 + 1) x = m.mem x
    simp only [wrN]
    rw [if_neg]
    omega
  · have hc2 : 39 ≤ rdN m.mem (rdN m.mem 112 8 + 8) 8 := by omega
    by_cases hm : m.file_size + 4096 ≤ 9223372036854775807
    · obtain ⟨mem2, heq, hfr, _, _⟩ :=
        get_node_grow m _ _ hfn hfb rfl rfl hne hin hc2 hsize hm
      rw [heq] at h
      obtain ⟨_, h2⟩ := Res.ok.inj h
      rw [← h2]
      exact hfr x (by omega) (by omega)
    · have := get_node_full m _ _ hfn hfb rfl rfl hne hin hc2 (by omega)
      rw [h] at this
      simp at this

/-- A create that returns leaves the root record below `first_block` as it
was. -/
theorem create_low_frame (m : Mapper) (ns : List Nat) (ha : Alloc m ns) (fuel d : Nat)
    (name : List Nat) (hd : d ∈ ns)
    (nc : Nat) (m1 m2 : Mapper)
    (hc : create_children fuel (OUT_OFFSET m.root d) name m = .ok nc m1)
    (hi : initialize_dir (OUT_OFFSET m1.root nc) m1 = .ok () m2 ∨
      initialize_file (OUT_OFFSET m1.root nc) m1 = .ok () m2) :
    ∀ x, x < 112 → m2.mem x = m.mem x := by
  obtain ⟨_, mg, hgn, hroot, hm1⟩ := create_children_run_any m ns ha fuel d name hd nc m1 hc
  have hwf := alloc_wf m ns ha
  have hap := get_node_post m [] hwf nc mg hgn
  have hsize := ha.size
  have hsizeg := hap.size
  simp only [BLOCK_SIZE] at hsize hsizeg
  obtain ⟨hd1, hd2⟩ := used_in m d hsize (ha.used d hd)
  obtain ⟨hn1, hn2⟩ := used_in mg nc hsizeg hap.new_used
  have hlow := get_node_low_frame m [] hwf nc mg hgn
  have h1 : ∀ x, x < 112 → m1.mem x = m.mem x := by
    intro x hx
    rw [hm1]
    show create_bytes mg.mem nc d name _ x = m.mem x
    simp only [create_bytes, wrN, wrBytes]
    rw [if_neg (by omega), if_neg (by omega), if_neg (by omega), if_neg (by omega)]
    exact hlow x hx
  have hfs1 : m1.file_size = mg.file_size := by rw [hm1]
  have g1 : nc + 4 ≤ m1.file_size := by omega
  have g2 : nc + 88 + 8 ≤ m1.file_size := by omega
  have g3 : nc + 96 + 8 ≤ m1.file_size := by omega
  intro x hx
  rcases hi with hi | hi
  · simp [initialize_dir, g1, g2] at hi
    subst hi
    show wrN (wrN m1.mem nc 4 DIR) (nc + 88) 8 0 x = m.mem x
    simp only [wrN]
    rw [if_neg (by omega), if_neg (by omega)]
    exact h1 x hx
  · simp [initialize_file, g1, g2, g3] at hi
    subst hi
    show wrN (wrN (wrN m1.mem nc 4 FIL) (nc + 96) 8 0) (nc + 88) 8 0 x = m.mem x
    simp only [wrN]
    rw [if_neg (by omega), if_neg (by omega), if_neg (by omega)]
    exact h1 x hx

/-- In every store produced by creates the field `root_dir` is the inode 4112. -/
theorem made_root_dir (m : Mapper) (ns : List Nat) (h : Made m ns) :
    rdN m.mem ROOT_ROOT_DIR 8 = 4112 := by
  induction h with
  | fresh place m h =>
    rw [new_mapper_fresh] at h
    injection h with _ h
    subst h
    exact fresh_root_dir place
  | create_dir fuel d name m m1 m2 ns nc hcr hd hc hi ih =>
    rw [← ih]
    apply rdN_congr
    intro x hx1 hx2
    simp only [ROOT_ROOT_DIR] at hx1 hx2
    exact create_low_frame m ns (made_alloc m ns hcr) fuel d name hd nc m1 m2 hc
      (Or.inl hi) x (by omega)
  | create_file fuel d name m m1 m2 ns nc hcr hd hc hi ih =>
    rw [← ih]
    apply rdN_congr
    intro x hx1 hx2
    simp only [ROOT_ROOT_DIR] at hx1 hx2
    exact create_low_frame m ns (made_alloc m ns hcr) fuel d name hd nc m1 m2 hc
      (Or.inr hi) x (by omega)

/-! ### Putting a new inode behind its directory -/

theorem insert_after_not_mem (d nc : Nat) : ∀ l : List Nat, d ∉ l → insert_after d nc l = l := by
  intro l
  induction l with
  | nil => intro _; rfl
  | cons x l ih =>
    intro h
    simp only [List.mem_cons, not_or] at h
    have hx : ¬ x = d := fun e => h.1 e.symm
    simp only [insert_after, hx, if_false, ih h.2]

theorem insert_after_append (d nc : Nat) : ∀ a b : List Nat, (a ++ b).Nodup →
    insert_after d nc (a ++ b) = insert_after d nc a ++ insert_after d nc b := by
  intro a
  induction a with
  | nil => intro b _; rfl
  | cons x a ih =>
    intro b h
    rw [List.cons_append] at h
    have hnd := List.nodup_cons.mp h
    by_cases hx : x = d
    · subst hx
      have hb : x ∉ b := fun hb => hnd.1 (List.mem_append_right _ hb)
      simp only [List.cons_append, insert_after, if_true, insert_after_not_mem x nc b hb,
        List.append_eq]
    · simp only [List.cons_append, insert_after, hx, if_false, List.append_eq, ih b hnd.2]

theorem insert_after_perm (d nc : Nat) : ∀ l : List Nat, d ∈ l →
    List.Perm (insert_after d nc l) (nc :: l) := by
  intro l
  induction l with
  | nil => intro h; cases h
  | cons x l ih =>
    intro h
    by_cases hx : x = d
    · simp only [insert_after, hx, if_true]
      exact List.Perm.swap _ _ _
    · simp only [insert_after, hx, if_false]
      have hd : d ∈ l := by
        rcases List.mem_cons.mp h with h | h
        · exact absurd h.symm hx
        · exact h
      exact (List.Perm.cons x (ih hd)).trans (List.Perm.swap _ _ _)

/-- A create under `d` turns the forest below a chain into the forest with
the new inode right behind `d`. -/
theorem forest_step (m m2 : Mapper) (ns : List Nat) (d nc : Nat)
    (hgrow : m.file_size ≤ m2.file_size)
    (hold : ∀ n ∈ ns,
      rdN m2.mem (n + NODE_TYPE) 4 = rdN m.mem (n + NODE_TYPE) 4 ∧
      rdN m2.mem (n + NODE_PARENT) 8 = rdN m.mem (n + NODE_PARENT) 8 ∧
      rdN m2.mem (n + NODE_NEXT_SIBLING) 8 = rdN m.mem (n + NODE_NEXT_SIBLING) 8 ∧
      (n ≠ d → rdN m2.mem (n + NODE_FIRST_CHILD) 8 = rdN m.mem (n + NODE_FIRST_CHILD) 8))
    (hdty : rdN m.mem (d + NODE_TYPE) 4 = DIR)
    (hlink : rdN m2.mem (d + NODE_FIRST_CHILD) 8 = nc)
    (hnc0 : nc ≠ NULL_OFF) (hncin : nc + NODE_SIZE ≤ m2.file_size)
    (hpar : rdN m2.mem (nc + NODE_PARENT) 8 = d)
    (hnext : rdN m2.mem (nc + NODE_NEXT_SIBLING) 8 = rdN m.mem (d + NODE_FIRST_CHILD) 8)
    (hnew : rdN m2.mem (nc + NODE_TYPE) 4 = DIR →
      rdN m2.mem (nc + NODE_FIRST_CHILD) 8 = NULL_OFF) :
    ∀ p x l, Forest m p x l → (∀ n ∈ l, n ∈ ns) → l.Nodup →
      Forest m2 p x (insert_after d nc l) := by
  intro p x l hf
  induction hf with
  | nil p => intro _ _; exact Forest.nil p
  | leaf p x rest h0 hin hp hty hrest ih =>
    intro hns hnd
    have hx := hold x (hns x (List.mem_cons_self _ _))
    have hxd : ¬ x = d := by
      intro e
      rw [e] at hty
      exact hty hdty
    have hnd2 := List.nodup_cons.mp hnd
    simp only [insert_after, hxd, if_false]
    have hin2 : x + NODE_SIZE ≤ m2.file_size := Nat.le_trans hin hgrow
    have hp2 : rdN m2.mem (x + NODE_PARENT) 8 = p := by rw [hx.2.1]; exact hp
    have hty2 : rdN m2.mem (x + NODE_TYPE) 4 ≠ DIR := by rw [hx.1]; exact hty
    have f := ih (fun n hn => hns n (List.mem_cons_of_mem _ hn)) hnd2.2
    rw [← hx.2.2.1] at f
    exact Forest.leaf p x _ h0 hin2 hp2 hty2 f
  | dir p x sub rest h0 hin hp hty hsub hrest ih1 ih2 =>
    intro hns hnd
    have hx := hold x (hns x (List.mem_cons_self _ _))
    have hnd2 := List.nodup_cons.mp hnd
    have hsubns : ∀ n ∈ sub, n ∈ ns :=
      fun n hn => hns n (List.mem_cons_of_mem _ (List.mem_append_left _ hn))
    have hrestns : ∀ n ∈ rest, n ∈ ns :=
      fun n hn => hns n (List.mem_cons_of_mem _ (List.mem_append_right _ hn))
    have hndsub : sub.Nodup := (List.nodup_append.mp hnd2.2).1
    have hndrest : rest.Nodup := (List.nodup_append.mp hnd2.2).2.1
    have f1 := ih1 hsubns hndsub
    have f2 := ih2 hrestns hndrest
    rw [← hx.2.2.1] at f2
    have hin2 : x + NODE_SIZE ≤ m2.file_size := Nat.le_trans hin hgrow
    have hp2 : rdN m2.mem (x + NODE_PARENT) 8 = p := by rw [hx.2.1]; exact hp
    have hty2 : rdN m2.mem (x + NODE_TYPE) 4 = DIR := by rw [hx.1]; exact hty
    by_cases hxd : x = d
    · subst hxd
      have hds : x ∉ sub := fun h => hnd2.1 (List.mem_append_left _ h)
      have hdr : x ∉ rest := fun h => hnd2.1 (List.mem_append_right _ h)
      rw [insert_after_not_mem x nc sub hds] at f1
      rw [insert_after_not_mem x nc rest hdr] at f2
      rw [← hnext] at f1
      have fnc : Forest m2 x nc (nc :: sub) := by
        by_cases hty2 : rdN m2.mem (nc + NODE_TYPE) 4 = DIR
        · have := Forest.dir x nc [] sub hnc0 hncin hpar hty2
            (by rw [hnew hty2]; exact Forest.nil nc) f1
          simpa using this
        · exact Forest.leaf x nc sub hnc0 hncin hpar hty2 f1
      have fnc2 : Forest m2 x (rdN m2.mem (x + NODE_FIRST_CHILD) 8) (nc :: sub) := by
        rw [hlink]; exact fnc
      simp only [insert_after, if_true]
      have := Forest.dir p x (nc :: sub) rest h0 hin2 hp2 hty2 fnc2 f2
      simpa using this
    · simp only [insert_after, hxd, if_false]
      rw [insert_after_append d nc sub rest hnd2.2]
      rw [← hx.2.2.2 hxd] at f1
      exact Forest.dir p x _ _ h0 hin2 hp2 hty2 f1 f2

/-- A create under an inode of the tree leaves a tree, with the new inode
in it. -/
theorem tree_step (m m2 : Mapper) (ns : List Nat) (r d nc : Nat) (name : List Nat)
    (hus : ∀ n ∈ ns, Used m n) (hd : d ∈ ns) (hp : CreatePost m d name nc m2)
    (hdty : rdN m.mem (d + NODE_TYPE) 4 = DIR)
    (hnew : rdN m2.mem (nc + NODE_TYPE) 4 = DIR →
      rdN m2.mem (nc + NODE_FIRST_CHILD) 8 = NULL_OFF)
    (ht : TreeShape m r ns) : TreeShape m2 r (nc :: ns) ∧ nc ∉ ns := by
  obtain ⟨hrty, hrpar, l, hf, hnd, hperm⟩ := ht
  have hsize2 := hp.size
  simp only [BLOCK_SIZE] at hsize2
  obtain ⟨hn1, hn2⟩ := used_in m2 nc hsize2 hp.new_used
  have hnc0 : nc ≠ NULL_OFF := by simp only [NULL_OFF]; omega
  have hncin : nc + NODE_SIZE ≤ m2.file_size := by simp only [NODE_SIZE]; omega
  have hncns : nc ∉ ns := fun h =>
    (create_post_old_any m m2 d nc name hp (hus d hd) nc (hus nc h)).2.2.2.2.2 rfl
  have hold : ∀ n ∈ ns,
      rdN m2.mem (n + NODE_TYPE) 4 = rdN m.mem (n + NODE_TYPE) 4 ∧
      rdN m2.mem (n + NODE_PARENT) 8 = rdN m.mem (n + NODE_PARENT) 8 ∧
      rdN m2.mem (n + NODE_NEXT_SIBLING) 8 = rdN m.mem (n + NODE_NEXT_SIBLING) 8 ∧
      (n ≠ d → rdN m2.mem (n + NODE_FIRST_CHILD) 8 = rdN m.mem (n + NODE_FIRST_CHILD) 8) := by
    intro n hn
    obtain ⟨h1, h2, _, hty, hnx, _⟩ :=
      create_post_old_any m m2 d nc name hp (hus d hd) n (hus n hn)
    refine ⟨hty, ?_, hnx, fun hnd => ?_⟩
    · apply rdN_congr
      intro x hx1 hx2
      simp only [NODE_PARENT] at hx1 hx2
      exact h1 x (by omega) (by omega)
    · apply rdN_congr
      intro x hx1 hx2
      simp only [NODE_FIRST_CHILD] at hx1 hx2
      exact h2 hnd x (by omega) (by omega)
  have hrns : r ∈ ns := hperm.subset (List.mem_cons_self _ _)
  have hlns : ∀ n ∈ l, n ∈ ns := fun n hn => hperm.subset (List.mem_cons_of_mem _ hn)
  have hndl := List.nodup_cons.mp hnd
  have hr := hold r hrns
  have hstep := forest_step m m2 ns d nc hp.grow hold hdty hp.link hnc0 hncin hp.parent hp.next
    hnew r _ l hf hlns hndl.2
  have hnsnd : ns.Nodup := hperm.nodup_iff.mp hnd
  refine ⟨⟨by rw [hr.1]; exact hrty, by rw [hr.2.1]; exact hrpar, ?_⟩, hncns⟩
  by_cases hrd : r = d
  · subst hrd
    rw [insert_after_not_mem r nc l hndl.1] at hstep
    have f1 : Forest m2 r (rdN m2.mem (nc + NODE_NEXT_SIBLING) 8) l := by
      rw [hp.next]; exact hstep
    have fnc : Forest m2 r nc (nc :: l) := by
      by_cases hty2 : rdN m2.mem (nc + NODE_TYPE) 4 = DIR
      · have := Forest.dir r nc [] l hnc0 hncin hp.parent hty2
          (by rw [hnew hty2]; exact Forest.nil nc) f1
        simpa using this
      · exact Forest.leaf r nc l hnc0 hncin hp.parent hty2 f1
    refine ⟨nc :: l, by rw [hp.link]; exact fnc, ?_, ?_⟩
    · have hperm2 : List.Perm (r :: nc :: l) (nc :: ns) :=
        (List.Perm.swap nc r l).trans (List.Perm.cons nc hperm)
      exact hperm2.nodup_iff.mpr (List.nodup_cons.mpr ⟨hncns, hnsnd⟩)
    · exact (List.Perm.swap nc r l).trans (List.Perm.cons nc hperm)
  · have hdl : d ∈ l := by
      have := hperm.symm.subset hd
      rcases List.mem_cons.mp this with h | h
      · exact absurd h.symm hrd
      · exact h
    have hperm2 : List.Perm (r :: insert_after d nc l) (nc :: ns) :=
      ((List.Perm.cons r (insert_after_perm d nc l hdl)).trans (List.Perm.swap nc r l)).trans
        (List.Perm.cons nc hperm)
    refine ⟨insert_after d nc l, by rw [hr.2.2.2 hrd]; exact hstep, ?_, hperm2⟩
    exact hperm2.nodup_iff.mpr (List.nodup_cons.mpr ⟨hncns, hnsnd⟩)

/-- A `create_dir` that returns on a store produced by creates leaves such a
store. -/
theorem made_create_dir (m m2 : Mapper) (ns : List Nat) (h : Made m ns) (fuel d : Nat)
    (name : List Nat) (hd : d ∈ ns) (hc : create_dir fuel d name m = .ok () m2) :
    ∃ nc, Made m2 (nc :: ns) := by
  obtain ⟨nc, m1, h1, h2⟩ := create_dir_ok m m2 fuel d name hc
  exact ⟨nc, Made.create_dir fuel d name m m1 m2 ns nc h hd h1 h2⟩

/-- A `create_file` that returns on a store produced by creates leaves such
a store. -/
theorem made_create_file (m m2 : Mapper) (ns : List Nat) (h : Made m ns) (fuel d : Nat)
    (name : List Nat) (hd : d ∈ ns) (hc : create_file fuel d name m = .ok () m2) :
    ∃ nc, Made m2 (nc :: ns) := by
  obtain ⟨nc, m1, h1, h2⟩ := create_file_ok m m2 fuel d name hc
  exact ⟨nc, Made.create_file fuel d name m m1 m2 ns nc h hd h1 h2⟩

/-- Claim C21.  Tree shape is an invariant.  In every store produced from a
fresh one by `create_dir` and `create_file` calls that returned (each on an
inode created before, with any name), with `ns` the inodes allocated so
far: no slot has been handed out twice (`ns` has no inode twice),
`root_dir` is a directory without parent, and following `first_child` and
`next_sibling` from `root_dir` reaches every inode of `ns` exactly once, and
nothing else, and every inode reached has as `parent` the directory from
whose child list it was reached. -/
theorem tree_shape_invariant (m : Mapper) (ns : List Nat) (h : Made m ns) :
    ns.Nodup ∧ TreeShape m (rdN m.mem ROOT_ROOT_DIR 8) ns := by
  have key : TreeShape m 4112 ns := by
    induction h with
    | fresh place m h =>
      rw [new_mapper_fresh] at h
      injection h with _ h
      subst h
      rw [fresh_root_dir]
      refine ⟨?_, ?_, [], ?_, by simp, List.Perm.refl _⟩
      · show rdN fresh_mem (4112 + 0) 4 = 2
        decide
      · show rdN fresh_mem (4112 + 8) 8 = 0
        decide
      · have : rdN (fresh_mapper place).mem (4112 + NODE_FIRST_CHILD) 8 = NULL_OFF := by
          show rdN fresh_mem (4112 + 88) 8 = 0
          decide
        rw [this]
        exact Forest.nil 4112
    | create_dir fuel d name m m1 m2 ns nc hcr hd hc hi ih =>
      have ha := made_alloc m ns hcr
      obtain ⟨hp, ht, hnew⟩ := create_made m m1 m2 ns ha fuel d name hd nc hc (Or.inl hi)
      exact (tree_step m m2 ns 4112 d nc _ ha.used hd hp ht hnew ih).1
    | create_file fuel d name m m1 m2 ns nc hcr hd hc hi ih =>
      have ha := made_alloc m ns hcr
      obtain ⟨hp, ht, hnew⟩ := create_made m m1 m2 ns ha fuel d name hd nc hc (Or.inr hi)
      exact (tree_step m m2 ns 4112 d nc _ ha.used hd hp ht hnew ih).1
  rw [made_root_dir m ns h]
  obtain ⟨h1, h2, l, hf, hnd, hperm⟩ := key
  exact ⟨hperm.nodup_iff.mp hnd, h1, h2, l, hf, hnd, hperm⟩

/-- The store `store_name64` is reached by one `create_dir` with a name of
`MAX_NAME_LENGTH` characters on the fresh store. -/
theorem store_name64_made : Made store_name64 [4216, 4112] :=
  have h0 : Made (fresh_mapper place_fixed) [4112] := by
    have := Made.fresh place_fixed _ (new_mapper_fresh place_fixed)
    rwa [fresh_root_dir] at this
  Made.create_dir 4 4112 name64 (fresh_mapper place_fixed) store_name64_mid store_name64 [4112]
    4216 h0 (by simp) (res_ok_of_val _ 4216 (by decide!)) (res_unit_ok _ (by decide!))

theorem tree_shape_invariant_witness :
    Made store_name64 [4216, 4112] ∧ (cstr name64).length = MAX_NAME_LENGTH ∧
      [4216, 4112].Nodup ∧
      TreeShape store_name64 (rdN store_name64.mem ROOT_ROOT_DIR 8) [4216, 4112] :=
  ⟨store_name64_made, by decide,
    tree_shape_invariant store_name64 [4216, 4112] store_name64_made⟩

/-! ## Creates that return -/

/-- Claim C1, on the code.  The file `f` (inode 4216) owns the blocks at
8192, 12288 and 16384 of a store of 20480 bytes and is open on handle 0.  The
sequence `seek(0, SET); write(B, 8193); seek(0, SET); read(8193)` with
`B = law_buffer` returns, every access inside the store, and the buffer read
has 8193 bytes and the cursor ends at 8193, but the buffer is not `B`: byte
4089 of it is 80 where `B` has 0.
The first chunk of the write is `BLOCK_SIZE` = 4096 bytes long, eight more
than the data area of a block: bytes 4088 to 4095 of `B` land in the
`next_block` header of the block at 12288.  These bytes are zero, so the
write takes the chain to end there, allocates the block at 20480 (the store
grows to 24576 bytes) and links it, and the read returns the bytes of this
link at the indices 4088 to 4095. -/
theorem read_write_law_fails :
    store_three_blocks.file_size = 20480 ∧
    rdN store_three_blocks.mem (4216 + NODE_FILE_FIRST_BLOCK) 8 = 8192 ∧
    rdN store_three_blocks.mem (8192 + BLOCK_NEXT) 8 = 12288 ∧
    rdN store_three_blocks.mem (12288 + BLOCK_NEXT) 8 = 16384 ∧
    (seek_write_seek_read law_buffer 8193 store_three_blocks).error = none ∧
    (seek_write_seek_read law_buffer 8193 store_three_blocks).val.map (fun out => out.length)
      = some 8193 ∧
    (seek_write_seek_read law_buffer 8193 store_three_blocks).val.map
      (fun out => out.getD 4089 0) = some 80 ∧
    law_buffer 4089 = 0 ∧
    (after (seek_write_seek_read law_buffer 8193) store_three_blocks).file_size = 24576 ∧
    rdN (after (seek_write_seek_read law_buffer 8193) store_three_blocks).mem
      (12288 + BLOCK_NEXT) 8 = 20480 ∧
    ((after (seek_write_seek_read law_buffer 8193) store_three_blocks).fd_table 0).offset
      = 8193 := by
  refine ⟨?_, ?_, ?_, ?_, ?_, ?_, ?_, ?_, ?_, ?_, ?_⟩ <;> decide!

/-- The store `store_dir_file` is reached by a `create_dir` and a
`create_file` on the fresh store. -/
theorem store_dir_file_created : Created store_dir_file [4320, 4216, 4112] :=
  Created.create_file 4 4112 [98] store_dir store_dir_file_mid store_dir_file [4216, 4112] 4320
    store_dir_created (by simp) (by decide) (res_ok_of_val _ 4320 (by decide!))
    (res_unit_ok _ (by decide!))

theorem created_names_distinct_witness :
    Created store_dir_file [4320, 4216, 4112] ∧
    (iter_children 4 4112 store_dir_file).val = some [4320, 4216] ∧
    [4320, 4216].map (stored_name store_dir_file) = [[98], [97]] ∧
    ∃ cs, (∀ fuel, cs.length < fuel →
        iter_children fuel 4112 store_dir_file = .ok cs store_dir_file) ∧
      (cs.map (stored_name store_dir_file)).Nodup :=
  ⟨store_dir_file_created, by decide!, by decide!,
    created_names_distinct store_dir_file [4320, 4216, 4112] store_dir_file_created 4112
      (by simp) (by decide!)⟩

/-! ## Reading -/

/-! ### The handle table during a read -/

theorem tk_store {t : Nat → FD} (k : Nat) (p : Ptr) (v : Nat) :
    Keeps (fun s => s.fd_table = t) (store k p v) := by
  constructor; intro m hm; unfold store; split <;> exact hm

theorem tk_store64 {t : Nat → FD} (p : Ptr) (v : Nat) :
    Keeps (fun s => s.fd_table = t) (store64 p v) := tk_store 8 p v

theorem tk_memset {t : Nat → FD} (p : Ptr) (c n : Nat) :
    Keeps (fun s => s.fd_table = t) (memset p c n) := by
  constructor; intro m hm; unfold memset; split <;> exact hm

theorem tk_memcpy_from {P : Mapper → Prop} (p : Ptr) (n : Nat) : Keeps P (memcpy_from p n) := by
  constructor; intro m hm; unfold memcpy_from; split <;> exact hm

theorem tk_grow_store {t : Nat → FD} : Keeps (fun s => s.fd_table = t) grow_store := by
  constructor; intro m hm
  simp only [grow_store]
  split <;> exact hm

theorem tk_get_first_empty_block {t : Nat → FD} (r : Nat) :
    Keeps (fun s => s.fd_table = t) (get_first_empty_block r) := by
  unfold get_first_empty_block
  repeat' with_reducible (first | intro _ | apply Keeps.bind | apply Keeps.ite | exact Keeps.pure _ | exact Keeps.fail _ | exact Keeps.getM | exact ro_load64 _ | exact tk_store64 _ _)

theorem tk_get_block {t : Nat → FD} : Keeps (fun s => s.fd_table = t) get_block := by
  unfold get_block
  repeat' with_reducible (first | intro _ | apply Keeps.bind | apply Keeps.ite | exact Keeps.pure _ | exact Keeps.fail _ | exact Keeps.getM | exact ro_load64 _ | exact tk_store64 _ _ | exact tk_get_first_empty_block _ | exact tk_grow_store)

theorem tk_new_data_block {t : Nat → FD} : Keeps (fun s => s.fd_table = t) new_data_block := by
  unfold new_data_block
  repeat' with_reducible (first | intro _ | apply Keeps.bind | apply Keeps.ite | exact Keeps.pure _ | exact Keeps.fail _ | exact Keeps.getM | exact ro_load64 _ | exact tk_store64 _ _ | exact tk_memset _ _ _ | exact tk_get_block)

theorem tk_first_block_of {t : Nat → FD} (file : Nat) :
    Keeps (fun s => s.fd_table = t) (first_block_of file) := by
  unfold first_block_of
  repeat' with_reducible (first | intro _ | apply Keeps.bind | apply Keeps.ite | exact Keeps.pure _ | exact Keeps.fail _ | exact Keeps.getM | exact ro_load64 _ | exact tk_store64 _ _ | exact tk_new_data_block)

theorem tk_skip_blocks {t : Nat → FD} (k : Nat) :
    ∀ block, Keeps (fun s => s.fd_table = t) (skip_blocks k block) := by
  induction k with
  | zero => intro block; unfold skip_blocks; exact Keeps.pure _
  | succ k ih =>
    intro block; unfold skip_blocks
    repeat' with_reducible (first | intro _ | apply Keeps.bind | apply Keeps.ite | exact Keeps.pure _ | exact Keeps.fail _ | exact Keeps.getM | exact ro_load64 _ | exact tk_store64 _ _ | exact tk_new_data_block | exact ih _)

theorem tk_advance_block {t : Nat → FD} (more : Bool) (block : Nat) :
    Keeps (fun s => s.fd_table = t) (advance_block more block) := by
  unfold advance_block
  repeat' with_reducible (first | intro _ | apply Keeps.bind | apply Keeps.ite | exact Keeps.pure _ | exact Keeps.fail _ | exact Keeps.getM | exact ro_load64 _ | exact tk_store64 _ _ | exact tk_new_data_block)

theorem tk_read_loop {t : Nat → FD} (len fuel : Nat) :
    ∀ block bo nr out, Keeps (fun s => s.fd_table = t) (read_loop len fuel block bo nr out) := by
  induction fuel with
  | zero =>
    intro block bo nr out; unfold read_loop
    repeat' with_reducible (first | intro _ | apply Keeps.bind | apply Keeps.ite | exact Keeps.pure _ | exact Keeps.fail _ | exact Keeps.getM)
  | succ k ih =>
    intro block bo nr out; unfold read_loop
    repeat' with_reducible (first | intro _ | apply Keeps.bind | apply Keeps.ite | exact Keeps.pure _ | exact Keeps.fail _ | exact Keeps.getM | exact tk_memcpy_from _ _ | exact tk_advance_block _ _ | exact ih _ _ _ _)

/-! ### The copy loop -/

/-- A copy loop that returns has copied what was left to copy. -/
theorem read_loop_count (len : Nat) : ∀ fuel b bo nr out m r m2,
    read_loop len fuel b bo nr out m = .ok r m2 → nr ≤ len →
    r.1 = len ∧ r.2.length = out.length + (len - nr) := by
  intro fuel
  induction fuel with
  | zero =>
    intro b bo nr out m r m2 h hle
    unfold read_loop at h
    by_cases he : nr = len
    · rw [if_pos he] at h
      obtain ⟨h1, _⟩ := Res.ok.inj h
      rw [← h1]
      exact ⟨he, by simp [he]⟩
    · rw [if_neg he] at h
      cases h
  | succ k ih =>
    intro b bo nr out m r m2 h hle
    unfold read_loop at h
    by_cases he : nr = len
    · rw [if_pos he] at h
      obtain ⟨h1, _⟩ := Res.ok.inj h
      rw [← h1]
      exact ⟨he, by simp [he]⟩
    · rw [if_neg he] at h
      obtain ⟨ma, m1, h1, h⟩ := bind_eq_ok h
      obtain ⟨chunk, m3, h3, h⟩ := bind_eq_ok h
      obtain ⟨nx, m4, h4, h⟩ := bind_eq_ok h
      have hn : min_sz (BLOCK_SIZE - bo) (len - nr) ≤ len - nr := by
        unfold min_sz; split <;> omega
      have hchunk : chunk.length = min_sz (BLOCK_SIZE - bo) (len - nr) := by
        unfold memcpy_from at h3
        split at h3
        · obtain ⟨h3a, _⟩ := Res.ok.inj h3
          rw [← h3a]
          simp [rdBytes]
        · cases h3
      obtain ⟨r1, r2⟩ := ih _ _ _ _ _ _ _ h (by omega)
      refine ⟨r1, ?_⟩
      rw [r2, List.length_append, hchunk]
      omega

/-! ### The rounds of the copy loop -/

theorem fueled_bind {α β : Type} {x : FS α} {f : α → FS β}
    (hx : Fueled x) (hf : ∀ a, Fueled (f a)) : Fueled (x >>= f) := by
  constructor
  intro m
  have h1 := hx.run m
  rw [bind_apply]
  cases h : x m with
  | ok a m1 => exact (hf a).run m1
  | err e m1 => rw [h] at h1; exact h1

theorem fueled_pure {α : Type} (a : α) : Fueled (pure a : FS α) :=
  ⟨fun _ h => by cases h⟩

theorem fueled_getM : Fueled getM := ⟨fun _ h => by cases h⟩

theorem fueled_ite {α : Type} {c : Prop} [Decidable c] {x y : FS α}
    (hx : Fueled x) (hy : Fueled y) : Fueled (if c then x else y) := by
  split <;> assumption

theorem fueled_load (k : Nat) (p : Ptr) : Fueled (load k p) := by
  constructor; intro m; unfold load; split <;> intro h <;> cases h

theorem fueled_load64 (p : Ptr) : Fueled (load64 p) := fueled_load 8 p

theorem fueled_store (k : Nat) (p : Ptr) (v : Nat) : Fueled (store k p v) := by
  constructor; intro m; unfold store; split <;> intro h <;> cases h

theorem fueled_store64 (p : Ptr) (v : Nat) : Fueled (store64 p v) := fueled_store 8 p v

theorem fueled_memset (p : Ptr) (c n : Nat) : Fueled (memset p c n) := by
  constructor; intro m; unfold memset; split <;> intro h <;> cases h

theorem fueled_memcpy_from (p : Ptr) (n : Nat) : Fueled (memcpy_from p n) := by
  constructor; intro m; unfold memcpy_from; split <;> intro h <;> cases h

theorem fueled_fd_get (fd : Nat) : Fueled (fd_get fd) := by
  constructor; intro m; unfold fd_get; split <;> intro h <;> cases h

theorem fueled_fd_set (fd : Nat) (e : FD) : Fueled (fd_set fd e) := by
  constructor; intro m; unfold fd_set; split <;> intro h <;> cases h

theorem fueled_grow_store : Fueled grow_store := by
  constructor; intro m
  simp only [grow_store]
  split <;> intro h <;> cases h

theorem fueled_get_first_empty_block (r : Nat) : Fueled (get_first_empty_block r) := by
  unfold get_first_empty_block
  repeat' with_reducible (first | intro _ | apply fueled_bind | apply fueled_ite | exact fueled_pure _ | exact fueled_getM | exact fueled_load64 _ | exact fueled_store64 _ _)

theorem fueled_get_block : Fueled get_block := by
  unfold get_block
  repeat' with_reducible (first | intro _ | apply fueled_bind | apply fueled_ite | exact fueled_pure _ | exact fueled_getM | exact fueled_load64 _ | exact fueled_store64 _ _ | exact fueled_get_first_empty_block _ | exact fueled_grow_store)

theorem fueled_new_data_block : Fueled new_data_block := by
  unfold new_data_block
  repeat' with_reducible (first | intro _ | apply fueled_bind | apply fueled_ite | exact fueled_pure _ | exact fueled_getM | exact fueled_load64 _ | exact fueled_store64 _ _ | exact fueled_memset _ _ _ | exact fueled_get_block)

theorem fueled_first_block_of (file : Nat) : Fueled (first_block_of file) := by
  unfold first_block_of
  repeat' with_reducible (first | intro _ | apply fueled_bind | apply fueled_ite | exact fueled_pure _ | exact fueled_getM | exact fueled_load64 _ | exact fueled_store64 _ _ | exact fueled_new_data_block)

theorem fueled_skip_blocks (k : Nat) : ∀ block, Fueled (skip_blocks k block) := by
  induction k with
  | zero => intro block; unfold skip_blocks; exact fueled_pure _
  | succ k ih =>
    intro block; unfold skip_blocks
    repeat' with_reducible (first | intro _ | apply fueled_bind | apply fueled_ite | exact fueled_pure _ | exact fueled_getM | exact fueled_load64 _ | exact fueled_store64 _ _ | exact fueled_new_data_block | exact ih _)

theorem fueled_advance_block (more : Bool) (block : Nat) : Fueled (advance_block more block) := by
  unfold advance_block
  repeat' with_reducible (first | intro _ | apply fueled_bind | apply fueled_ite | exact fueled_pure _ | exact fueled_getM | exact fueled_load64 _ | exact fueled_store64 _ _ | exact fueled_new_data_block)

/-- Every round of the copy loop copies at least one byte, so as many
rounds as bytes are left suffice. -/
theorem fueled_read_loop (len : Nat) : ∀ fuel b bo nr out, bo < BLOCK_SIZE → nr ≤ len →
    len - nr ≤ fuel → Fueled (read_loop len fuel b bo nr out) := by
  intro fuel
  induction fuel with
  | zero =>
    intro b bo nr out hbo hle hf
    unfold read_loop
    rw [if_pos (by omega)]
    exact fueled_pure _
  | succ k ih =>
    intro b bo nr out hbo hle hf
    unfold read_loop
    by_cases he : nr = len
    · rw [if_pos he]; exact fueled_pure _
    · rw [if_neg he]
      have hn1 : min_sz (BLOCK_SIZE - bo) (len - nr) ≤ len - nr := by
        unfold min_sz; split <;> omega
      have hn2 : 1 ≤ min_sz (BLOCK_SIZE - bo) (len - nr) := by
        unfold min_sz; split <;> omega
      refine fueled_bind fueled_getM (fun _ => fueled_bind (fueled_memcpy_from _ _)
        (fun _ => fueled_bind (fueled_advance_block _ _) (fun _ => ?_)))
      exact ih _ _ _ _ (by simp only [BLOCK_SIZE]; omega) (by omega) (by omega)

/-! ### Reads inside the store -/

theorem memcpy_from_cur (r off n : Nat) (m : Mapper) (h : r = m.root) :
    memcpy_from ⟨r, off⟩ n m =
      if off + n ≤ m.file_size then .ok (rdBytes m.mem off n) m else .err .fault m := by
  unfold memcpy_from valid
  by_cases h1 : off + n ≤ m.file_size <;> simp [h, h1]

/-- Skipping blocks of a chain that has them changes nothing and ends at
the block that many links on. -/
theorem skip_blocks_chain_block (m : Mapper) : ∀ k b, BlockChain m k b →
    skip_blocks k b m = .ok (chain_block m k b) m := by
  intro k
  induction k with
  | zero => intro b _; rfl
  | succ k ih =>
    intro b h
    obtain ⟨h1, h2, h3⟩ := h
    have hb2 := ih _ h3
    simp only [BLOCK_NEXT, Nat.add_zero, NULL_OFF] at h1 h2 h3 hb2
    simp only [skip_blocks, bind_apply, getM_apply, OUT_OFFSET, Ptr.add, BLOCK_NEXT,
      Nat.add_zero, load64_cur _ _ _ rfl, h1, if_true, NULL_OFF, h2, if_false, pure_apply, hb2,
      chain_block]

/-- A copy loop all of whose accesses lie in the store returns and changes
nothing. -/
theorem read_loop_chain (m : Mapper) (len : Nat) : ∀ fuel b bo nr out, nr ≤ len →
    ReadChain m fuel b bo (len - nr) →
    ∃ out2, read_loop len fuel b bo nr out m = .ok (len, out2) m := by
  intro fuel
  induction fuel with
  | zero =>
    intro b bo nr out hle h
    unfold ReadChain at h
    have he : nr = len := by omega
    refine ⟨out, ?_⟩
    unfold read_loop
    rw [if_pos he, he]
    rfl
  | succ k ih =>
    intro b bo nr out hle h
    by_cases he : nr = len
    · refine ⟨out, ?_⟩
      unfold read_loop
      rw [if_pos he, he]
      rfl
    · unfold ReadChain at h
      rcases h with h | ⟨h1, h2, h3⟩
      · omega
      have hn : min_sz (BLOCK_SIZE - bo) (len - nr) ≤ len - nr := by
        unfold min_sz; split <;> omega
      generalize hnn : min_sz (BLOCK_SIZE - bo) (len - nr) = n at *
      have e : len - (nr + n) = len - nr - n := by omega
      obtain ⟨out2, ho⟩ := ih (rdN m.mem (b + BLOCK_NEXT) 8) 0 (nr + n)
        (out ++ rdBytes m.mem (b + 8 + bo) n) (by omega) (by rw [e]; exact h3)
      refine ⟨out2, ?_⟩
      simp only [BLOCK_DATA, BLOCK_NEXT, Nat.add_zero, NULL_OFF] at h1 h2 ho
      have g1 : b + 8 + bo + n ≤ m.file_size := h1
      have g2 : b + 8 ≤ m.file_size := by omega
      unfold read_loop
      rw [if_neg he]
      by_cases hmore : nr + n = len
      · simp only [bind_apply, getM_apply, OUT_OFFSET, Ptr.add, BLOCK_DATA, hnn,
          memcpy_from_cur _ _ _ _ rfl, g1, if_true, advance_block, hmore, ne_eq,
          not_true_eq_false, decide_False, Bool.false_eq_true, if_false, pure_apply, BLOCK_NEXT,
          Nat.add_zero, load64_cur _ _ _ rfl, g2]
        rw [hmore] at ho
        exact ho
      · have h2b : rdN m.mem b 8 ≠ 0 := h2 (by omega)
        simp only [bind_apply, getM_apply, OUT_OFFSET, Ptr.add, BLOCK_DATA, hnn,
          memcpy_from_cur _ _ _ _ rfl, g1, if_true, advance_block, hmore, ne_eq,
          not_false_eq_true, decide_True, pure_apply, BLOCK_NEXT,
          Nat.add_zero, load64_cur _ _ _ rfl, g2, NULL_OFF, h2b, if_false]
        exact ho

/-! ### The value and the cursor of a read -/

theorem min_sz_eq_min (a b : Nat) : min_sz a b = min a b := by
  unfold min_sz
  by_cases h : a < b
  · rw [if_pos h, Nat.min_eq_left (Nat.le_of_lt h)]
  · rw [if_neg h, Nat.min_eq_right (by omega)]

/-- The number of bytes `read_file` sets out to copy. -/
theorem read_len (len c s : Nat) (hcs : c ≤ s) (hs : s < WORD) :
    min_sz len ((s + (WORD - c % WORD)) % WORD) = min len (s - c) := by
  simp only [WORD] at *
  rw [min_sz_eq_min, Nat.mod_eq_of_lt (by omega : c < 18446744073709551616)]
  have e : s + (18446744073709551616 - c) = (s - c) + 18446744073709551616 := by omega
  rw [e, Nat.add_mod_right, Nat.mod_eq_of_lt (by omega)]

theorem read_file_fueled (fd len : Nat) : Fueled (read_file fd len) := by
  unfold read_file
  refine fueled_bind (fueled_fd_get _) (fun entry => fueled_ite ⟨fun _ h => by cases h⟩ ?_)
  refine fueled_bind fueled_getM (fun _ => fueled_bind (fueled_load64 _) (fun fl => ?_))
  refine fueled_bind (fueled_first_block_of _) (fun _ => fueled_bind (fueled_skip_blocks _ _)
    (fun _ => fueled_bind ?_ (fun _ => fueled_bind (fueled_fd_get _)
      (fun _ => fueled_bind (fueled_fd_set _ _) (fun _ => fueled_pure _)))))
  exact fueled_read_loop _ _ _ _ _ _ (Nat.mod_lt _ (by decide)) (Nat.zero_le _) (by omega)

/-- A read that returns has returned `min(len, size - cursor)` as an `int`,
copied that many bytes and advanced the cursor by as much. -/
theorem read_file_returned (m : Mapper) (fd len f c s : Nat) (hfd : fd < MAX_FD)
    (huse : (m.fd_table fd).in_use ≠ 0)
    (hf : (m.fd_table fd).file = f) (hc : (m.fd_table fd).offset = c)
    (hs : rdN m.mem (f + NODE_FILE_SIZE) 8 = s) (hcs : c ≤ s)
    (r : Int) (out : List Nat) (m2 : Mapper) (h : read_file fd len m = .ok (r, out) m2) :
    r = to_int (min len (s - c)) ∧ out.length = min len (s - c) ∧
      m2.fd_table fd = { m.fd_table fd with offset := c + min len (s - c) } ∧
      ∀ i, i ≠ fd → m2.fd_table i = m.fd_table i := by
  have hsw : s < WORD := by rw [← hs]; exact rdN_lt_word _ _
  have hlen := read_len len c s hcs hsw
  simp only [read_file, bind_apply, fd_get, hfd, if_true, huse, if_false, getM_apply, hf, hc,
    OUT_OFFSET, Ptr.add, load64_cur _ _ _ rfl] at h
  by_cases hin : f + NODE_FILE_SIZE + 8 ≤ m.file_size
  swap
  · rw [if_neg hin] at h; cases h
  rw [if_pos hin] at h
  simp only [hs, hlen] at h
  cases h1 : first_block_of f m with
  | err e m1 => rw [h1] at h; cases h
  | ok first m1 =>
    rw [h1] at h
    simp only at h
    cases h2 : skip_blocks (c / BLOCK_SIZE) first m1 with
    | err e m3 => rw [h2] at h; cases h
    | ok block m3 =>
      rw [h2] at h
      simp only at h
      cases h3 : read_loop (min len (s - c)) (min len (s - c)) block (c % BLOCK_SIZE) 0 [] m3 with
      | err e m4 => rw [h3] at h; cases h
      | ok rr m4 =>
        rw [h3] at h
        simp only [fd_set, hfd, if_true] at h
        obtain ⟨hv, hst⟩ := Res.ok.inj h
        obtain ⟨hr, hout⟩ := Prod.mk.inj hv
        obtain ⟨r1, r2⟩ := read_loop_count _ _ _ _ _ _ _ _ _ h3 (Nat.zero_le _)
        have t1 : m1.fd_table = m.fd_table :=
          (tk_first_block_of f).of_ok (rfl : (fun s => s.fd_table = m.fd_table) m) h1
        have t3 : m3.fd_table = m.fd_table :=
          (tk_skip_blocks _ _).of_ok t1 h2
        have t4 : m4.fd_table = m.fd_table :=
          (tk_read_loop _ _ _ _ _ _).of_ok t3 h3
        have hoff : (c + min len (s - c)) % WORD = c + min len (s - c) := by
          apply Nat.mod_eq_of_lt
          have := Nat.min_le_right len (s - c)
          omega
        refine ⟨hr.symm, ?_, ?_, fun i hi => ?_⟩
        · rw [← hout, r2]; simp
        · rw [← hst]
          simp only [if_true, t4, hc, r1, hoff]
        · rw [← hst]
          simp only [hi, if_false, t4]

/-- A read all of whose accesses lie in the store returns and changes
nothing but the cursor. -/
theorem read_file_in_store (m : Mapper) (fd len f c s : Nat) (hfd : fd < MAX_FD)
    (huse : (m.fd_table fd).in_use ≠ 0)
    (hf : (m.fd_table fd).file = f) (hc : (m.fd_table fd).offset = c)
    (hs : rdN m.mem (f + NODE_FILE_SIZE) 8 = s) (hcs : c ≤ s) (h : ReadInStore m fd len) :
    ∃ out, read_file fd len m = .ok (to_int (min len (s - c)), out)
      { m with fd_table := fun i =>
          if i = fd then { m.fd_table fd with offset := c + min len (s - c) }
          else m.fd_table i } := by
  have hsw : s < WORD := by rw [← hs]; exact rdN_lt_word _ _
  have hlen := read_len len c s hcs hsw
  obtain ⟨hin, hfb, hbc, hrc⟩ := h
  rw [hf] at hin hfb hbc hrc
  rw [hc] at hbc hrc
  rw [hs] at hrc
  have hskip := skip_blocks_chain_block m _ _ hbc
  obtain ⟨out, hloop⟩ := read_loop_chain m (min len (s - c)) (min len (s - c)) _ _ 0 []
    (Nat.zero_le _) hrc
  refine ⟨out, ?_⟩
  simp only [NODE_SIZE, NODE_FILE_SIZE, NODE_FILE_FIRST_BLOCK, NULL_OFF] at hin hfb hs hskip hloop
  have e1 : f + 88 + 8 ≤ m.file_size := by omega
  have e2 : f + 96 + 8 ≤ m.file_size := by omega
  have hoff : (c + min len (s - c)) % WORD = c + min len (s - c) := by
    apply Nat.mod_eq_of_lt
    have := Nat.min_le_right len (s - c)
    omega
  simp only [WORD] at hlen hoff
  simp only [read_file, bind_apply, fd_get, hfd, if_true, huse, if_false, getM_apply, hf, hc,
    OUT_OFFSET, Ptr.add, NODE_FILE_SIZE, load64_cur _ _ _ rfl, e1, hs, WORD, hlen,
    first_block_of, NODE_FILE_FIRST_BLOCK, e2, NULL_OFF, hfb, pure_apply, hskip, hloop, fd_set,
    hoff]

/-- Claim C10 as amended.  For every open handle `fd` with cursor `c` on a
file `f` of size `s` with `c ≤ s`, and every `len`, with
`n = min(len, s - c)`: every `read_file(fd, len)` that returns has copied
exactly `n` bytes and advanced the cursor from `c` to `c + n`, leaving the
rest of the handle table as it was, and the value it has returned is `n`
converted to `int`, which is `n` itself when `n` is below `2^31`; the bound
on the rounds of the copy loop is never met, since every round copies at
least one byte; and when every access of the read lies in the store and
meets no missing block (`ReadInStore`), the read does return, and the store
is the one before the call with the cursor advanced. -/
theorem read_returns_min (m : Mapper) (fd len f c s : Nat) (hfd : fd < MAX_FD)
    (huse : (m.fd_table fd).in_use ≠ 0)
    (hf : (m.fd_table fd).file = f) (hc : (m.fd_table fd).offset = c)
    (hs : rdN m.mem (f + NODE_FILE_SIZE) 8 = s) (hcs : c ≤ s) :
    (∀ r out m2, read_file fd len m = .ok (r, out) m2 →
      r = to_int (min len (s - c)) ∧
      (min len (s - c) < 2147483648 → r = ((min len (s - c) : Nat) : Int)) ∧
      out.length = min len (s - c) ∧
      m2.fd_table fd = { m.fd_table fd with offset := c + min len (s - c) } ∧
      ∀ i, i ≠ fd → m2.fd_table i = m.fd_table i) ∧
    (read_file fd len m).error ≠ some .out_of_fuel ∧
    (ReadInStore m fd len →
      ∃ out, read_file fd len m = .ok (to_int (min len (s - c)), out)
        { m with fd_table := fun i =>
            if i = fd then { m.fd_table fd with offset := c + min len (s - c) }
            else m.fd_table i }) := by
  refine ⟨fun r out m2 h => ?_, (read_file_fueled fd len).run m,
    read_file_in_store m fd len f c s hfd huse hf hc hs hcs⟩
  obtain ⟨h1, h2, h3, h4⟩ := read_file_returned m fd len f c s hfd huse hf hc hs hcs r out m2 h
  refine ⟨h1, fun hn => ?_, h2, h3, h4⟩
  rw [h1]
  unfold to_int
  have e : (min len (s - c) + 2147483648) % 4294967296 = min len (s - c) + 2147483648 :=
    Nat.mod_eq_of_lt (by omega)
  rw [e]
  push_cast
  omega

theorem read_returns_min_witness :
    (ReadInStore store_rewound 0 5000 ∧
      (read_file 0 5000 store_rewound).val.map (fun r => (r.1, r.2.length))
        = some (4098, 4098)) ∧
    (∀ r out m2, read_file 0 5000 store_rewound = .ok (r, out) m2 →
      r = to_int (min 5000 (4098 - 0)) ∧
      (min 5000 (4098 - 0) < 2147483648 → r = ((min 5000 (4098 - 0) : Nat) : Int)) ∧
      out.length = min 5000 (4098 - 0) ∧
      m2.fd_table 0 = { store_rewound.fd_table 0 with offset := 0 + min 5000 (4098 - 0) } ∧
      ∀ i, i ≠ 0 → m2.fd_table i = store_rewound.fd_table i) ∧
    (read_file 0 5000 store_rewound).error ≠ some .out_of_fuel ∧
    (ReadInStore store_rewound 0 5000 →
      ∃ out, read_file 0 5000 store_rewound = .ok (to_int (min 5000 (4098 - 0)), out)
        { store_rewound with fd_table := fun i =>
            if i = 0 then { store_rewound.fd_table 0 with offset := 0 + min 5000 (4098 - 0) }
            else store_rewound.fd_table i }) :=
  ⟨⟨by decide!, by decide!⟩,
    read_returns_min store_rewound 0 5000 4216 0 4098 (by decide) (by decide!) (by decide!)
      (by decide!) (by decide!) (by decide)⟩

/-! ### A read of more than `INT_MAX` bytes -/

theorem rdN_fillN_zero (mem : Nat → Nat) (a n b j : Nat) (h : a ≤ b ∧ b + j ≤ a + n) :
    rdN (fillN mem a n 0) b j = 0 := by
  refine Eq.trans (rdN_congr _ (fun _ => 0) j b ?_) (rdN_zero j b)
  intro x h1 h2
  simp only [fillN]
  rw [if_pos (by omega)]

/-- With the free-block list empty, `new_data_block` appends a block of zero
bytes to the store. -/
theorem new_data_block_grow (m : Mapper) (hsz : m.file_size = 4096 * m.num_blocks)
    (h96 : 104 ≤ m.file_size) (hfree : rdN m.mem 96 8 = 0)
    (hsmall : m.file_size + 4096 ≤ 9223372036854775807) :
    new_data_block m = .ok m.file_size
      { m with file_size := m.file_size + 4096, num_blocks := m.num_blocks + 1,
               root := m.place (m.file_size + 4096),
               mem := fillN (fun a => if a < m.file_size then m.mem a else 0)
                 m.file_size 4096 0 } := by
  have e4 : ¬ (9223372036854775807 < m.file_size + 4096) := by omega
  have e5 : m.num_blocks * 4096 % 18446744073709551616 = m.file_size := by omega
  simp [new_data_block, get_block, get_first_empty_block, grow_store, memset, valid, hfree, h96,
    e4, e5]

/-- Skipping blocks behind the end of the chain appends that many blocks. -/
theorem skip_blocks_tail (s : Nat) (t : Nat → FD) : ∀ j k m, Tail m k s t →
    m.file_size + 4096 * j ≤ 9223372036854775807 →
    ∃ m2, skip_blocks j (8192 + 4096 * k) m = .ok (8192 + 4096 * (k + j)) m2 ∧
      Tail m2 (k + j) s t := by
  intro j
  induction j with
  | zero => intro k m h _; exact ⟨m, rfl, h⟩
  | succ j ih =>
    intro k m h hsmall
    obtain ⟨hsz, hlen, hfree, hfs, hfirst, hlinks, hlast, hfds⟩ := h
    simp only [BLOCK_SIZE, ROOT_FIRST_FREE_BLOCK, NULL_OFF, NODE_FILE_SIZE,
      NODE_FILE_FIRST_BLOCK, BLOCK_NEXT, Nat.add_zero] at hsz hlen hfree hfs hfirst hlinks hlast
    have hnew := new_data_block_grow m hsz (by omega) hfree (by omega)
    have e1 : 8192 + 4096 * k + 8 ≤ m.file_size := by omega
    have e2 : 8192 + 4096 * k + 8 ≤ m.file_size + 4096 := by omega
    have hfsz : m.file_size = 8192 + 4096 * (k + 1) := hlen
    have hrd : ∀ a n, a + n ≤ 8192 + 4096 * k →
        rdN (wrN (fillN (fun a => if a < m.file_size then m.mem a else 0) m.file_size 4096 0)
          (8192 + 4096 * k) 8 m.file_size) a n = rdN m.mem a n := by
      intro a n han
      rw [rdN_wrN_disj _ _ _ _ _ _ (by omega), rdN_fillN_disj _ _ _ _ _ _ (by omega),
        rdN_zext _ _ _ _ (by omega)]
    obtain ⟨m2, hm2, ht2⟩ := ih (k + 1)
      { m with file_size := m.file_size + 4096, num_blocks := m.num_blocks + 1,
               root := m.place (m.file_size + 4096),
               mem := wrN (fillN (fun a => if a < m.file_size then m.mem a else 0)
                 m.file_size 4096 0) (8192 + 4096 * k) 8 m.file_size }
      { size := by simp only [BLOCK_SIZE]; omega
        len := by simp only [BLOCK_SIZE]; omega
        free := by
          simp only [ROOT_FIRST_FREE_BLOCK, NULL_OFF]
          rw [hrd _ _ (by omega)]; exact hfree
        fsize := by
          simp only [NODE_FILE_SIZE]
          rw [hrd _ _ (by omega)]; exact hfs
        first := by
          simp only [NODE_FILE_FIRST_BLOCK]
          rw [hrd _ _ (by omega)]; exact hfirst
        links := by
          intro i hi
          simp only [BLOCK_SIZE, BLOCK_NEXT, Nat.add_zero]
          by_cases hik : i = k
          · rw [hik, rdN_wrN_word _ _ _ (by omega)]
            omega
          · rw [hrd _ _ (by omega)]
            exact hlinks i (by omega)
        last := by
          simp only [BLOCK_SIZE, BLOCK_NEXT, Nat.add_zero, NULL_OFF]
          rw [rdN_wrN_disj _ _ _ _ _ _ (by omega)]
          exact rdN_fillN_zero _ _ _ _ _ (by omega)
        fds := hfds }
      (by show m.file_size + 4096 + 4096 * j ≤ _; omega)
    refine ⟨m2, ?_, ?_⟩
    · have e3 : 8192 + 4096 * (k + (j + 1)) = 8192 + 4096 * (k + 1 + j) := by omega
      rw [e3, ← hm2]
      have hw : rdN (wrN (fillN (fun a => if a < m.file_size then m.mem a else 0)
          m.file_size 4096 0) (8192 + 4096 * k) 8 m.file_size) (8192 + 4096 * k) 8
          = m.file_size := rdN_wrN_word _ _ _ (by omega)
      have hw2 := hw.trans hfsz
      simp only [skip_blocks, bind_apply, getM_apply, OUT_OFFSET, Ptr.add, BLOCK_NEXT,
        Nat.add_zero, load64_cur _ _ _ rfl, e1, if_true, NULL_OFF, hlast, hnew, pure_apply,
        store64, store, load64, load, valid, true_and, e2, hw2]
    · have e3 : k + (j + 1) = k + 1 + j := by omega
      rw [e3]; exact ht2

/-- The first block of a file without blocks, in a store of two blocks
with an empty free-block list: the block is appended to the store. -/
theorem first_block_tail (m : Mapper) (s : Nat) (hsz : m.file_size = 4096 * m.num_blocks)
    (hlen : m.file_size = 8192) (hfree : rdN m.mem 96 8 = 0)
    (hfs : rdN m.mem (4216 + 88) 8 = s) (hfb : rdN m.mem (4216 + 96) 8 = 0) :
    ∃ m2, first_block_of 4216 m = .ok 8192 m2 ∧ Tail m2 0 s m.fd_table := by
  have hnew := new_data_block_grow m hsz (by omega) hfree (by omega)
  have e1 : 4216 + 96 + 8 ≤ m.file_size := by omega
  have e2 : 4216 + 96 + 8 ≤ m.file_size + 4096 := by omega
  have hrd : ∀ a n, a + n ≤ 4216 + 96 →
      rdN (wrN (fillN (fun a => if a < m.file_size then m.mem a else 0) m.file_size 4096 0)
        (4216 + 96) 8 m.file_size) a n = rdN m.mem a n := by
    intro a n han
    rw [rdN_wrN_disj _ _ _ _ _ _ (by omega), rdN_fillN_disj _ _ _ _ _ _ (by omega),
      rdN_zext _ _ _ _ (by omega)]
  have hw : rdN (wrN (fillN (fun a => if a < m.file_size then m.mem a else 0)
      m.file_size 4096 0) (4216 + 96) 8 m.file_size) (4216 + 96) 8 = 8192 :=
    (rdN_wrN_word _ _ _ (by omega)).trans hlen
  refine ⟨{ m with file_size := m.file_size + 4096, num_blocks := m.num_blocks + 1,
                   root := m.place (m.file_size + 4096),
                   mem := wrN (fillN (fun a => if a < m.file_size then m.mem a else 0)
                     m.file_size 4096 0) (4216 + 96) 8 m.file_size }, ?_, ?_⟩
  · simp only [first_block_of, bind_apply, getM_apply, OUT_OFFSET, Ptr.add,
      NODE_FILE_FIRST_BLOCK, load64_cur _ _ _ rfl, e1, if_true, NULL_OFF, hfb, hnew, pure_apply,
      store64, store, load64, load, valid, true_and, e2, hw]
  · exact
      { size := by simp only [BLOCK_SIZE]; omega
        len := by simp only [BLOCK_SIZE]; omega
        free := by
          simp only [ROOT_FIRST_FREE_BLOCK, NULL_OFF]
          rw [hrd _ _ (by omega)]; exact hfree
        fsize := by
          simp only [NODE_FILE_SIZE]
          rw [hrd _ _ (by omega)]; exact hfs
        first := by
          simp only [NODE_FILE_FIRST_BLOCK]
          exact hw
        links := by intro i hi; omega
        last := by
          simp only [BLOCK_SIZE, BLOCK_NEXT, Nat.add_zero, NULL_OFF, Nat.mul_zero]
          rw [rdN_wrN_disj _ _ _ _ _ _ (by omega)]
          exact rdN_fillN_zero _ _ _ _ _ (by omega)
        fds := rfl }

/-- A write of one byte at the position `o`, a multiple of `BLOCK_SIZE`, of
the empty file of a store of two blocks gives the file `o / BLOCK_SIZE + 1`
blocks at the end of the store and the size `o + 2`. -/
theorem write_file_tail (m : Mapper) (data : Nat → Nat) (o K : Nat)
    (hsz : m.file_size = 4096 * m.num_blocks)
    (hlen : m.file_size = 8192) (hfree : rdN m.mem 96 8 = 0)
    (hfs : rdN m.mem (4216 + 88) 8 = 0) (hfb : rdN m.mem (4216 + 96) 8 = 0)
    (huse : (m.fd_table 0).in_use ≠ 0) (hfile : (m.fd_table 0).file = 4216)
    (hoff : (m.fd_table 0).offset = o) (ho : o = 4096 * K)
    (hsmall : 8192 + 4096 * (K + 2) ≤ 9223372036854775807) :
    ∃ m2, write_file 0 data 1 m = .ok 1 m2 ∧
      Tail m2 K (o + 2) (fun i => if i = 0 then { m.fd_table 0 with offset := o + 1 }
        else m.fd_table i) := by
  have e1 : 4216 + 88 + 8 ≤ m.file_size := by omega
  have hfd : (0 : Nat) < MAX_FD := by decide
  have hm1 : (o + 1) % 18446744073709551616 = o + 1 := Nat.mod_eq_of_lt (by omega)
  have hm2 : (o + 1 + 1) % 18446744073709551616 = o + 2 := Nat.mod_eq_of_lt (by omega)
  have hdiv : o / 4096 = K := by omega
  have hmod : o % 4096 = 0 := by omega
  obtain ⟨ma, hma, hta⟩ := first_block_tail
    { m with mem := wrN m.mem (4216 + 88) 8 (o + 2) } (o + 2) hsz hlen
    (by
      show rdN (wrN m.mem (4216 + 88) 8 (o + 2)) 96 8 = 0
      rw [rdN_wrN_disj _ _ _ _ _ _ (by omega)]; exact hfree)
    (by
      show rdN (wrN m.mem (4216 + 88) 8 (o + 2)) (4216 + 88) 8 = o + 2
      exact rdN_wrN_word _ _ _ (by omega))
    (by
      show rdN (wrN m.mem (4216 + 88) 8 (o + 2)) (4216 + 96) 8 = 0
      rw [rdN_wrN_disj _ _ _ _ _ _ (by omega)]; exact hfb)
  obtain ⟨mb, hmb, htb⟩ := skip_blocks_tail (o + 2) m.fd_table K 0 ma hta (by
    have := hta.len
    simp only [BLOCK_SIZE] at this
    omega)
  simp only [Nat.mul_zero, Nat.add_zero, Nat.zero_add] at hmb htb
  obtain ⟨bsz, blen, bfree, bfs, bfirst, blinks, blast, bfds⟩ := htb
  simp only [BLOCK_SIZE, ROOT_FIRST_FREE_BLOCK, NULL_OFF, NODE_FILE_SIZE,
    NODE_FILE_FIRST_BLOCK, BLOCK_NEXT, Nat.add_zero] at bsz blen bfree bfs bfirst blinks blast
  have g1 : 8192 + 4096 * K + 8 + 1 ≤ mb.file_size := by omega
  have g2 : 8192 + 4096 * K + 8 ≤ mb.file_size := by omega
  have hrd : ∀ a n, (a + n ≤ 8192 + 4096 * K + 8 ∨ 8192 + 4096 * K + 9 ≤ a) →
      rdN (wrBytes mb.mem (8192 + 4096 * K + 8) 1 (fun i => data (0 + i))) a n
        = rdN mb.mem a n := by
    intro a n han
    exact rdN_wrBytes_disj _ _ _ _ _ _ (by omega)
  refine ⟨{ mb with mem := wrBytes mb.mem (8192 + 4096 * K + 8) 1 (fun i => data (0 + i)),
                    fd_table := fun i => if i = 0 then { m.fd_table 0 with offset := o + 1 }
                      else m.fd_table i }, ?_, ?_⟩
  · have hmin : min_sz (4096 - 0) (1 - 0) = 1 := by decide
    have h01 : ¬ ((0 : Nat) = 1) := by decide
    simp only [write_file, h01, bind_apply, fd_get, hfd, if_true, huse, if_false, getM_apply, hfile,
      hoff, OUT_OFFSET, Ptr.add, NODE_FILE_SIZE, load64_cur _ _ _ rfl, e1, hfs, WORD, hm1,
      Nat.zero_le, store64_cur _ _ _ _ rfl, hm2, BLOCK_SIZE, hdiv, hmod, hma, hmb, write_loop,
      hmin, BLOCK_DATA, Nat.add_zero, memcpy_to_cur _ _ _ _ _ rfl, g1, advance_block,
      Nat.zero_add, ne_eq, not_true_eq_false, decide_False, Bool.false_eq_true, pure_apply,
      BLOCK_NEXT, g2, fd_set, bfds, to_int, load64, load, valid, true_and]
    norm_num
  · exact
      { size := bsz
        len := blen
        free := by
          simp only [ROOT_FIRST_FREE_BLOCK, NULL_OFF]
          rw [hrd _ _ (by omega)]; exact bfree
        fsize := by
          simp only [NODE_FILE_SIZE]
          rw [hrd _ _ (by omega)]; exact bfs
        first := by
          simp only [NODE_FILE_FIRST_BLOCK]
          rw [hrd _ _ (by omega)]; exact bfirst
        links := by
          intro i hi
          simp only [BLOCK_SIZE, BLOCK_NEXT, Nat.add_zero]
          rw [hrd _ _ (by omega)]
          exact blinks i hi
        last := by
          simp only [BLOCK_SIZE, BLOCK_NEXT, Nat.add_zero, NULL_OFF]
          rw [hrd _ _ (by omega)]; exact blast
        fds := rfl }

/-- The copy loop over full blocks of a chain of linked blocks stays in the
store. -/
theorem read_chain_tail (m : Mapper) (K s : Nat) (t : Nat → FD) (h : Tail m K s t) :
    ∀ j fuel k, k + j ≤ K → j ≤ fuel → ReadChain m fuel (8192 + 4096 * k) 0 (4096 * j) := by
  obtain ⟨hsz, hlen, _, _, _, hlinks, _, _⟩ := h
  simp only [BLOCK_SIZE, BLOCK_NEXT, Nat.add_zero] at hsz hlen hlinks
  intro j
  induction j with
  | zero =>
    intro fuel k _ _
    cases fuel with
    | zero => unfold ReadChain; rfl
    | succ f => unfold ReadChain; exact Or.inl rfl
  | succ j ih =>
    intro fuel k hk hf
    obtain ⟨f, rfl⟩ : ∃ f, fuel = f + 1 := ⟨fuel - 1, by omega⟩
    have hmin : min_sz (4096 - 0) (4096 * (j + 1)) = 4096 := by
      unfold min_sz
      split <;> omega
    unfold ReadChain
    refine Or.inr ?_
    simp only [BLOCK_SIZE, BLOCK_DATA, BLOCK_NEXT, Nat.add_zero, NULL_OFF, hmin,
      hlinks k (by omega)]
    refine ⟨by omega, fun _ => by omega, ?_⟩
    have e : 4096 * (j + 1) - 4096 = 4096 * j := by omega
    rw [e]
    exact ih f (k + 1) (by omega) (by omega)

/-- The store `store_sparse`: the file at 4216 has 2147483650 bytes in 524289
blocks at the end of the store, and handle 0 is open on it with the cursor
at 0. -/
theorem store_sparse_tail :
    ∃ t, Tail store_sparse 524288 2147483650 t ∧ (t 0).in_use ≠ 0 ∧ (t 0).file = 4216 ∧
      (t 0).offset = 0 := by
  have hf : store_file.file_size = 4096 * store_file.num_blocks ∧
      store_file.file_size = 8192 ∧ rdN store_file.mem 96 8 = 0 ∧
      rdN store_file.mem (4216 + 88) 8 = 0 ∧ rdN store_file.mem (4216 + 96) 8 = 0 ∧
      (store_file.fd_table 0).in_use = 1 ∧ (store_file.fd_table 0).file = 4216 := by
    decide!
  obtain ⟨f1, f2, f3, f4, f5, f6, f7⟩ := hf
  have hfd : (0 : Nat) < MAX_FD := by decide
  have hu : (store_file.fd_table 0).in_use ≠ 0 := by rw [f6]; decide
  have hseek : after (seek_file 0 2147483648 SEEK_SET) store_file =
      { store_file with fd_table := fun i =>
          if i = 0 then { store_file.fd_table 0 with offset := 2147483648 }
          else store_file.fd_table i } := by
    simp [after, seek_file, fd_get, fd_set, hfd, hu, SEEK_SET]
  obtain ⟨m2, hw, ht⟩ := write_file_tail
    (after (seek_file 0 2147483648 SEEK_SET) store_file) (fun _ => 120) 2147483648 524288
    (by rw [hseek]; exact f1) (by rw [hseek]; exact f2) (by rw [hseek]; exact f3)
    (by rw [hseek]; exact f4) (by rw [hseek]; exact f5)
    (by rw [hseek]; simpa using hu) (by rw [hseek]; simpa using f7)
    (by rw [hseek]; simp) (by decide) (by decide)
  have hst : after (write_file 0 (fun _ => 120) 1)
      (after (seek_file 0 2147483648 SEEK_SET) store_file) = m2 := by
    unfold after at hw ⊢
    rw [hw]
    rfl
  have hu2 : (m2.fd_table 0).in_use ≠ 0 := by
    rw [ht.fds, hseek]; simpa using hu
  have hseek2 : store_sparse =
      { m2 with fd_table := fun i =>
          if i = 0 then { m2.fd_table 0 with offset := 0 } else m2.fd_table i } := by
    unfold store_sparse
    rw [hst]
    simp [after, seek_file, fd_get, fd_set, hfd, hu2, SEEK_SET]
  obtain ⟨bsz, blen, bfree, bfs, bfirst, blinks, blast, bfds⟩ := ht
  refine ⟨fun i => if i = 0 then { m2.fd_table 0 with offset := 0 } else m2.fd_table i,
    ?_, ?_, ?_, ?_⟩
  · rw [hseek2]
    exact
      { size := bsz
        len := blen
        free := bfree
        fsize := bfs
        first := bfirst
        links := blinks
        last := blast
        fds := rfl }
  · simpa using hu2
  · rw [bfds, hseek]; simpa using f7
  · simp

/-- Claim C10 as stated fails for a read of more than `INT_MAX` bytes.  The
file `f` of `store_sparse` has `s` = 2147483650 bytes (it was given its size
by `seek(2147483648, SET)` and a write of one byte) and handle 0 is open on
it with the cursor `c` = 0.  The call `read_file(0, 2147483648)` returns, has
copied `n = min(len, s - c)` = 2147483648 bytes and advanced the cursor to
2147483648, but the value it returns is -2147483648, not `n`: the function
returns the `size_t` count as an `int`. -/
theorem read_returns_negative :
    (store_sparse.fd_table 0).in_use ≠ 0 ∧ (store_sparse.fd_table 0).file = 4216 ∧
    (store_sparse.fd_table 0).offset = 0 ∧
    rdN store_sparse.mem (4216 + NODE_FILE_SIZE) 8 = 2147483650 ∧
    min 2147483648 (2147483650 - 0) = 2147483648 ∧
    ∃ out m2, read_file 0 2147483648 store_sparse = .ok (-2147483648, out) m2 ∧
      out.length = 2147483648 ∧ (m2.fd_table 0).offset = 2147483648 := by
  obtain ⟨t, ht, hu, hfile, hoff⟩ := store_sparse_tail
  have hfds := ht.fds
  rw [← hfds] at hu hfile hoff
  have hs := ht.fsize
  have hfd : (0 : Nat) < MAX_FD := by decide
  have hn : min 2147483648 (2147483650 - 0) = 2147483648 := by decide
  have hin : ReadInStore store_sparse 0 2147483648 := by
    have hlen := ht.len
    have hfirst := ht.first
    have hchain := read_chain_tail store_sparse 524288 2147483650 t ht 524288 2147483648 0
      (by decide) (by decide)
    simp only [BLOCK_SIZE] at hlen
    refine ⟨by rw [hfile, hlen]; decide, by rw [hfile, hfirst]; decide, ?_, ?_⟩
    · rw [hoff]
      exact trivial
    · rw [hfile, hoff, hs, hfirst, hn]
      exact hchain
  obtain ⟨out, hr⟩ := read_file_in_store store_sparse 0 2147483648 4216 0 2147483650 hfd hu
    hfile hoff hs (by decide) hin
  obtain ⟨_, hlen, hcur, _⟩ := read_file_returned store_sparse 0 2147483648 4216 0 2147483650
    hfd hu hfile hoff hs (by decide) _ _ _ hr
  rw [hn] at hr hlen hcur
  have hv : to_int 2147483648 = -2147483648 := by decide
  rw [hv] at hr
  refine ⟨hu, hfile, hoff, hs, hn, out, _, hr, hlen, ?_⟩
  rw [hcur]

end DumbFs
